import Mathlib

/-!
# compile-experiment: a verification development

Two programs are embedded.

* `SynAn`  — `src/语法分析/main.cpp`: the one-statement lexer (`Lexer::nextToken`), the
  recursive-descent parser `Parser::parseAssignment / parseE / parseT / parseF` and its
  quadruple output.
* `LexAn`  — `src/词法分析/main.cpp`: the C-like tokenizer `get_next_token`, `tokenize`,
  `add_token` and their helpers.

Conventions of the embedding.

* A C/C++ string is a `List Char`; every `Char` stands for one `char` of the program.  The
  `<cctype>` predicates are those of the "C" locale (false outside ASCII).
* A cursor into a buffer (`pos`, `position`) is represented by the unread suffix of the buffer:
  advancing the cursor drops characters from the front.  The cursor position is
  `buffer.length - suffix.length`.
* Standard output is the list of printed lines, oldest first.
* The recursion `parseE → parseT → parseF → parseE` and the `while` loops are written with a
  fuel argument that decreases at every call; `none` means that the fuel ran out.  The entry
  points supply a fuel proportional to the input length, and this is shown to be enough.
* The arrays that `get_next_token` copies a token text into (`identifier[100]`, `number[100]`,
  `string[100]`, then `value[100]`) are left out of `identifier_loop`, `number_loop` and
  `string_loop`, which describe the code for texts of at most 99 characters.
  `number_loop_array` is the number loop with its array: a write outside the array has no
  defined result, written `none`.
-/

namespace CType

/-- C `isspace` in the "C" locale: space, `\t`, `\n`, `\v`, `\f`, `\r`. -/
def isspace (c : Char) : Bool :=
  c.toNat == 32 || (9 ≤ c.toNat && c.toNat ≤ 13)

/-- C `isdigit`. -/
def isdigit (c : Char) : Bool :=
  48 ≤ c.toNat && c.toNat ≤ 57

/-- C `isalpha` in the "C" locale. -/
def isalpha (c : Char) : Bool :=
  (65 ≤ c.toNat && c.toNat ≤ 90) || (97 ≤ c.toNat && c.toNat ≤ 122)

/-- C `isalnum`. -/
def isalnum (c : Char) : Bool :=
  isalpha c || isdigit c

/-- One decimal digit as a character. -/
def digitChar (d : Nat) : Char :=
  Char.ofNat (48 + d)

/-- The decimal digits of `n`, least significant first; `fuel` bounds the number of digits. -/
def digitsRev : Nat → Nat → List Char
  | 0, _ => []
  | fuel + 1, n => digitChar (n % 10) :: (if n / 10 = 0 then [] else digitsRev fuel (n / 10))

/-- C++ `std::to_string` on a non-negative `int`: the decimal representation. -/
def to_string (n : Nat) : List Char :=
  (digitsRev (n + 1) n).reverse

end CType

namespace SynAn

open CType

/-- The `enum TokenType` of the parser program, in declaration order. -/
inductive TokenType
  | ID | NUM | ASSIGN | PLUS | MINUS | MUL | DIV | LPAREN | RPAREN | SEMI | ERR | END
  deriving DecidableEq, Repr

/-- The `struct Token`. -/
structure Token where
  type : TokenType
  value : List Char
  deriving DecidableEq, Repr

/-- The state of `class Lexer`: the unread part `src[pos..]` of the input line. -/
abbrev Lexer := List Char

/-- The `switch (cur)` of `Lexer::nextToken`: the kind of a one-character token. -/
def punct (cur : Char) : TokenType :=
  if cur = '=' then .ASSIGN
  else if cur = '+' then .PLUS
  else if cur = '-' then .MINUS
  else if cur = '*' then .MUL
  else if cur = '/' then .DIV
  else if cur = '(' then .LPAREN
  else if cur = ')' then .RPAREN
  else if cur = ';' then .SEMI
  else .ERR

/-- The method `Lexer::nextToken`: the token read and the lexer after it. -/
def nextToken (src : Lexer) : Token × Lexer :=
  match src.dropWhile isspace with
  | [] => (⟨.END, ['#']⟩, [])
  | cur :: rest =>
    if isalpha cur then
      (⟨.ID, (cur :: rest).takeWhile isalnum⟩, (cur :: rest).dropWhile isalnum)
    else if isdigit cur then
      (⟨.NUM, (cur :: rest).takeWhile isdigit⟩, (cur :: rest).dropWhile isdigit)
    else
      (⟨punct cur, [cur]⟩, rest)

/-- One line written to standard output by the parser. -/
inductive Line
  /-- The line of `match`: `>> [语法错误] 期望符号类型: <expected>，实际读入: <value>`. -/
  | mismatch (expected : TokenType) (actual : List Char)
  /-- The line of `emit`: `[中间代码] (op, arg1, arg2, res)`. -/
  | quad (op arg1 arg2 res : List Char)
  /-- The trace line of `parseE`: `分析表达式 E...`. -/
  | traceE
  /-- The success line `>>> 状态：该语句符合语法规范。`. -/
  | success
  /-- The line `>> [语法错误] 缺少分号 ';'`. -/
  | missingSemi
  /-- The line `>> [语法错误] 缺少赋值号 '='`. -/
  | missingAssign
  /-- The line `>> [语法错误] 语句应以标识符开头`. -/
  | notIdentifier
  deriving DecidableEq, Repr

/-- The fields of `class Parser`, and the lines printed so far.  `tempCount` is an `int` in the
source; it counts the binary operators read, so it stays far below `2^31` on any input line
that fits in memory and is kept as a natural number. -/
structure Parser where
  lexer : Lexer
  look : Token
  tempCount : Nat
  hasError : Bool
  out : List Line
  deriving DecidableEq, Repr

namespace Parser

/-- Writing one line to standard output. -/
def print (p : Parser) (l : Line) : Parser :=
  { p with out := p.out ++ [l] }

/-- The method `newTemp`: `"t" + to_string(++tempCount)`. -/
def newTemp (p : Parser) : List Char × Parser :=
  ('t' :: to_string (p.tempCount + 1), { p with tempCount := p.tempCount + 1 })

/-- The method `match`. -/
def match_ (p : Parser) (expected : TokenType) : Parser :=
  if p.look.type = expected then
    let r := nextToken p.lexer
    { p with look := r.1, lexer := r.2 }
  else if ¬ p.hasError then
    { p.print (.mismatch expected p.look.value) with hasError := true }
  else p

/-- The method `emit`. -/
def emit (p : Parser) (op arg1 arg2 res : List Char) : Parser :=
  p.print (.quad op arg1 arg2 res)

/-- The constructor `Parser(string s)`: the first token is read at once. -/
def init (s : List Char) : Parser :=
  let r := nextToken s
  { lexer := r.2, look := r.1, tempCount := 0, hasError := false, out := [] }

end Parser

mutual

/-- The method `parseE`, `E -> T { (+|-) T }`: the operand name returned and the parser after. -/
def parseE : Nat → Parser → Option (List Char × Parser)
  | 0, _ => none
  | fuel + 1, p =>
    match parseT fuel (p.print .traceE) with
    | none => none
    | some (left, p1) => parseE_loop fuel left p1

/-- The `while` loop of `parseE`, entered with the current value of `left`. -/
def parseE_loop : Nat → List Char → Parser → Option (List Char × Parser)
  | 0, _, _ => none
  | fuel + 1, left, p =>
    if p.look.type = .PLUS ∨ p.look.type = .MINUS then
      match parseT fuel (p.match_ p.look.type) with
      | none => none
      | some (right, p2) =>
        parseE_loop fuel p2.newTemp.1 (p2.newTemp.2.emit p.look.value left right p2.newTemp.1)
    else some (left, p)

/-- The method `parseT`, `T -> F { (*|/) F }`. -/
def parseT : Nat → Parser → Option (List Char × Parser)
  | 0, _ => none
  | fuel + 1, p =>
    match parseF fuel p with
    | none => none
    | some (left, p1) => parseT_loop fuel left p1

/-- The `while` loop of `parseT`, entered with the current value of `left`. -/
def parseT_loop : Nat → List Char → Parser → Option (List Char × Parser)
  | 0, _, _ => none
  | fuel + 1, left, p =>
    if p.look.type = .MUL ∨ p.look.type = .DIV then
      match parseF fuel (p.match_ p.look.type) with
      | none => none
      | some (right, p2) =>
        parseT_loop fuel p2.newTemp.1 (p2.newTemp.2.emit p.look.value left right p2.newTemp.1)
    else some (left, p)

/-- The method `parseF`, `F -> (E) | id | num`. -/
def parseF : Nat → Parser → Option (List Char × Parser)
  | 0, _ => none
  | fuel + 1, p =>
    if p.look.type = .LPAREN then
      match parseE fuel (p.match_ .LPAREN) with
      | none => none
      | some (res, p1) => some (res, p1.match_ .RPAREN)
    else if p.look.type = .ID ∨ p.look.type = .NUM then
      some (p.look.value, p.match_ p.look.type)
    else
      some (['?'], { p with hasError := true })

end

/-- The method `parseAssignment`, `S -> id = E;`, with the fuel handed to `parseE`. -/
def parseAssignmentFrom (fuel : Nat) (p : Parser) : Option Parser :=
  if p.look.type = .ID then
    let target := p.look.value
    let p1 := p.match_ .ID
    if p1.look.type = .ASSIGN then
      match parseE fuel (p1.match_ .ASSIGN) with
      | none => none
      | some (res, p3) =>
        let p4 := p3.emit ['='] res ['_'] target
        if p4.look.type = .SEMI then
          let p5 := p4.match_ .SEMI
          some (if ¬ p5.hasError then p5.print .success else p5)
        else some (p4.print .missingSemi)
    else some (p1.print .missingAssign)
  else some (p.print .notIdentifier)

/-- The parse of `main`: `Parser parser(input); parser.parseAssignment();`.  The result is the
parser when `parseAssignment` returns. -/
def parseAssignment (input : List Char) : Option Parser :=
  parseAssignmentFrom (3 * input.length + 3) (Parser.init input)

/-- The quadruples among the printed lines, in order. -/
def quads (ls : List Line) : List (List Char × List Char × List Char × List Char) :=
  ls.filterMap fun l =>
    match l with
    | .quad op a b r => some (op, a, b, r)
    | _ => none

/-- A printed line is an error diagnostic (a line starting `>> [语法错误]`). -/
def Line.isDiag : Line → Bool
  | .mismatch _ _ => true
  | .missingSemi => true
  | .missingAssign => true
  | .notIdentifier => true
  | _ => false


/-- The tokens `nextToken` returns from `src` on, up to and without the `END` token; `fuel`
bounds their number. -/
def tokensAux : Nat → Lexer → List Token
  | 0, _ => []
  | fuel + 1, src =>
    if (nextToken src).1.type = .END then []
    else (nextToken src).1 :: tokensAux fuel (nextToken src).2

/-- The token sequence of an input line: every token before `END`. -/
def tokens (src : Lexer) : List Token :=
  tokensAux src.length src

/-- The tokens the parser has not consumed yet: the lookahead and what the lexer still holds. -/
def Parser.stream (p : Parser) : List Token :=
  if p.look.type = .END then [] else p.look :: tokens p.lexer

end SynAn

/-! ## The grammar of §4.3 and the reference translation -/

namespace SynAn

open CType

/-- The additive operators `'+' | '-'`. -/
inductive AddOp
  | plus | minus
  deriving DecidableEq, Repr

/-- The multiplicative operators `'*' | '/'`. -/
inductive MulOp
  | times | over
  deriving DecidableEq, Repr

/-- The token of an additive operator. -/
def AddOp.token : AddOp → Token
  | .plus => ⟨.PLUS, ['+']⟩
  | .minus => ⟨.MINUS, ['-']⟩

/-- The token of a multiplicative operator. -/
def MulOp.token : MulOp → Token
  | .times => ⟨.MUL, ['*']⟩
  | .over => ⟨.DIV, ['/']⟩

mutual

/-- Parse trees of `Expr -> Term { ('+'|'-') Term }`, the repetition read as a left-associative
chain: `Expr -> Term | Expr ('+'|'-') Term`. -/
inductive Expr
  | term (t : Term)
  | bin (e : Expr) (op : AddOp) (t : Term)

/-- Parse trees of `Term -> Factor { ('*'|'/') Factor }`, read as
`Term -> Factor | Term ('*'|'/') Factor`. -/
inductive Term
  | factor (f : Factor)
  | bin (t : Term) (op : MulOp) (f : Factor)

/-- Parse trees of `Factor -> '(' Expr ')' | Identifier | Number`. -/
inductive Factor
  | paren (e : Expr)
  | id (name : List Char)
  | num (digits : List Char)

end

mutual

/-- The token sequence an `Expr` tree derives. -/
def Expr.tokens : Expr → List Token
  | .term t => t.tokens
  | .bin e op t => e.tokens ++ op.token :: t.tokens

/-- The token sequence a `Term` tree derives. -/
def Term.tokens : Term → List Token
  | .factor f => f.tokens
  | .bin t op f => t.tokens ++ op.token :: f.tokens

/-- The token sequence a `Factor` tree derives. -/
def Factor.tokens : Factor → List Token
  | .paren e => ⟨.LPAREN, ['(']⟩ :: e.tokens ++ [⟨.RPAREN, [')']⟩]
  | .id name => [⟨.ID, name⟩]
  | .num digits => [⟨.NUM, digits⟩]

end

/-- The token sequence derived from `Statement -> Identifier '=' Expr ';'` with the given
target identifier and expression tree. -/
def stmtTokens (target : List Char) (e : Expr) : List Token :=
  ⟨.ID, target⟩ :: ⟨.ASSIGN, ['=']⟩ :: e.tokens ++ [⟨.SEMI, [';']⟩]

/-- A quadruple `(op, arg1, arg2, result)`. -/
abbrev Quad := List Char × List Char × List Char × List Char

/-- The name of the `k`-th temporary, `t<k>`. -/
def tempName (k : Nat) : List Char :=
  't' :: to_string k

/-- The result of translating a subtree: the quadruples emitted for it, the operand that names
its value, and the number of temporaries issued so far. -/
structure Code where
  quads : List Quad
  operand : List Char
  count : Nat
  deriving DecidableEq, Repr

/-- The quadruple of a binary node: left subtree, right subtree, then
`(op, left-operand, right-operand, t_k)` with `k` the next unused number. -/
def Code.node (op : List Char) (l r : Code) : Code :=
  { quads := l.quads ++ r.quads ++ [(op, l.operand, r.operand, tempName (r.count + 1))],
    operand := tempName (r.count + 1),
    count := r.count + 1 }

mutual

/-- Reference translation of an `Expr` tree, given the number `k` of temporaries already
issued: a post-order, left-to-right walk. -/
def Expr.translate : Expr → Nat → Code
  | .term t, k => t.translate k
  | .bin e op t, k =>
    Code.node op.token.value (e.translate k) (t.translate (e.translate k).count)

/-- Reference translation of a `Term` tree. -/
def Term.translate : Term → Nat → Code
  | .factor f, k => f.translate k
  | .bin t op f, k =>
    Code.node op.token.value (t.translate k) (f.translate (t.translate k).count)

/-- Reference translation of a `Factor` tree: parentheses emit nothing, a leaf is its own
operand. -/
def Factor.translate : Factor → Nat → Code
  | .paren e, k => e.translate k
  | .id name, k => { quads := [], operand := name, count := k }
  | .num digits, k => { quads := [], operand := digits, count := k }

end

/-- Reference translation of the statement `target = e;`: the quadruples of `e` with the
temporaries counted from 1, then `("=", <expr-result>, "_", target)`. -/
def translateStmt (target : List Char) (e : Expr) : List Quad :=
  (e.translate 0).quads ++ [(['='], (e.translate 0).operand, ['_'], target)]

end SynAn

namespace SynAn

/-- The number of characters and lookahead tokens the parser can still consume: the measure
on which the recursion of the parser is well founded. -/
def Parser.size (p : Parser) : Nat :=
  p.lexer.length + (if p.look.type = .END then 0 else 1)

end SynAn

namespace SynAn

/-- The error diagnostics among the printed lines, in order. -/
def diags (ls : List Line) : List Line :=
  ls.filter Line.isDiag

/-- The kind of the first token of a sequence, `END` for the empty sequence. -/
def headType : List Token → TokenType
  | [] => .END
  | t :: _ => t.type

/-- The parser `p'` is `p` some steps later, having printed lines whose quadruples are `qs` and
no diagnostic, with the error flag untouched. -/
structure Parser.Adv (p p' : Parser) (qs : List Quad) : Prop where
  hasError : p'.hasError = p.hasError
  out : ∃ ls, p'.out = p.out ++ ls ∧ quads ls = qs ∧ diags ls = []

end SynAn

namespace SynAn

/-- The parse tree of the right-hand side of `ans = (a + b) * 10;`. -/
def sampleExpr : Expr :=
  .term (.bin
    (.factor (.paren (.bin (.term (.factor (.id "a".toList))) .plus (.factor (.id "b".toList)))))
    .times (.num "10".toList))

end SynAn

/-! ## Executing quadruples, evaluating parse trees -/

namespace CType

/-- The number a list of decimal digits denotes, least significant digit first. -/
def digitsVal : List Char → Nat
  | [] => 0
  | c :: cs => (c.toNat - 48) + 10 * digitsVal cs

end CType

namespace SynAn

open CType

/-- An operand is numeric: a non-empty run of digits, the text of a `NUM` token. -/
def isNumber (a : List Char) : Bool :=
  !a.isEmpty && a.all isdigit

/-- A name has the form `t<decimal digits>`, the form of the generated temporaries. -/
def isTempLike (s : List Char) : Bool :=
  match s with
  | [] => false
  | c :: ds => c == 't' && isNumber ds

section Exec

variable {V : Type}

/-- The value an operand denotes: its literal value if it is numeric, else the value the
environment holds for it. -/
def denote (lit : List Char → V) (env : List Char → V) (a : List Char) : V :=
  if isNumber a then lit a else env a

/-- The environment after the assignment `r := v`. -/
def assign (env : List Char → V) (r : List Char) (v : V) : List Char → V :=
  fun x => if x = r then v else env x

/-- Executing one quadruple: `(=, a, _, r)` sets `r := a`, and `(op, a, b, r)` sets
`r := a op b`. -/
def step (sem : List Char → V → V → V) (lit : List Char → V) (env : List Char → V)
    (q : Quad) : List Char → V :=
  if q.1 = ['='] then assign env q.2.2.2 (denote lit env q.2.1)
  else assign env q.2.2.2 (sem q.1 (denote lit env q.2.1) (denote lit env q.2.2.1))

/-- Executing quadruples in order. -/
def run (sem : List Char → V → V → V) (lit : List Char → V) (env : List Char → V)
    (qs : List Quad) : List Char → V :=
  qs.foldl (step sem lit) env

end Exec

mutual

/-- The value of an `Expr` tree: the tree already carries the precedence, the left
associativity and the parentheses. -/
def Expr.eval {V : Type} (sem : List Char → V → V → V) (lit : List Char → V)
    (env : List Char → V) : Expr → V
  | .term t => t.eval sem lit env
  | .bin e op t => sem op.token.value (e.eval sem lit env) (t.eval sem lit env)

/-- The value of a `Term` tree. -/
def Term.eval {V : Type} (sem : List Char → V → V → V) (lit : List Char → V)
    (env : List Char → V) : Term → V
  | .factor f => f.eval sem lit env
  | .bin t op f => sem op.token.value (t.eval sem lit env) (f.eval sem lit env)

/-- The value of a `Factor` tree. -/
def Factor.eval {V : Type} (sem : List Char → V → V → V) (lit : List Char → V)
    (env : List Char → V) : Factor → V
  | .paren e => e.eval sem lit env
  | .id name => env name
  | .num digits => lit digits

end

/-- A leaf token is usable as an operand: an identifier is not numeric and not of the form
`t<digits>`, a number is numeric. -/
def Token.leafOk (tok : Token) : Prop :=
  (tok.type = .ID → isNumber tok.value = false ∧ isTempLike tok.value = false) ∧
  (tok.type = .NUM → isNumber tok.value = true)

end SynAn

namespace SynAn

/-- The code `c`, produced with `k` temporaries already issued, computes the value `v` from the
environment `env`: executing it leaves `v` in its operand, writes only temporaries numbered in
`(k, c.count]`, and its operand is not a temporary still to be issued. -/
def Code.Sound {V : Type} (sem : List Char → V → V → V) (lit : List Char → V) (c : Code)
    (k : Nat) (env : List Char → V) (v : V) : Prop :=
  denote lit (run sem lit env c.quads) c.operand = v ∧
  (∀ x, (∀ j, k < j → j ≤ c.count → x ≠ tempName j) → run sem lit env c.quads x = env x) ∧
  k ≤ c.count ∧
  (∀ j, c.count < j → c.operand ≠ tempName j)

end SynAn

namespace SynAn

open CType

/-- A sample interpretation of the four operators, on natural numbers. -/
def sampleSem (op : List Char) (a b : Nat) : Nat :=
  if op = ['+'] then a + b else if op = ['-'] then a - b else if op = ['*'] then a * b else a / b

/-- The literal value of a decimal numeral. -/
def sampleLit (ds : List Char) : Nat :=
  digitsVal ds.reverse

/-- A sample environment: `a = 2`, `b = 3`, every other name `0`. -/
def sampleEnv (x : List Char) : Nat :=
  if x = ['a'] then 2 else if x = ['b'] then 3 else 0

end SynAn

namespace SynAn

/-- A printed line is the diagnostic of `match`. -/
def Line.isMismatch : Line → Bool
  | .mismatch _ _ => true
  | _ => false

/-- A printed line is one of the three diagnostics of `parseAssignment` itself. -/
def Line.isStmtDiag : Line → Bool
  | .missingSemi => true
  | .missingAssign => true
  | .notIdentifier => true
  | _ => false

/-- What the expression parser may print between two states: neither the success line nor a
diagnostic of `parseAssignment`, at most one diagnostic of `match`, none once the error flag
is up, and the flag stays up. -/
def Parser.Sticky (p p' : Parser) : Prop :=
  ∃ ls, p'.out = p.out ++ ls ∧ Line.success ∉ ls ∧ ls.filter Line.isStmtDiag = [] ∧
    (ls.filter Line.isMismatch).length ≤ 1 ∧
    (p.hasError = true → ls.filter Line.isMismatch = [] ∧ p'.hasError = true) ∧
    (ls.filter Line.isMismatch ≠ [] → p'.hasError = true)

end SynAn

namespace SynAn

/-- The lookahead was produced by `Lexer::nextToken`. -/
def Parser.LookOk (p : Parser) : Prop :=
  ∃ s, p.look = (nextToken s).1

/-- The text of the one-character tokens. -/
def symbol : TokenType → List Char
  | .ASSIGN => ['=']
  | .PLUS => ['+']
  | .MINUS => ['-']
  | .MUL => ['*']
  | .DIV => ['/']
  | .LPAREN => ['(']
  | .RPAREN => [')']
  | .SEMI => [';']
  | _ => []

/-- The run of `parseAssignment` on `input` prints the success line. -/
def printsSuccess (input : List Char) : Bool :=
  match parseAssignment input with
  | some p => decide (Line.success ∈ p.out)
  | none => false

end SynAn

/-! ## The C-like tokenizer of `src/词法分析/main.cpp` -/

namespace CType

/-- The terminator `'\0'` of a C string. -/
def NUL : Char := Char.ofNat 0

/-- The newline character. -/
def NL : Char := Char.ofNat 10

/-- The double quote. -/
def DQUOTE : Char := Char.ofNat 34

/-- The single quote. -/
def SQUOTE : Char := Char.ofNat 39

/-- The backslash. -/
def BSLASH : Char := Char.ofNat 92

end CType

namespace LexAn

open CType

/-- The `enum TokenType` of the tokenizer, in declaration order. -/
inductive TokenType
  | KEYWORD | IDENTIFIER | NUMBER | OPERATOR | DELIMITER | STRING | CHARACTER | COMMENT
  | END_OF_FILE | UNKNOWN
  deriving DecidableEq, Repr

/-- The `struct Token`.  The field `value` is a `char[100]`; the embedding keeps the whole text
(the source overruns the buffer on a token of more than 99 characters). -/
structure Token where
  type : TokenType
  value : List Char
  line : Int
  column : Int
  deriving DecidableEq, Repr

/-- The table `keywords`. -/
def keywords : List (List Char) :=
  ["auto", "break", "case", "char", "const", "continue", "default",
   "do", "double", "else", "enum", "extern", "float", "for", "goto",
   "if", "int", "long", "register", "return", "short", "signed",
   "sizeof", "static", "struct", "switch", "typedef", "union",
   "unsigned", "void", "volatile", "while"].map String.toList

/-- The table `operators`. -/
def operators : List (List Char) :=
  ["+", "-", "*", "/", "%", "++", "--", "==", "!=", ">", "<", ">=", "<=",
   "&&", "||", "!", "&", "|", "^", "~", "<<", ">>", "=", "+=", "-=", "*=",
   "/=", "%=", "&=", "|=", "^=", "<<=", ">>="].map String.toList

/-- The table `delimiters`. -/
def delimiters : List (List Char) :=
  [",", ";", "(", ")", "[", "]", "\x7b", "\x7d", ".", "->"].map String.toList

/-- The globals `source_code + position`, `line`, `column`: the unread part of the buffer up
to its terminator, and the line and column counters. -/
structure Cursor where
  rest : List Char
  line : Int
  column : Int
  deriving DecidableEq, Repr

/-- The character `source_code[position]`; the terminator when nothing is left. -/
def Cursor.cur (s : Cursor) : Char :=
  s.rest.headD NUL

/-- The character `source_code[position + 1]`. -/
def Cursor.next (s : Cursor) : Char :=
  s.rest.tail.headD NUL

/-- The function `is_keyword`. -/
def is_keyword (str : List Char) : Bool :=
  keywords.any (fun k => str == k)

/-- The function `is_operator`. -/
def is_operator (str : List Char) : Bool :=
  operators.any (fun k => str == k)

/-- The function `is_delimiter`: the character is the first character of a table entry. -/
def is_delimiter (c : Char) : Bool :=
  delimiters.any (fun k => c == k.headD NUL)

/-- The loop of `skip_whitespace`. -/
def skip_whitespace_loop : List Char → Int → Int → Cursor
  | [], line, column => ⟨[], line, column⟩
  | c :: cs, line, column =>
    if c ≠ NUL ∧ isspace c = true then
      if c = NL then skip_whitespace_loop cs (line + 1) 1
      else skip_whitespace_loop cs line (column + 1)
    else ⟨c :: cs, line, column⟩

/-- The function `skip_whitespace`. -/
def skip_whitespace (s : Cursor) : Cursor :=
  skip_whitespace_loop s.rest s.line s.column

/-- The loop of the `//` branch of `skip_comment`. -/
def line_comment_loop : List Char → Int → Int → Cursor
  | [], line, column => ⟨[], line, column⟩
  | c :: cs, line, column =>
    if c ≠ NUL ∧ c ≠ NL then line_comment_loop cs line (column + 1)
    else ⟨c :: cs, line, column⟩

/-- The loop of the `/*` branch of `skip_comment`. -/
def block_comment_loop : List Char → Int → Int → Cursor
  | [], line, column => ⟨[], line, column⟩
  | c :: cs, line, column =>
    if c ≠ NUL ∧ ¬ (c = '*' ∧ cs.headD NUL = '/') then
      if c = NL then block_comment_loop cs (line + 1) 1
      else block_comment_loop cs line (column + 1)
    else ⟨c :: cs, line, column⟩

/-- The function `skip_comment`. -/
def skip_comment (s : Cursor) : Cursor :=
  if s.cur = '/' ∧ s.next = '/' then
    line_comment_loop s.rest s.line s.column
  else if s.cur = '/' ∧ s.next = '*' then
    let s1 := block_comment_loop (s.rest.drop 2) s.line (s.column + 2)
    if s1.cur = '*' then ⟨s1.rest.drop 2, s1.line, s1.column + 2⟩ else s1
  else s

/-- The function `is_valid_number`, with the number of dots seen so far. -/
def is_valid_number_from : List Char → Nat → Bool
  | [], _ => true
  | c :: cs, dots =>
    if c = '.' then
      if dots + 1 > 1 then false else is_valid_number_from cs (dots + 1)
    else if ¬ isdigit c = true then false
    else is_valid_number_from cs dots

/-- The function `is_valid_number`. -/
def is_valid_number (str : List Char) : Bool :=
  is_valid_number_from str 0

/-- The loop of the identifier branch: the characters copied and the unread rest.  The array
`char identifier[100]` is left out: the definition describes the loop as long as the text has
at most 99 characters. -/
def identifier_loop : List Char → List Char × List Char
  | [] => ([], [])
  | c :: cs =>
    if isalnum c = true ∨ c = '_' then ((c :: (identifier_loop cs).1), (identifier_loop cs).2)
    else ([], c :: cs)

/-- The loop of the number branch, with the current `dot_count`: the characters copied and the
unread rest.  The array `char number[100]` the characters are copied into is left out here: the
definition describes the loop as long as the text has at most 99 characters, and
`number_loop_array` is the loop with the array. -/
def number_loop : List Char → Nat → List Char × List Char
  | [], _ => ([], [])
  | c :: cs, dots =>
    if isdigit c = true ∨ c = '.' then
      if c = '.' then
        if dots + 1 > 1 then ([], c :: cs)
        else ((c :: (number_loop cs (dots + 1)).1), (number_loop cs (dots + 1)).2)
      else ((c :: (number_loop cs dots).1), (number_loop cs dots).2)
    else ([], c :: cs)

/-- The loop of the string branch, after the opening quote: the characters copied and the
unread rest.  The array `char string[100]` is left out: the definition describes the loop as
long as the text, quotes included, has at most 99 characters. -/
def string_loop : List Char → List Char × List Char
  | [] => ([], [])
  | c :: cs =>
    if c ≠ NUL ∧ c ≠ DQUOTE then ((c :: (string_loop cs).1), (string_loop cs).2)
    else ([], c :: cs)

/-- What a branch of `get_next_token` produces: the kind, the text copied, the unread rest. -/
structure Scan where
  type : TokenType
  value : List Char
  rest : List Char
  deriving DecidableEq, Repr

/-- The string branch, entered at the opening quote. -/
def scan_string (rest : List Char) : Scan :=
  let r := string_loop (rest.drop 1)
  if r.2.headD NUL = DQUOTE then ⟨.STRING, DQUOTE :: r.1 ++ [DQUOTE], r.2.drop 1⟩
  else ⟨.UNKNOWN, DQUOTE :: r.1, r.2⟩

/-- The end of the character branch: the check for the closing quote. -/
def scan_char_close (character : List Char) (rest : List Char) : Scan :=
  if rest.headD NUL = SQUOTE then ⟨.CHARACTER, character ++ [SQUOTE], rest.drop 1⟩
  else ⟨.UNKNOWN, character, rest⟩

/-- The character branch, entered at the opening quote. -/
def scan_char (rest : List Char) : Scan :=
  match rest.drop 1 with
  | [] => ⟨.UNKNOWN, [SQUOTE], []⟩
  | c :: cs =>
    if c = NUL then ⟨.UNKNOWN, [SQUOTE], c :: cs⟩
    else if c = BSLASH then
      if cs.headD NUL ≠ NUL then scan_char_close [SQUOTE, BSLASH, cs.headD NUL] (cs.drop 1)
      else ⟨.UNKNOWN, [SQUOTE, BSLASH], cs⟩
    else scan_char_close [SQUOTE, c] cs

/-- The string `next_symbol`: `symbol` followed by `source_code[position]`; as a C string it is
`symbol` itself when that character is the terminator. -/
def next_symbol (symbol : List Char) (rest : List Char) : List Char :=
  if rest.headD NUL = NUL then symbol else symbol ++ [rest.headD NUL]

/-- The loop of the operator and delimiter branch, with the current `symbol`, and the code
after it. -/
def operator_loop : List Char → List Char → Scan
  | [], symbol => ⟨.UNKNOWN, symbol, []⟩
  | c :: cs, symbol =>
    if c ≠ NUL ∧ ¬ isspace c = true ∧ ¬ isalnum c = true ∧ c ≠ '_' ∧ c ≠ DQUOTE ∧ c ≠ SQUOTE
    then
      if is_operator (next_symbol (symbol ++ [c]) cs) = true then
        operator_loop cs (symbol ++ [c])
      else if is_operator (symbol ++ [c]) = true then ⟨.OPERATOR, symbol ++ [c], cs⟩
      else if (symbol ++ [c]).length = 1 ∧ is_delimiter ((symbol ++ [c]).headD NUL) = true then
        ⟨.DELIMITER, symbol ++ [c], cs⟩
      else ⟨.UNKNOWN, symbol ++ [c], cs⟩
    else ⟨.UNKNOWN, symbol, c :: cs⟩

/-- The part of `get_next_token` after whitespace, end of file and comments: the branches for
identifiers and keywords, numbers, strings, characters, operators and delimiters. -/
def scan (rest : List Char) : Scan :=
  if isalpha (rest.headD NUL) = true ∨ rest.headD NUL = '_' then
    ⟨if is_keyword (identifier_loop rest).1 = true then .KEYWORD else .IDENTIFIER,
      (identifier_loop rest).1, (identifier_loop rest).2⟩
  else if isdigit (rest.headD NUL) = true ∨
      (rest.headD NUL = '.' ∧ isdigit (rest.tail.headD NUL) = true) then
    ⟨if is_valid_number (number_loop rest 0).1 = true then .NUMBER else .UNKNOWN,
      (number_loop rest 0).1, (number_loop rest 0).2⟩
  else if rest.headD NUL = DQUOTE then scan_string rest
  else if rest.headD NUL = SQUOTE then scan_char rest
  else operator_loop rest []

/-- The function `get_next_token`; the fuel bounds the chain of recursive calls made after
comments.  The token carries the line and column at the entry of the call that built it;
every character copied into the token advances `column` by one and leaves `line` alone. -/
def get_next_token_aux : Nat → Cursor → Option (Token × Cursor)
  | 0, _ => none
  | fuel + 1, s0 =>
    let s := skip_whitespace s0
    if s.cur = NUL then
      some (⟨.END_OF_FILE, "EOF".toList, s0.line, s0.column⟩, s)
    else if s.cur = '/' ∧ (s.next = '/' ∨ s.next = '*') then
      get_next_token_aux fuel (skip_comment s)
    else
      some (⟨(scan s.rest).type, (scan s.rest).value, s0.line, s0.column⟩,
        ⟨(scan s.rest).rest, s.line, s.column + (scan s.rest).value.length⟩)

/-- The function `get_next_token`, with fuel for one recursive call per unread character. -/
def get_next_token (s : Cursor) : Option (Token × Cursor) :=
  get_next_token_aux (s.rest.length + 1) s

/-- The globals of the tokenizer: the cursor and the array `tokens`. -/
structure State where
  cursor : Cursor
  tokens : List Token
  deriving DecidableEq, Repr

/-- The function `add_token`: the text is cut to 99 characters, the line is the current line
and the column is the current column minus `strlen(value)`. -/
def add_token (st : State) (type : TokenType) (value : List Char) : State :=
  { st with tokens := st.tokens ++
      [⟨type, value.take 99, st.cursor.line, st.cursor.column - value.length⟩] }

/-- The `do ... while` loop of `tokenize`; the fuel bounds the number of iterations. -/
def tokenize_loop : Nat → State → Option State
  | 0, _ => none
  | fuel + 1, st =>
    match get_next_token st.cursor with
    | none => none
    | some (token, c) =>
      let st1 : State := { st with cursor := c }
      let st2 := if token.type ≠ .END_OF_FILE then add_token st1 token.type token.value else st1
      if token.value ≠ "EOF".toList then tokenize_loop fuel st2 else some st2

/-- The state after `init_lexer` has loaded the buffer `source`. -/
def init_lexer (source : List Char) : State :=
  ⟨⟨source, 1, 1⟩, []⟩

/-- The function `tokenize` run on a freshly loaded buffer: the array `tokens` at the end. -/
def tokenize (source : List Char) : Option (List Token) :=
  (tokenize_loop (source.length + 1) (init_lexer source)).map State.tokens

end LexAn

namespace LexAn

open CType

/-- The line of the character at offset `pos` of `source`: 1 plus the number of newline
characters before it. -/
def lineOf (source : List Char) (pos : Nat) : Int :=
  1 + ((source.take pos).filter (fun c => c == NL)).length

/-- The column of the character at offset `pos` of `source`: 1 plus the number of characters
between the last newline before it (or the start of the buffer) and it. -/
def columnOf (source : List Char) (pos : Nat) : Int :=
  1 + ((source.take pos).reverse.takeWhile (fun c => c != NL)).length

/-- The buffer `"a⏎b" x`: a string literal that holds a newline, then an identifier. -/
def sampleNewlineInString : List Char :=
  [DQUOTE, 'a', NL, 'b', DQUOTE, ' ', 'x']

end LexAn

namespace LexAn

open CType

/-- The cursor at which `get_next_token` starts to build a token: after the whitespace and the
comments that the call, and the recursive calls it makes after each comment, skip.  The fuel
bounds the number of comments. -/
def skip_blanks_aux : Nat → Cursor → Cursor
  | 0, s => s
  | fuel + 1, s0 =>
    if (skip_whitespace s0).cur = NUL then skip_whitespace s0
    else if (skip_whitespace s0).cur = '/' ∧
        ((skip_whitespace s0).next = '/' ∨ (skip_whitespace s0).next = '*') then
      skip_blanks_aux fuel (skip_comment (skip_whitespace s0))
    else skip_whitespace s0

/-- The cursor after whitespace and comments, with fuel for one comment per unread
character. -/
def skip_blanks (s : Cursor) : Cursor :=
  skip_blanks_aux (s.rest.length + 1) s

/-- What `get_next_token` returns once it stands at `b`, after whitespace and comments, when
the call that builds the token was entered at the given line and column. -/
def token_at (b : Cursor) (line column : Int) : Token × Cursor :=
  if b.cur = NUL then (⟨.END_OF_FILE, "EOF".toList, line, column⟩, b)
  else (⟨(scan b.rest).type, (scan b.rest).value, line, column⟩,
    ⟨(scan b.rest).rest, b.line, b.column + (scan b.rest).value.length⟩)

/-- A character of a number: a digit or the dot. -/
def isNumberChar (c : Char) : Bool :=
  isdigit c || c == '.'

/-- A character of an identifier: a letter, a digit or the underscore. -/
def isIdentChar (c : Char) : Bool :=
  isalpha c || isdigit c || c == '_'

end LexAn

namespace LexAn

open CType

/-- The kinds and texts of the results of successive calls of `get_next_token` from the cursor
`s` on, up to and without the first result of kind `END_OF_FILE`; `fuel` bounds the number of
calls. -/
def successive_tokens : Nat → Cursor → List (TokenType × List Char)
  | 0, _ => []
  | fuel + 1, s =>
    match get_next_token s with
    | none => []
    | some (tok, s') =>
      if tok.type = .END_OF_FILE then []
      else (tok.type, tok.value) :: successive_tokens fuel s'

end LexAn

namespace LexAn

end LexAn

namespace SynAn

/-- The number of `(` tokens of a token sequence. -/
def lparens (ts : List Token) : Nat :=
  ts.countP (fun t => t.type == .LPAREN)

/-- The number of entries into `parseE` so far: `parseE` prints its trace line at every
entry. -/
def Parser.entries (p : Parser) : Nat :=
  p.out.count .traceE

end SynAn

namespace SynAn

open CType

/-- The four binary operators, as they stand in the operator field of a quadruple. -/
def binaryOps : List (List Char) :=
  [['+'], ['-'], ['*'], ['/']]

/-- The result fields of the quadruples emitted with a binary operator, in emission order:
the names `newTemp` returned. -/
def tempResults (qs : List Quad) : List (List Char) :=
  (qs.filter (fun q => decide (q.1 ∈ binaryOps))).map (fun q => q.2.2.2)

/-- The names `t1, t2, …, tn`. -/
def temps (n : Nat) : List (List Char) :=
  (List.range n).map (fun i => tempName (i + 1))

/-- An argument is admissible after the results `defined`: it is not of the form
`t<digits>`, or it is one of `defined`. -/
def argOk (defined : List (List Char)) (a : List Char) : Bool :=
  !isTempLike a || decide (a ∈ defined)

/-- Every argument of the form `t<digits>` of a quadruple is the result of a strictly earlier
quadruple (or one of the names `defined` beforehand). -/
def defBeforeUse (defined : List (List Char)) : List Quad → Bool
  | [] => true
  | q :: qs =>
    argOk defined q.2.1 && argOk defined q.2.2.1 && defBeforeUse (defined ++ [q.2.2.2]) qs

/-- No identifier of the token sequence has the form `t<decimal digits>`. -/
def noTempLikeIds (ts : List Token) : Prop :=
  ∀ tok ∈ ts, tok.type = .ID → isTempLike tok.value = false

/-- The invariant of the expression parser on temporaries: the lookahead comes from the lexer,
every quadruple printed so far has a binary operator, and their results are
`t1 … t<tempCount>`. -/
def Parser.TempsOk (p : Parser) : Prop :=
  p.LookOk ∧ (∀ q ∈ quads p.out, q.1 ∈ binaryOps) ∧
    (quads p.out).map (fun q => q.2.2.2) = temps p.tempCount

/-- What a parsing function guarantees about temporaries, from the parser `p` at the call to
the operand `r.1` and parser `r.2` at the return; `pre` is what a loop assumes of the operand
it is entered with. -/
def Parser.TempsStep (pre : Prop) (p : Parser) (r : List Char × Parser) : Prop :=
  p.TempsOk → r.2.TempsOk ∧ p.tempCount ≤ r.2.tempCount ∧
    (noTempLikeIds p.stream → defBeforeUse [] (quads p.out) = true → pre →
      noTempLikeIds r.2.stream ∧ defBeforeUse [] (quads r.2.out) = true ∧
        argOk (temps r.2.tempCount) r.1 = true)

end SynAn

namespace LexAn

open CType

/-- The loop of the number branch together with its array `char number[100]`: `i` is the index
of the next write.  Every write, `number[i++] = source_code[position++]` in the loop and the
terminator `number[i] = 0` after it, needs `i < 100`; a write outside the array has no
defined result (`none`).  Otherwise as `number_loop`. -/
def number_loop_array : List Char → Nat → Nat → Option (List Char × List Char)
  | [], _, i => if i < 100 then some ([], []) else none
  | c :: cs, dots, i =>
    if isdigit c = true ∨ c = '.' then
      if c = '.' then
        if dots + 1 > 1 then (if i < 100 then some ([], c :: cs) else none)
        else if i < 100 then
          (number_loop_array cs (dots + 1) (i + 1)).map (fun r => (c :: r.1, r.2))
        else none
      else if i < 100 then
        (number_loop_array cs dots (i + 1)).map (fun r => (c :: r.1, r.2))
      else none
    else if i < 100 then some ([], c :: cs) else none

/-- The number branch of `get_next_token` together with its array: the kind from
`is_valid_number`, and the text that `strcpy` copies from `number` into `char value[100]`. -/
def scan_number_array (rest : List Char) : Option Scan :=
  (number_loop_array rest 0 0).map
    (fun r => ⟨if is_valid_number r.1 = true then .NUMBER else .UNKNOWN, r.1, r.2⟩)

end LexAn

/-! # Theorems -/

namespace SynAn

open CType

theorem length_dropWhile_le_aux (f : Char → Bool) (l : List Char) :
    (l.dropWhile f).length ≤ l.length := by
  induction l with
  | nil => simp
  | cons a t ih =>
    by_cases h : f a = true
    · simp [List.dropWhile_cons_of_pos h]; omega
    · simp [List.dropWhile_cons_of_neg h]

theorem nextToken_length_le (src : Lexer) : (nextToken src).2.length ≤ src.length := by
  have h0 := length_dropWhile_le_aux isspace src
  unfold nextToken
  split
  · simp
  · rename_i cur rest heq
    rw [heq] at h0
    simp only [List.length_cons] at h0
    split
    · have := length_dropWhile_le_aux isalnum (cur :: rest)
      simp only [List.length_cons] at this
      simp only; omega
    · split
      · have := length_dropWhile_le_aux isdigit (cur :: rest)
        simp only [List.length_cons] at this
        simp only; omega
      · simp only; omega

theorem punct_ne_END (c : Char) : punct c ≠ .END := by
  unfold punct
  repeat (split; · simp)
  simp

theorem nextToken_length_lt (src : Lexer) (h : (nextToken src).1.type ≠ .END) :
    (nextToken src).2.length < src.length := by
  have h0 := length_dropWhile_le_aux isspace src
  unfold nextToken at h ⊢
  split
  · rename_i heq; rw [heq] at h; simp at h
  · rename_i cur rest heq
    rw [heq] at h0
    simp only [List.length_cons] at h0
    split
    · rename_i ha
      have hc : isalnum cur = true := by simp [isalnum, ha]
      have := length_dropWhile_le_aux isalnum rest
      simp only [List.dropWhile_cons_of_pos hc]; omega
    · split
      · rename_i ha hd
        have hc : isalnum cur = true := by simp [isalnum, hd]
        have := length_dropWhile_le_aux isdigit rest
        simp only [List.dropWhile_cons_of_pos hd]; omega
      · simp only; omega

theorem tokensAux_fuel (n : Nat) : ∀ (m : Nat) (src : Lexer), src.length ≤ n → src.length ≤ m →
    tokensAux n src = tokensAux m src := by
  induction n with
  | zero =>
    intro m src hn hm
    have : src = [] := List.length_eq_zero.mp (Nat.le_zero.mp hn)
    subst this
    cases m with
    | zero => rfl
    | succ m => simp [tokensAux, nextToken]
  | succ n ih =>
    intro m src hn hm
    cases m with
    | zero =>
      have : src = [] := List.length_eq_zero.mp (Nat.le_zero.mp hm)
      subst this
      simp [tokensAux, nextToken]
    | succ m =>
      simp only [tokensAux]
      split
      · rfl
      · rename_i h
        have := nextToken_length_lt src h
        rw [ih m (nextToken src).2 (by omega) (by omega)]

theorem tokens_step (src : Lexer) (h : (nextToken src).1.type ≠ .END) :
    tokens src = (nextToken src).1 :: tokens (nextToken src).2 := by
  have hlt := nextToken_length_lt src h
  unfold tokens
  obtain ⟨k, hk⟩ : ∃ k, src.length = k + 1 := ⟨src.length - 1, by omega⟩
  rw [hk]
  simp only [tokensAux, if_neg h]
  rw [tokensAux_fuel k (nextToken src).2.length (nextToken src).2 (by omega) (le_refl _)]

theorem tokens_end (src : Lexer) (h : (nextToken src).1.type = .END) : tokens src = [] := by
  unfold tokens
  cases hl : src.length with
  | zero => rfl
  | succ k => simp [tokensAux, h]

/-- The tokens of the whole line are the stream of the freshly constructed parser. -/
theorem stream_init (input : List Char) : (Parser.init input).stream = tokens input := by
  unfold Parser.stream Parser.init
  simp only
  split
  · rename_i h; exact (tokens_end input h).symm
  · rename_i h; exact (tokens_step input h).symm

end SynAn

namespace SynAn

/-- More fuel never changes a result: all five parsing functions at once. -/
theorem parse_fuel_succ (n : Nat) :
    (∀ p r, parseE n p = some r → parseE (n + 1) p = some r) ∧
    (∀ l p r, parseE_loop n l p = some r → parseE_loop (n + 1) l p = some r) ∧
    (∀ p r, parseT n p = some r → parseT (n + 1) p = some r) ∧
    (∀ l p r, parseT_loop n l p = some r → parseT_loop (n + 1) l p = some r) ∧
    (∀ p r, parseF n p = some r → parseF (n + 1) p = some r) := by
  induction n with
  | zero => simp [parseE, parseE_loop, parseT, parseT_loop, parseF]
  | succ n ih =>
    obtain ⟨ihE, ihEl, ihT, ihTl, ihF⟩ := ih
    refine ⟨?_, ?_, ?_, ?_, ?_⟩
    · intro p r h
      rw [parseE] at h ⊢
      cases hT : parseT n (p.print .traceE) with
      | none => simp [hT] at h
      | some v =>
        obtain ⟨left, p1⟩ := v
        rw [hT] at h
        simp only at h
        rw [ihT _ _ hT]
        exact ihEl _ _ _ h
    · intro l p r h
      rw [parseE_loop] at h ⊢
      split
      · rename_i hc
        rw [if_pos hc] at h
        cases hT : parseT n (p.match_ p.look.type) with
        | none => simp [hT] at h
        | some v =>
          obtain ⟨right, p2⟩ := v
          rw [hT] at h
          simp only at h
          rw [ihT _ _ hT]
          exact ihEl _ _ _ h
      · rename_i hc
        rw [if_neg hc] at h
        exact h
    · intro p r h
      rw [parseT] at h ⊢
      cases hF : parseF n p with
      | none => simp [hF] at h
      | some v =>
        obtain ⟨left, p1⟩ := v
        rw [hF] at h
        simp only at h
        rw [ihF _ _ hF]
        exact ihTl _ _ _ h
    · intro l p r h
      rw [parseT_loop] at h ⊢
      split
      · rename_i hc
        rw [if_pos hc] at h
        cases hF : parseF n (p.match_ p.look.type) with
        | none => simp [hF] at h
        | some v =>
          obtain ⟨right, p2⟩ := v
          rw [hF] at h
          simp only at h
          rw [ihF _ _ hF]
          exact ihTl _ _ _ h
      · rename_i hc
        rw [if_neg hc] at h
        exact h
    · intro p r h
      rw [parseF] at h ⊢
      split
      · rename_i hc
        rw [if_pos hc] at h
        cases hE : parseE n (p.match_ .LPAREN) with
        | none => simp [hE] at h
        | some v =>
          obtain ⟨res, p1⟩ := v
          rw [hE] at h
          simp only at h
          rw [ihE _ _ hE]
          exact h
      · rename_i hc
        rw [if_neg hc] at h
        exact h

theorem parseE_mono {n m : Nat} (h : n ≤ m) {p : Parser} {r : List Char × Parser}
    (hr : parseE n p = some r) : parseE m p = some r := by
  induction h with
  | refl => exact hr
  | step _ ih => exact (parse_fuel_succ _).1 _ _ ih

theorem parseE_loop_mono {n m : Nat} (h : n ≤ m) {l : List Char} {p : Parser}
    {r : List Char × Parser} (hr : parseE_loop n l p = some r) : parseE_loop m l p = some r := by
  induction h with
  | refl => exact hr
  | step _ ih => exact (parse_fuel_succ _).2.1 _ _ _ ih

theorem parseT_mono {n m : Nat} (h : n ≤ m) {p : Parser} {r : List Char × Parser}
    (hr : parseT n p = some r) : parseT m p = some r := by
  induction h with
  | refl => exact hr
  | step _ ih => exact (parse_fuel_succ _).2.2.1 _ _ ih

theorem parseT_loop_mono {n m : Nat} (h : n ≤ m) {l : List Char} {p : Parser}
    {r : List Char × Parser} (hr : parseT_loop n l p = some r) : parseT_loop m l p = some r := by
  induction h with
  | refl => exact hr
  | step _ ih => exact (parse_fuel_succ _).2.2.2.1 _ _ _ ih

theorem parseF_mono {n m : Nat} (h : n ≤ m) {p : Parser} {r : List Char × Parser}
    (hr : parseF n p = some r) : parseF m p = some r := by
  induction h with
  | refl => exact hr
  | step _ ih => exact (parse_fuel_succ _).2.2.2.2 _ _ ih

end SynAn

namespace SynAn

theorem size_print (p : Parser) (l : Line) : (p.print l).size = p.size := rfl

theorem size_emit (p : Parser) (a b c d : List Char) : (p.emit a b c d).size = p.size := rfl

theorem size_newTemp (p : Parser) : p.newTemp.2.size = p.size := rfl

theorem size_advance (p : Parser) :
    Parser.size { p with look := (nextToken p.lexer).1, lexer := (nextToken p.lexer).2 }
      ≤ p.lexer.length := by
  unfold Parser.size
  simp only
  split
  · exact nextToken_length_le _
  · rename_i h
    have := nextToken_length_lt _ h
    omega

theorem size_match_le (p : Parser) (t : TokenType) : (p.match_ t).size ≤ p.size := by
  unfold Parser.match_
  split
  · have := size_advance p
    simp only
    unfold Parser.size at this ⊢
    simp only at this ⊢
    omega
  · split
    · exact le_refl _
    · exact le_refl _

theorem size_match_lt (p : Parser) (t : TokenType) (h : p.look.type = t) (ht : t ≠ .END) :
    (p.match_ t).size < p.size := by
  unfold Parser.match_
  rw [if_pos h]
  have := size_advance p
  have h2 : p.look.type ≠ .END := by rw [h]; exact ht
  simp only
  unfold Parser.size at this ⊢
  simp only at this ⊢
  rw [if_neg h2]
  omega

theorem size_init (input : List Char) : (Parser.init input).size ≤ input.length := by
  unfold Parser.init Parser.size
  simp only
  split
  · exact nextToken_length_le _
  · rename_i h
    have := nextToken_length_lt _ h
    omega

/-- Termination of the parser on every state: with fuel `3 * size + 3` (less for the inner
functions) each parsing function returns, and it never gives characters back. -/
theorem parse_total (n : Nat) :
    (∀ p, 3 * p.size + 3 ≤ n → ∃ r, parseE n p = some r ∧ r.2.size ≤ p.size) ∧
    (∀ l p, 3 * p.size + 2 ≤ n → ∃ r, parseE_loop n l p = some r ∧ r.2.size ≤ p.size) ∧
    (∀ p, 3 * p.size + 2 ≤ n → ∃ r, parseT n p = some r ∧ r.2.size ≤ p.size) ∧
    (∀ l p, 3 * p.size + 1 ≤ n → ∃ r, parseT_loop n l p = some r ∧ r.2.size ≤ p.size) ∧
    (∀ p, 3 * p.size + 1 ≤ n → ∃ r, parseF n p = some r ∧ r.2.size ≤ p.size) := by
  induction n with
  | zero =>
    refine ⟨?_, ?_, ?_, ?_, ?_⟩ <;> intros <;> omega
  | succ n ih =>
    obtain ⟨ihE, ihEl, ihT, ihTl, ihF⟩ := ih
    refine ⟨?_, ?_, ?_, ?_, ?_⟩
    · intro p hp
      obtain ⟨⟨left, p1⟩, h1, hs1⟩ := ihT (p.print .traceE) (by rw [size_print]; omega)
      rw [size_print] at hs1
      simp only at hs1
      obtain ⟨r, h2, hs2⟩ := ihEl left p1 (by omega)
      refine ⟨r, ?_, by omega⟩
      rw [parseE, h1]
      exact h2
    · intro l p hp
      rw [parseE_loop]
      split
      · rename_i hc
        have hlt : (p.match_ p.look.type).size < p.size :=
          size_match_lt p _ rfl (by rcases hc with h | h <;> rw [h] <;> decide)
        obtain ⟨⟨right, p2⟩, h1, hs1⟩ := ihT (p.match_ p.look.type) (by omega)
        simp only at hs1
        obtain ⟨r, h2, hs2⟩ := ihEl p2.newTemp.1
          (p2.newTemp.2.emit p.look.value l right p2.newTemp.1)
          (by rw [size_emit, size_newTemp]; omega)
        rw [size_emit, size_newTemp] at hs2
        refine ⟨r, ?_, by omega⟩
        rw [h1]
        exact h2
      · exact ⟨(l, p), rfl, le_refl _⟩
    · intro p hp
      obtain ⟨⟨left, p1⟩, h1, hs1⟩ := ihF p (by omega)
      simp only at hs1
      obtain ⟨r, h2, hs2⟩ := ihTl left p1 (by omega)
      refine ⟨r, ?_, by omega⟩
      rw [parseT, h1]
      exact h2
    · intro l p hp
      rw [parseT_loop]
      split
      · rename_i hc
        have hlt : (p.match_ p.look.type).size < p.size :=
          size_match_lt p _ rfl (by rcases hc with h | h <;> rw [h] <;> decide)
        obtain ⟨⟨right, p2⟩, h1, hs1⟩ := ihF (p.match_ p.look.type) (by omega)
        simp only at hs1
        obtain ⟨r, h2, hs2⟩ := ihTl p2.newTemp.1
          (p2.newTemp.2.emit p.look.value l right p2.newTemp.1)
          (by rw [size_emit, size_newTemp]; omega)
        rw [size_emit, size_newTemp] at hs2
        refine ⟨r, ?_, by omega⟩
        rw [h1]
        exact h2
      · exact ⟨(l, p), rfl, le_refl _⟩
    · intro p hp
      rw [parseF]
      split
      · rename_i hc
        have hlt : (p.match_ .LPAREN).size < p.size := size_match_lt p _ hc (by decide)
        obtain ⟨⟨res, p1⟩, h1, hs1⟩ := ihE (p.match_ .LPAREN) (by omega)
        simp only at hs1
        have := size_match_le p1 .RPAREN
        refine ⟨(res, p1.match_ .RPAREN), ?_, by simp only; omega⟩
        rw [h1]
      · split
        · exact ⟨_, rfl, size_match_le p _⟩
        · exact ⟨_, rfl, le_refl _⟩

/-- A result obtained with any fuel is the result obtained with enough fuel. -/
theorem parseE_eq_of_some {n m : Nat} {p : Parser} {r : List Char × Parser}
    (h : parseE n p = some r) (hm : 3 * p.size + 3 ≤ m) : parseE m p = some r := by
  obtain ⟨r2, h2, _⟩ := (parse_total m).1 p hm
  have a := parseE_mono (Nat.le_max_left n m) h
  have b := parseE_mono (Nat.le_max_right n m) h2
  rw [a] at b
  rw [h2, ← Option.some.inj b]

end SynAn

namespace SynAn

open CType

theorem quads_append (a b : List Line) : quads (a ++ b) = quads a ++ quads b := by
  simp [quads, List.filterMap_append]

theorem diags_append (a b : List Line) : diags (a ++ b) = diags a ++ diags b := by
  simp [diags, List.filter_append]

theorem adv_refl (p : Parser) : p.Adv p [] :=
  ⟨rfl, [], by simp, rfl, rfl⟩

theorem adv_trans {p p1 p2 : Parser} {q1 q2 : List Quad} (h1 : p.Adv p1 q1)
    (h2 : p1.Adv p2 q2) : p.Adv p2 (q1 ++ q2) := by
  obtain ⟨e1, l1, o1, a1, b1⟩ := h1
  obtain ⟨e2, l2, o2, a2, b2⟩ := h2
  refine ⟨e2.trans e1, l1 ++ l2, ?_, ?_, ?_⟩
  · rw [o2, o1, List.append_assoc]
  · rw [quads_append, a1, a2]
  · rw [diags_append, b1, b2]; rfl

theorem adv_traceE (p : Parser) : p.Adv (p.print .traceE) [] :=
  ⟨rfl, [.traceE], rfl, rfl, rfl⟩

theorem adv_emit (p : Parser) (a b c d : List Char) : p.Adv (p.emit a b c d) [(a, b, c, d)] :=
  ⟨rfl, [.quad a b c d], rfl, rfl, rfl⟩

theorem adv_newTemp (p : Parser) : p.Adv p.newTemp.2 [] :=
  ⟨rfl, [], by simp [Parser.newTemp], rfl, rfl⟩

theorem look_type_eq_headType (p : Parser) : p.look.type = headType p.stream := by
  unfold Parser.stream
  split
  · rename_i h; rw [h]; rfl
  · rfl

theorem look_of_stream {p : Parser} {tok : Token} {rest : List Token}
    (h : p.stream = tok :: rest) : p.look = tok := by
  unfold Parser.stream at h
  split at h
  · cases h
  · exact (List.cons.inj h).1

theorem tokens_of_stream {p : Parser} {tok : Token} {rest : List Token}
    (h : p.stream = tok :: rest) : tokens p.lexer = rest := by
  unfold Parser.stream at h
  split at h
  · cases h
  · exact (List.cons.inj h).2

/-- A successful `match` removes the first token of the stream and changes nothing else. -/
theorem match_of_stream {p : Parser} {tok : Token} {rest : List Token}
    (h : p.stream = tok :: rest) :
    (p.match_ tok.type).stream = rest ∧ (p.match_ tok.type).tempCount = p.tempCount ∧
      p.Adv (p.match_ tok.type) [] := by
  have hl := look_of_stream h
  have ht := tokens_of_stream h
  have hm : p.match_ tok.type =
      { p with look := (nextToken p.lexer).1, lexer := (nextToken p.lexer).2 } := by
    unfold Parser.match_
    rw [if_pos (by rw [hl])]
  rw [hm]
  refine ⟨?_, rfl, rfl, [], by simp, rfl, rfl⟩
  unfold Parser.stream
  simp only
  split
  · rename_i he; rw [← ht]; exact (tokens_end _ he).symm
  · rename_i he; rw [← ht]; exact (tokens_step _ he).symm

theorem stream_print (p : Parser) (l : Line) : (p.print l).stream = p.stream := rfl

theorem stream_emit (p : Parser) (a b c d : List Char) : (p.emit a b c d).stream = p.stream :=
  rfl

theorem stream_newTemp (p : Parser) : p.newTemp.2.stream = p.stream := rfl

theorem parseE_loop_exit (l : List Char) (p : Parser) (h1 : headType p.stream ≠ .PLUS)
    (h2 : headType p.stream ≠ .MINUS) : parseE_loop 1 l p = some (l, p) := by
  rw [← look_type_eq_headType] at h1 h2
  rw [parseE_loop, if_neg (by simp [h1, h2])]

theorem parseT_loop_exit (l : List Char) (p : Parser) (h1 : headType p.stream ≠ .MUL)
    (h2 : headType p.stream ≠ .DIV) : parseT_loop 1 l p = some (l, p) := by
  rw [← look_type_eq_headType] at h1 h2
  rw [parseT_loop, if_neg (by simp [h1, h2])]

theorem addOp_token_type (op : AddOp) : op.token.type = .PLUS ∨ op.token.type = .MINUS := by
  cases op
  · exact Or.inl rfl
  · exact Or.inr rfl

theorem mulOp_token_type (op : MulOp) : op.token.type = .MUL ∨ op.token.type = .DIV := by
  cases op
  · exact Or.inl rfl
  · exact Or.inr rfl

end SynAn

namespace SynAn

open CType

mutual

/-- On a stream that starts with the tokens of a `Factor` tree, `parseF` returns the operand of
the reference translation and prints its quadruples. -/
theorem parseF_ok : ∀ (f : Factor) (p : Parser) (rest : List Token),
    p.stream = f.tokens ++ rest →
    ∃ n p', parseF n p = some ((f.translate p.tempCount).operand, p') ∧ p'.stream = rest ∧
      p'.tempCount = (f.translate p.tempCount).count ∧
      p.Adv p' (f.translate p.tempCount).quads
  | .id name, p, rest, h => by
    rw [Factor.tokens] at h
    have hl := look_of_stream h
    obtain ⟨hs, hc, ha⟩ := match_of_stream h
    refine ⟨1, p.match_ .ID, ?_, hs, hc, ha⟩
    rw [parseF, hl]
    simp [Factor.translate]
  | .num digits, p, rest, h => by
    rw [Factor.tokens] at h
    have hl := look_of_stream h
    obtain ⟨hs, hc, ha⟩ := match_of_stream h
    refine ⟨1, p.match_ .NUM, ?_, hs, hc, ha⟩
    rw [parseF, hl]
    simp [Factor.translate]
  | .paren e, p, rest, h => by
    rw [Factor.tokens] at h
    simp only [List.cons_append, List.append_assoc, List.nil_append] at h
    have hl := look_of_stream h
    obtain ⟨hs, hc, ha⟩ := match_of_stream h
    simp only at hs hc ha
    obtain ⟨p2, hs2, hc2, ha2, k⟩ := parseE_ok e (p.match_ .LPAREN) (⟨.RPAREN, [')']⟩ :: rest)
      hs (by simp [headType]) (by simp [headType])
    rw [hc] at hc2 ha2 k
    obtain ⟨m, hm⟩ := k 1 _ (parseE_loop_exit _ p2 (by rw [hs2]; simp [headType])
      (by rw [hs2]; simp [headType]))
    obtain ⟨hs3, hc3, ha3⟩ := match_of_stream hs2
    simp only at hs3 hc3 ha3
    refine ⟨m + 1, p2.match_ .RPAREN, ?_, hs3, ?_, ?_⟩
    · rw [parseF, hl]
      simp only [if_true]
      rw [hm]
      simp [Factor.translate]
    · rw [hc3, hc2, Factor.translate]
    · rw [Factor.translate]
      have := adv_trans (adv_trans ha ha2) ha3
      simpa using this

/-- On a stream that starts with the tokens of a `Term` tree, `parseT` reaches its loop with
the operand of the reference translation: whatever the loop returns from there, `parseT`
returns. -/
theorem parseT_ok : ∀ (t : Term) (p : Parser) (rest : List Token),
    p.stream = t.tokens ++ rest →
    ∃ p', p'.stream = rest ∧ p'.tempCount = (t.translate p.tempCount).count ∧
      p.Adv p' (t.translate p.tempCount).quads ∧
      ∀ n r, parseT_loop n (t.translate p.tempCount).operand p' = some r →
        ∃ m, parseT m p = some r
  | .factor f, p, rest, h => by
    rw [Term.tokens] at h
    obtain ⟨n0, p', h0, hs, hc, ha⟩ := parseF_ok f p rest h
    refine ⟨p', hs, by rw [Term.translate]; exact hc, by rw [Term.translate]; exact ha, ?_⟩
    intro n r hr
    rw [Term.translate] at hr
    refine ⟨max n0 n + 1, ?_⟩
    rw [parseT, parseF_mono (Nat.le_max_left n0 n) h0]
    exact parseT_loop_mono (Nat.le_max_right n0 n) hr
  | .bin t op f, p, rest, h => by
    rw [Term.tokens] at h
    simp only [List.append_assoc, List.cons_append] at h
    obtain ⟨p1, hs1, hc1, ha1, k1⟩ := parseT_ok t p _ h
    have hl := look_of_stream hs1
    obtain ⟨hs, hc, ha⟩ := match_of_stream hs1
    obtain ⟨n0, p2, h0, hs2, hc2, ha2⟩ := parseF_ok f (p1.match_ op.token.type) rest hs
    rw [hc, hc1] at hc2 ha2 h0
    refine ⟨p2.newTemp.2.emit op.token.value (t.translate p.tempCount).operand
      (f.translate (t.translate p.tempCount).count).operand p2.newTemp.1, ?_, ?_, ?_, ?_⟩
    · rw [stream_emit, stream_newTemp]; exact hs2
    · rw [Term.translate]
      simp only [Code.node, Parser.emit, Parser.print, Parser.newTemp, hc2]
    · rw [Term.translate]
      have := adv_trans (adv_trans (adv_trans (adv_trans ha1 ha) ha2) (adv_newTemp p2))
        (adv_emit p2.newTemp.2 op.token.value (t.translate p.tempCount).operand
          (f.translate (t.translate p.tempCount).count).operand p2.newTemp.1)
      simpa [Code.node, Parser.newTemp, tempName, hc2] using this
    · intro n r hr
      rw [Term.translate] at hr
      apply k1 (max n0 n + 1)
      rw [parseT_loop, if_pos (by rw [hl]; exact mulOp_token_type op), hl,
        parseF_mono (Nat.le_max_left n0 n) h0]
      simp only
      apply parseT_loop_mono (Nat.le_max_right n0 n)
      simpa [Code.node, Parser.newTemp, tempName, hc2] using hr

/-- On a stream that starts with the tokens of an `Expr` tree, followed by something that is
not `*` or `/`, `parseE` reaches its loop with the operand of the reference translation. -/
theorem parseE_ok : ∀ (e : Expr) (p : Parser) (rest : List Token),
    p.stream = e.tokens ++ rest → headType rest ≠ .MUL → headType rest ≠ .DIV →
    ∃ p', p'.stream = rest ∧ p'.tempCount = (e.translate p.tempCount).count ∧
      p.Adv p' (e.translate p.tempCount).quads ∧
      ∀ n r, parseE_loop n (e.translate p.tempCount).operand p' = some r →
        ∃ m, parseE m p = some r
  | .term t, p, rest, h, hm, hd => by
    rw [Expr.tokens] at h
    obtain ⟨p', hs, hc, ha, k⟩ := parseT_ok t (p.print .traceE) rest h
    have hpc : (p.print .traceE).tempCount = p.tempCount := rfl
    rw [hpc] at hc ha k
    obtain ⟨m0, h0⟩ := k 1 _ (parseT_loop_exit _ p' (by rw [hs]; exact hm)
      (by rw [hs]; exact hd))
    refine ⟨p', hs, by rw [Expr.translate]; exact hc, ?_, ?_⟩
    · rw [Expr.translate]
      simpa using adv_trans (adv_traceE p) ha
    · intro n r hr
      rw [Expr.translate] at hr
      refine ⟨max m0 n + 1, ?_⟩
      rw [parseE, parseT_mono (Nat.le_max_left m0 n) h0]
      exact parseE_loop_mono (Nat.le_max_right m0 n) hr
  | .bin e op t, p, rest, h, hm, hd => by
    rw [Expr.tokens] at h
    simp only [List.append_assoc, List.cons_append] at h
    obtain ⟨p1, hs1, hc1, ha1, k1⟩ := parseE_ok e p _ h
      (by rcases addOp_token_type op with h | h <;> simp [headType, h])
      (by rcases addOp_token_type op with h | h <;> simp [headType, h])
    have hl := look_of_stream hs1
    obtain ⟨hs, hc, ha⟩ := match_of_stream hs1
    obtain ⟨p2, hs2, hc2, ha2, k2⟩ := parseT_ok t (p1.match_ op.token.type) rest hs
    rw [hc, hc1] at hc2 ha2 k2
    obtain ⟨m0, h0⟩ := k2 1 _ (parseT_loop_exit _ p2 (by rw [hs2]; exact hm)
      (by rw [hs2]; exact hd))
    refine ⟨p2.newTemp.2.emit op.token.value (e.translate p.tempCount).operand
      (t.translate (e.translate p.tempCount).count).operand p2.newTemp.1, ?_, ?_, ?_, ?_⟩
    · rw [stream_emit, stream_newTemp]; exact hs2
    · rw [Expr.translate]
      simp only [Code.node, Parser.emit, Parser.print, Parser.newTemp, hc2]
    · rw [Expr.translate]
      have := adv_trans (adv_trans (adv_trans (adv_trans ha1 ha) ha2) (adv_newTemp p2))
        (adv_emit p2.newTemp.2 op.token.value (e.translate p.tempCount).operand
          (t.translate (e.translate p.tempCount).count).operand p2.newTemp.1)
      simpa [Code.node, Parser.newTemp, tempName, hc2] using this
    · intro n r hr
      rw [Expr.translate] at hr
      apply k1 (max m0 n + 1)
      rw [parseE_loop, if_pos (by rw [hl]; exact addOp_token_type op), hl,
        parseT_mono (Nat.le_max_left m0 n) h0]
      simp only
      apply parseE_loop_mono (Nat.le_max_right m0 n)
      simpa [Code.node, Parser.newTemp, tempName, hc2] using hr

end

end SynAn

namespace SynAn

open CType

theorem init_out (input : List Char) : (Parser.init input).out = [] := rfl

theorem init_hasError (input : List Char) : (Parser.init input).hasError = false := rfl

theorem init_tempCount (input : List Char) : (Parser.init input).tempCount = 0 := rfl

/-- The run of `parseAssignment` on a line whose tokens derive from `Statement`: it ends by
printing the success line, after printing exactly the quadruples of the reference translation
and no diagnostic. -/
theorem parseAssignment_derivable (input target : List Char) (e : Expr)
    (h : tokens input = stmtTokens target e) :
    ∃ p5, parseAssignment input = some (p5.print .success) ∧
      (Parser.init input).Adv p5 (translateStmt target e) := by
  rw [← stream_init, stmtTokens] at h
  have hl0 := look_of_stream h
  obtain ⟨hs1, hc1, ha1⟩ := match_of_stream h
  simp only at hs1 hc1 ha1
  have hl1 := look_of_stream hs1
  obtain ⟨hs2, hc2, ha2⟩ := match_of_stream hs1
  simp only at hs2 hc2 ha2
  obtain ⟨p3, hs3, hc3, ha3, k⟩ := parseE_ok e _ _ hs2 (by simp [headType]) (by simp [headType])
  rw [hc2, hc1, init_tempCount] at hc3 ha3 k
  obtain ⟨m, hm⟩ := k 1 _ (parseE_loop_exit _ p3 (by rw [hs3]; simp [headType])
    (by rw [hs3]; simp [headType]))
  have hsize : 3 * (((Parser.init input).match_ .ID).match_ .ASSIGN).size + 3 ≤
      3 * input.length + 3 := by
    have a := size_match_le ((Parser.init input).match_ .ID) .ASSIGN
    have b := size_match_le (Parser.init input) .ID
    have c := size_init input
    omega
  have hE := parseE_eq_of_some hm hsize
  have hs4 : (p3.emit ['='] (e.translate 0).operand ['_'] target).stream
      = [⟨.SEMI, [';']⟩] := by rw [stream_emit]; exact hs3
  have hl4 := look_of_stream hs4
  obtain ⟨hs5, hc5, ha5⟩ := match_of_stream hs4
  simp only at hs5 hc5 ha5
  have hadv := adv_trans (adv_trans (adv_trans (adv_trans ha1 ha2) ha3)
    (adv_emit p3 ['='] (e.translate 0).operand ['_'] target)) ha5
  simp only [List.nil_append, List.append_nil] at hadv
  refine ⟨_, ?_, hadv⟩
  have herr := hadv.hasError
  rw [init_hasError] at herr
  unfold parseAssignment parseAssignmentFrom
  rw [hl0]
  simp only [if_true]
  rw [hl1]
  simp only [if_true]
  rw [hE]
  simp only
  rw [hl4]
  simp only [if_true]
  rw [herr]
  simp

end SynAn

namespace SynAn

/-- C1: on every input line whose token sequence derives from
`Statement -> Identifier '=' Expr ';'`, `parseAssignment` returns and the quadruples it emitted
are, in order, the reference translation of the parse tree (post-order, left to right, `*` and
`/` below `+` and `-`, left-associative, temporaries numbered from 1 in emission order,
nothing for parentheses), ending with `("=", <expr-result>, "_", <target>)`. -/
theorem parseAssignment_quads_eq_translate (input target : List Char) (e : Expr)
    (h : tokens input = stmtTokens target e) :
    ∃ p, parseAssignment input = some p ∧ quads p.out = translateStmt target e := by
  obtain ⟨p5, hrun, hadv⟩ := parseAssignment_derivable input target e h
  obtain ⟨ls, ho, hq, _⟩ := hadv.out
  refine ⟨_, hrun, ?_⟩
  rw [init_out, List.nil_append] at ho
  simp only [Parser.print, ho, quads_append, hq]
  simp [quads]

/-- C1, witness: `ans = (a + b) * 10;` gives `(+, a, b, t1)`, `(*, t1, 10, t2)`,
`(=, t2, _, ans)`. -/
theorem parseAssignment_quads_eq_translate_witness :
    tokens "ans = (a + b) * 10;".toList = stmtTokens "ans".toList sampleExpr ∧
    ∃ p, parseAssignment "ans = (a + b) * 10;".toList = some p ∧
      quads p.out = [("+".toList, "a".toList, "b".toList, "t1".toList),
        ("*".toList, "t1".toList, "10".toList, "t2".toList),
        ("=".toList, "t2".toList, "_".toList, "ans".toList)] := by
  refine ⟨by decide, ?_⟩
  obtain ⟨p, h1, h2⟩ := parseAssignment_quads_eq_translate "ans = (a + b) * 10;".toList
    "ans".toList sampleExpr (by decide)
  exact ⟨p, h1, h2.trans (by decide)⟩

/-- C5: on every input line whose token sequence (up to `END`) derives from
`Statement -> Identifier '=' Expr ';'`, `parseAssignment` prints the success line, prints no
error diagnostic, and `hasError` is still false when it returns. -/
theorem parseAssignment_accepts_derivable (input target : List Char) (e : Expr)
    (h : tokens input = stmtTokens target e) :
    ∃ p, parseAssignment input = some p ∧ Line.success ∈ p.out ∧ diags p.out = [] ∧
      p.hasError = false := by
  obtain ⟨p5, hrun, hadv⟩ := parseAssignment_derivable input target e h
  obtain ⟨ls, ho, _, hd⟩ := hadv.out
  have he := hadv.hasError
  rw [init_hasError] at he
  rw [init_out, List.nil_append] at ho
  refine ⟨_, hrun, ?_, ?_, he⟩
  · simp [Parser.print]
  · simp only [Parser.print, ho, diags_append, hd]
    rfl

/-- C5, witness: `ans = (a + b) * 10;`. -/
theorem parseAssignment_accepts_derivable_witness :
    tokens "ans = (a + b) * 10;".toList = stmtTokens "ans".toList sampleExpr ∧
    ∃ p, parseAssignment "ans = (a + b) * 10;".toList = some p ∧ Line.success ∈ p.out ∧
      diags p.out = [] ∧ p.hasError = false :=
  ⟨by decide, parseAssignment_accepts_derivable "ans = (a + b) * 10;".toList "ans".toList
    sampleExpr (by decide)⟩

end SynAn

namespace CType

theorem digitChar_toNat (d : Nat) (h : d < 10) : (digitChar d).toNat = 48 + d := by
  interval_cases d <;> rfl

theorem digitsVal_digitsRev (fuel : Nat) : ∀ n, n ≤ fuel →
    digitsVal (digitsRev (fuel + 1) n) = n := by
  induction fuel with
  | zero =>
    intro n hn
    have : n = 0 := by omega
    subst this
    rfl
  | succ fuel ih =>
    intro n hn
    rw [digitsRev]
    have hd := digitChar_toNat (n % 10) (Nat.mod_lt _ (by decide))
    split
    · rename_i h0
      simp only [digitsVal, hd]
      omega
    · rename_i h0
      have ih2 := ih (n / 10) (by omega)
      rw [digitsVal, hd, ih2]
      omega

theorem to_string_injective {a b : Nat} (h : to_string a = to_string b) : a = b := by
  unfold to_string at h
  have h2 := List.reverse_injective h
  have := congrArg digitsVal h2
  rwa [digitsVal_digitsRev a a (le_refl _), digitsVal_digitsRev b b (le_refl _)] at this

theorem isdigit_digitChar (d : Nat) (h : d < 10) : isdigit (digitChar d) = true := by
  interval_cases d <;> rfl

theorem digitsRev_all_isdigit (fuel : Nat) : ∀ n, ∀ c ∈ digitsRev fuel n, isdigit c = true := by
  induction fuel with
  | zero => intro n c hc; simp [digitsRev] at hc
  | succ fuel ih =>
    intro n c hc
    rw [digitsRev] at hc
    rcases List.mem_cons.mp hc with h | h
    · rw [h]; exact isdigit_digitChar _ (Nat.mod_lt _ (by decide))
    · split at h
      · simp at h
      · exact ih _ c h

theorem to_string_all_isdigit (n : Nat) : (to_string n).all isdigit = true := by
  rw [List.all_eq_true]
  intro c hc
  unfold to_string at hc
  exact digitsRev_all_isdigit _ _ c (List.mem_reverse.mp hc)

theorem to_string_ne_nil (n : Nat) : to_string n ≠ [] := by
  unfold to_string
  rw [digitsRev]
  simp

end CType

namespace SynAn

open CType

theorem tempName_injective {a b : Nat} (h : tempName a = tempName b) : a = b := by
  unfold tempName at h
  exact to_string_injective (List.cons.inj h).2

theorem isNumber_tempName (k : Nat) : isNumber (tempName k) = false := by
  simp [isNumber, tempName, isdigit]

theorem isTempLike_tempName (k : Nat) : isTempLike (tempName k) = true := by
  have h1 := to_string_all_isdigit k
  have h2 := to_string_ne_nil k
  simp only [isTempLike, tempName, isNumber, beq_self_eq_true, Bool.true_and, h1, Bool.and_true]
  cases h : to_string k with
  | nil => exact absurd h h2
  | cons a t => rfl

end SynAn

namespace SynAn

open CType

section Exec

variable {V : Type} (sem : List Char → V → V → V) (lit : List Char → V)

theorem run_append (env : List Char → V) (a b : List Quad) :
    run sem lit env (a ++ b) = run sem lit (run sem lit env a) b := by
  simp [run, List.foldl_append]

theorem run_single (env : List Char → V) (q : Quad) :
    run sem lit env [q] = step sem lit env q := rfl

theorem sound_id (name : List Char) (k : Nat) (env : List Char → V)
    (h1 : isNumber name = false) (h2 : isTempLike name = false) :
    Code.Sound sem lit { quads := [], operand := name, count := k } k env (env name) := by
  refine ⟨?_, ?_, le_refl _, ?_⟩
  · simp [denote, run, h1]
  · intro x _; rfl
  · intro j _ he
    simp only at he
    rw [he, isTempLike_tempName] at h2
    cases h2

theorem sound_num (digits : List Char) (k : Nat) (env : List Char → V)
    (h1 : isNumber digits = true) :
    Code.Sound sem lit { quads := [], operand := digits, count := k } k env (lit digits) := by
  refine ⟨?_, ?_, le_refl _, ?_⟩
  · simp [denote, run, h1]
  · intro x _; rfl
  · intro j _ he
    simp only at he
    rw [he, isNumber_tempName] at h1
    cases h1

theorem sound_node (op : List Char) (hop : op ≠ ['=']) (l r : Code) (k : Nat)
    (env : List Char → V) (vl vr : V) (hl : Code.Sound sem lit l k env vl)
    (hr : Code.Sound sem lit r l.count (run sem lit env l.quads) vr) :
    Code.Sound sem lit (Code.node op l r) k env (sem op vl vr) := by
  obtain ⟨l1, l2, l3, l4⟩ := hl
  obtain ⟨r1, r2, r3, r4⟩ := hr
  have hkeep : denote lit (run sem lit (run sem lit env l.quads) r.quads) l.operand = vl := by
    rw [← l1]
    unfold denote
    split
    · rfl
    · exact r2 _ (fun j hj _ => l4 j hj)
  have hrun : run sem lit env (Code.node op l r).quads =
      assign (run sem lit (run sem lit env l.quads) r.quads) (tempName (r.count + 1))
        (sem op vl vr) := by
    simp only [Code.node, run_append, run_single, step, if_neg hop, hkeep, r1]
  refine ⟨?_, ?_, ?_, ?_⟩
  · rw [hrun]
    simp [denote, Code.node, isNumber_tempName, assign]
  · intro x hx
    rw [hrun]
    have hne : x ≠ tempName (r.count + 1) :=
      hx _ (by omega) (by simp only [Code.node]; omega)
    simp only [assign, if_neg hne]
    rw [r2 x (fun j h1 h2 => hx j (by omega) (by simp only [Code.node]; omega))]
    exact l2 x (fun j h1 h2 => hx j h1 (by simp only [Code.node]; omega))
  · simp only [Code.node]; omega
  · intro j hj he
    simp only [Code.node] at hj he
    have := tempName_injective he
    omega

theorem sound_agree (c : Code) (k : Nat) (env base : List Char → V) (v : V)
    (h : Code.Sound sem lit c k env v) (hag : ∀ x, isTempLike x = false → env x = base x) :
    ∀ x, isTempLike x = false → run sem lit env c.quads x = base x := by
  intro x hx
  rw [h.2.1 x, hag x hx]
  intro j _ _ he
  rw [he, isTempLike_tempName] at hx
  cases hx

theorem addOp_ne_assign (op : AddOp) : op.token.value ≠ ['='] := by
  cases op <;> decide

theorem mulOp_ne_assign (op : MulOp) : op.token.value ≠ ['='] := by
  cases op <;> decide

mutual

/-- Executing the reference translation of a `Factor` tree computes its value. -/
theorem factor_translate_sound (base : List Char → V) : ∀ (f : Factor) (k : Nat)
    (env : List Char → V), (∀ tok ∈ f.tokens, tok.leafOk) →
    (∀ x, isTempLike x = false → env x = base x) →
    Code.Sound sem lit (f.translate k) k env (f.eval sem lit base)
  | .id name, k, env, hok, hag => by
    have h := (hok ⟨.ID, name⟩ (by simp [Factor.tokens])).1 rfl
    rw [Factor.translate, Factor.eval, ← hag name h.2]
    exact sound_id sem lit name k env h.1 h.2
  | .num digits, k, env, hok, hag => by
    have h := (hok ⟨.NUM, digits⟩ (by simp [Factor.tokens])).2 rfl
    rw [Factor.translate, Factor.eval]
    exact sound_num sem lit digits k env h
  | .paren e, k, env, hok, hag => by
    rw [Factor.translate, Factor.eval]
    exact expr_translate_sound base e k env
      (fun tok ht => hok tok (by simp [Factor.tokens, ht])) hag

/-- Executing the reference translation of a `Term` tree computes its value. -/
theorem term_translate_sound (base : List Char → V) : ∀ (t : Term) (k : Nat)
    (env : List Char → V), (∀ tok ∈ t.tokens, tok.leafOk) →
    (∀ x, isTempLike x = false → env x = base x) →
    Code.Sound sem lit (t.translate k) k env (t.eval sem lit base)
  | .factor f, k, env, hok, hag => by
    rw [Term.translate, Term.eval]
    exact factor_translate_sound base f k env
      (fun tok ht => hok tok (by simp [Term.tokens, ht])) hag
  | .bin t op f, k, env, hok, hag => by
    rw [Term.translate, Term.eval]
    have hl := term_translate_sound base t k env
      (fun tok ht => hok tok (by simp [Term.tokens, ht])) hag
    have hr := factor_translate_sound base f (t.translate k).count
      (run sem lit env (t.translate k).quads)
      (fun tok ht => hok tok (by simp [Term.tokens, ht]))
      (sound_agree sem lit _ k env base _ hl hag)
    exact sound_node sem lit _ (mulOp_ne_assign op) _ _ k env _ _ hl hr

/-- Executing the reference translation of an `Expr` tree computes its value. -/
theorem expr_translate_sound (base : List Char → V) : ∀ (e : Expr) (k : Nat)
    (env : List Char → V), (∀ tok ∈ e.tokens, tok.leafOk) →
    (∀ x, isTempLike x = false → env x = base x) →
    Code.Sound sem lit (e.translate k) k env (e.eval sem lit base)
  | .term t, k, env, hok, hag => by
    rw [Expr.translate, Expr.eval]
    exact term_translate_sound base t k env
      (fun tok ht => hok tok (by simp [Expr.tokens, ht])) hag
  | .bin e op t, k, env, hok, hag => by
    rw [Expr.translate, Expr.eval]
    have hl := expr_translate_sound base e k env
      (fun tok ht => hok tok (by simp [Expr.tokens, ht])) hag
    have hr := term_translate_sound base t (e.translate k).count
      (run sem lit env (e.translate k).quads)
      (fun tok ht => hok tok (by simp [Expr.tokens, ht]))
      (sound_agree sem lit _ k env base _ hl hag)
    exact sound_node sem lit _ (addOp_ne_assign op) _ _ k env _ _ hl hr

end

end Exec

end SynAn

namespace SynAn

open CType

theorem isdigit_of_isalpha {c : Char} (h : isalpha c = true) : isdigit c = false := by
  unfold isalpha at h
  unfold isdigit
  simp only [Bool.or_eq_true, Bool.and_eq_true, decide_eq_true_eq] at h
  simp only [Bool.and_eq_false_imp, decide_eq_true_eq, decide_eq_false_iff_not]
  omega

theorem all_takeWhile (f : Char → Bool) (l : List Char) : (l.takeWhile f).all f = true := by
  induction l with
  | nil => rfl
  | cons a t ih =>
    by_cases h : f a = true
    · simp [List.takeWhile_cons_of_pos h, h, ih]
    · simp [List.takeWhile_cons_of_neg h]

theorem punct_ne_ID (c : Char) : punct c ≠ .ID := by
  unfold punct
  repeat (split; · simp)
  simp

theorem punct_ne_NUM (c : Char) : punct c ≠ .NUM := by
  unfold punct
  repeat (split; · simp)
  simp

/-- What `nextToken` returns as an identifier is not numeric, what it returns as a number is. -/
theorem nextToken_leaf (src : Lexer) :
    ((nextToken src).1.type = .ID → isNumber (nextToken src).1.value = false) ∧
    ((nextToken src).1.type = .NUM → isNumber (nextToken src).1.value = true) := by
  unfold nextToken
  split
  · simp
  · rename_i cur rest heq
    split
    · rename_i ha
      have hc : isalnum cur = true := by simp [isalnum, ha]
      have hd := isdigit_of_isalpha ha
      simp [List.takeWhile_cons_of_pos hc, isNumber, hd]
    · split
      · rename_i ha hd
        have := all_takeWhile isdigit rest
        simp only [List.takeWhile_cons_of_pos hd, isNumber]
        simp [hd, this]
      · simp [punct_ne_ID, punct_ne_NUM]

theorem tokensAux_mem (fuel : Nat) : ∀ (src : Lexer) (tok : Token),
    tok ∈ tokensAux fuel src → ∃ s, tok = (nextToken s).1 := by
  induction fuel with
  | zero => intro src tok h; simp [tokensAux] at h
  | succ fuel ih =>
    intro src tok h
    rw [tokensAux] at h
    split at h
    · simp at h
    · rcases List.mem_cons.mp h with h | h
      · exact ⟨src, h⟩
      · exact ih _ tok h

theorem tokens_leaf (input : List Char) (tok : Token) (h : tok ∈ tokens input) :
    (tok.type = .ID → isNumber tok.value = false) ∧
    (tok.type = .NUM → isNumber tok.value = true) := by
  obtain ⟨s, hs⟩ := tokensAux_mem _ _ _ h
  rw [hs]
  exact nextToken_leaf s

/-- The quadruples printed on a derivable line are the reference translation. -/
theorem derivable_run_quads (input target : List Char) (e : Expr)
    (h : tokens input = stmtTokens target e) :
    ∃ p, parseAssignment input = some p ∧ quads p.out = translateStmt target e := by
  obtain ⟨p5, hrun, hadv⟩ := parseAssignment_derivable input target e h
  obtain ⟨ls, ho, hq, _⟩ := hadv.out
  refine ⟨_, hrun, ?_⟩
  rw [init_out, List.nil_append] at ho
  simp only [Parser.print, ho, quads_append, hq]
  simp [quads]

/-- C4: on every input line whose token sequence derives from `Statement` and in which no
source identifier has the form `t<decimal digits>`, for every environment, every
interpretation of the four operators and every valuation of the numerals, executing the
emitted quadruples in order leaves the target identifier holding the value of the right-hand
side, evaluated with the usual precedence, left associativity and parentheses. -/
theorem parseAssignment_quads_compute {V : Type} (sem : List Char → V → V → V)
    (lit : List Char → V) (env : List Char → V) (input target : List Char) (e : Expr)
    (h : tokens input = stmtTokens target e)
    (hid : ∀ tok ∈ tokens input, tok.type = .ID → isTempLike tok.value = false) :
    ∃ p, parseAssignment input = some p ∧
      run sem lit env (quads p.out) target = e.eval sem lit env := by
  obtain ⟨p, hp, hq⟩ := derivable_run_quads input target e h
  refine ⟨p, hp, ?_⟩
  have hok : ∀ tok ∈ e.tokens, tok.leafOk := by
    intro tok ht
    have hin : tok ∈ tokens input := by
      rw [h, stmtTokens]
      simp [ht]
    have hl := tokens_leaf input tok hin
    exact ⟨fun hty => ⟨hl.1 hty, hid tok hin hty⟩, hl.2⟩
  have hs := expr_translate_sound sem lit env e 0 env hok (fun _ _ => rfl)
  rw [hq, translateStmt, run_append, run_single]
  simp only [step, if_true, assign]
  exact hs.1

/-- C4, witness: with `a = 2` and `b = 3`, the quadruples of `ans = (a + b) * 10;` leave 50 in
`ans`. -/
theorem parseAssignment_quads_compute_witness :
    tokens "ans = (a + b) * 10;".toList = stmtTokens "ans".toList sampleExpr ∧
    (∀ tok ∈ tokens "ans = (a + b) * 10;".toList,
      tok.type = .ID → isTempLike tok.value = false) ∧
    ∃ p, parseAssignment "ans = (a + b) * 10;".toList = some p ∧
      run sampleSem sampleLit sampleEnv (quads p.out) "ans".toList = 50 := by
  refine ⟨by decide, by decide, ?_⟩
  obtain ⟨p, h1, h2⟩ := parseAssignment_quads_compute sampleSem sampleLit sampleEnv
    "ans = (a + b) * 10;".toList "ans".toList sampleExpr (by decide) (by decide)
  exact ⟨p, h1, h2.trans (by decide)⟩

end SynAn

namespace SynAn

open CType

/-- An induction principle for the parser: a relation between parser states that is reflexive,
transitive and holds across each elementary action (printing the trace line, `match`,
`newTemp` followed by `emit`, raising the error flag) holds between the state at the call and
the state at the return of each parsing function. -/
theorem parse_induct (R : Parser → Parser → Prop) (hrefl : ∀ p, R p p)
    (htrans : ∀ p p1 p2, R p p1 → R p1 p2 → R p p2)
    (htrace : ∀ p : Parser, R p (p.print .traceE))
    (hmatch : ∀ (p : Parser) (ty : TokenType), R p (p.match_ ty))
    (hemit : ∀ (p : Parser) (op a b : List Char), R p (p.newTemp.2.emit op a b p.newTemp.1))
    (herr : ∀ p : Parser, R p { p with hasError := true }) (n : Nat) :
    (∀ p r, parseE n p = some r → R p r.2) ∧
    (∀ l p r, parseE_loop n l p = some r → R p r.2) ∧
    (∀ p r, parseT n p = some r → R p r.2) ∧
    (∀ l p r, parseT_loop n l p = some r → R p r.2) ∧
    (∀ p r, parseF n p = some r → R p r.2) := by
  induction n with
  | zero => simp [parseE, parseE_loop, parseT, parseT_loop, parseF]
  | succ n ih =>
    obtain ⟨ihE, ihEl, ihT, ihTl, ihF⟩ := ih
    refine ⟨?_, ?_, ?_, ?_, ?_⟩
    · intro p r h
      rw [parseE] at h
      cases hT : parseT n (p.print .traceE) with
      | none => simp [hT] at h
      | some v =>
        rw [hT] at h
        exact htrans _ _ _ (htrans _ _ _ (htrace p) (ihT _ _ hT)) (ihEl _ _ _ h)
    · intro l p r h
      rw [parseE_loop] at h
      split at h
      · cases hT : parseT n (p.match_ p.look.type) with
        | none => simp [hT] at h
        | some v =>
          rw [hT] at h
          exact htrans _ _ _ (htrans _ _ _ (htrans _ _ _ (hmatch p _) (ihT _ _ hT))
            (hemit _ _ _ _)) (ihEl _ _ _ h)
      · rw [← Option.some.inj h]
        exact hrefl p
    · intro p r h
      rw [parseT] at h
      cases hF : parseF n p with
      | none => simp [hF] at h
      | some v =>
        rw [hF] at h
        exact htrans _ _ _ (ihF _ _ hF) (ihTl _ _ _ h)
    · intro l p r h
      rw [parseT_loop] at h
      split at h
      · cases hF : parseF n (p.match_ p.look.type) with
        | none => simp [hF] at h
        | some v =>
          rw [hF] at h
          exact htrans _ _ _ (htrans _ _ _ (htrans _ _ _ (hmatch p _) (ihF _ _ hF))
            (hemit _ _ _ _)) (ihTl _ _ _ h)
      · rw [← Option.some.inj h]
        exact hrefl p
    · intro p r h
      rw [parseF] at h
      split at h
      · cases hE : parseE n (p.match_ .LPAREN) with
        | none => simp [hE] at h
        | some v =>
          rw [hE] at h
          rw [← Option.some.inj h]
          exact htrans _ _ _ (htrans _ _ _ (hmatch p _) (ihE _ _ hE)) (hmatch _ _)
      · split at h
        · rw [← Option.some.inj h]
          exact hmatch p _
        · rw [← Option.some.inj h]
          exact herr p

end SynAn

namespace SynAn

open CType

theorem sticky_refl (p : Parser) : p.Sticky p :=
  ⟨[], by simp, by simp, rfl, by simp, fun h => ⟨rfl, h⟩, by simp⟩

theorem sticky_trans (p p1 p2 : Parser) (h1 : p.Sticky p1) (h2 : p1.Sticky p2) :
    p.Sticky p2 := by
  obtain ⟨l1, o1, s1, d1, m1, e1, f1⟩ := h1
  obtain ⟨l2, o2, s2, d2, m2, e2, f2⟩ := h2
  refine ⟨l1 ++ l2, by rw [o2, o1, List.append_assoc], ?_, ?_, ?_, ?_, ?_⟩
  · simp [s1, s2]
  · rw [List.filter_append, d1, d2]; rfl
  · rw [List.filter_append, List.length_append]
    by_cases hm : l1.filter Line.isMismatch = []
    · rw [hm]; simpa using m2
    · have := (e2 (f1 hm)).1
      rw [this]; simpa using m1
  · intro he
    obtain ⟨a, b⟩ := e1 he
    obtain ⟨c, d⟩ := e2 b
    exact ⟨by rw [List.filter_append, a, c]; rfl, d⟩
  · intro hne
    rw [List.filter_append] at hne
    by_cases hm : l1.filter Line.isMismatch = []
    · rw [hm, List.nil_append] at hne
      exact f2 hne
    · exact (e2 (f1 hm)).2

theorem sticky_match (p : Parser) (ty : TokenType) : p.Sticky (p.match_ ty) := by
  unfold Parser.match_
  split
  · exact ⟨[], by simp, by simp, rfl, by simp, fun h => ⟨rfl, h⟩, by simp⟩
  · split
    · rename_i h
      refine ⟨[.mismatch ty p.look.value], rfl, by simp, rfl, by simp [Line.isMismatch], ?_,
        fun _ => rfl⟩
      intro he
      exact absurd he h
    · exact sticky_refl p

/-- Between the call and the return of each parsing function the output and the error flag
obey `Parser.Sticky`. -/
theorem parse_sticky (n : Nat) :
    (∀ p r, parseE n p = some r → p.Sticky r.2) ∧
    (∀ l p r, parseE_loop n l p = some r → p.Sticky r.2) ∧
    (∀ p r, parseT n p = some r → p.Sticky r.2) ∧
    (∀ l p r, parseT_loop n l p = some r → p.Sticky r.2) ∧
    (∀ p r, parseF n p = some r → p.Sticky r.2) := by
  apply parse_induct Parser.Sticky sticky_refl sticky_trans
  · intro p
    exact ⟨[.traceE], rfl, by simp, rfl, by simp [Line.isMismatch],
      fun h => ⟨rfl, h⟩, by simp [Line.isMismatch]⟩
  · exact sticky_match
  · intro p op a b
    exact ⟨[.quad op a b p.newTemp.1], rfl, by simp, rfl, by simp [Line.isMismatch],
      fun h => ⟨rfl, h⟩, by simp [Line.isMismatch]⟩
  · intro p
    exact ⟨[], by simp, by simp, rfl, by simp, fun _ => ⟨rfl, rfl⟩, by simp⟩

/-- The four ways `parseAssignment` can run, and that it always returns. -/
theorem parseAssignment_cases (input : List Char) :
    ((Parser.init input).look.type ≠ .ID ∧
      parseAssignment input = some ((Parser.init input).print .notIdentifier)) ∨
    ((Parser.init input).look.type = .ID ∧
      ((Parser.init input).match_ .ID).look.type ≠ .ASSIGN ∧
      parseAssignment input = some (((Parser.init input).match_ .ID).print .missingAssign)) ∨
    ((Parser.init input).look.type = .ID ∧
      ((Parser.init input).match_ .ID).look.type = .ASSIGN ∧
      ∃ res p3, parseE (3 * input.length + 3)
          (((Parser.init input).match_ .ID).match_ .ASSIGN) = some (res, p3) ∧
        ((p3.look.type ≠ .SEMI ∧ parseAssignment input =
            some ((p3.emit ['='] res ['_'] (Parser.init input).look.value).print
              .missingSemi)) ∨
         (p3.look.type = .SEMI ∧ parseAssignment input =
            some (if ¬ ((p3.emit ['='] res ['_'] (Parser.init input).look.value).match_
                .SEMI).hasError = true
              then ((p3.emit ['='] res ['_'] (Parser.init input).look.value).match_
                .SEMI).print .success
              else (p3.emit ['='] res ['_'] (Parser.init input).look.value).match_
                .SEMI)))) := by
  by_cases h0 : (Parser.init input).look.type = .ID
  · by_cases h1 : ((Parser.init input).match_ .ID).look.type = .ASSIGN
    · right; right
      refine ⟨h0, h1, ?_⟩
      have hsize : 3 * (((Parser.init input).match_ .ID).match_ .ASSIGN).size + 3 ≤
          3 * input.length + 3 := by
        have a := size_match_le ((Parser.init input).match_ .ID) .ASSIGN
        have b := size_match_le (Parser.init input) .ID
        have c := size_init input
        omega
      obtain ⟨⟨res, p3⟩, hE, _⟩ := (parse_total _).1 _ hsize
      refine ⟨res, p3, hE, ?_⟩
      by_cases h3 : p3.look.type = .SEMI
      · right
        refine ⟨h3, ?_⟩
        unfold parseAssignment parseAssignmentFrom
        rw [if_pos h0]
        simp only
        rw [if_pos h1, hE]
        simp only
        rw [if_pos (by exact h3)]
      · left
        refine ⟨h3, ?_⟩
        unfold parseAssignment parseAssignmentFrom
        rw [if_pos h0]
        simp only
        rw [if_pos h1, hE]
        simp only
        rw [if_neg (by exact h3)]
    · right; left
      refine ⟨h0, h1, ?_⟩
      unfold parseAssignment parseAssignmentFrom
      rw [if_pos h0]
      simp only
      rw [if_neg h1]
  · left
    refine ⟨h0, ?_⟩
    unfold parseAssignment parseAssignmentFrom
    rw [if_neg h0]

end SynAn

namespace SynAn

open CType

theorem sticky_emit (p : Parser) (op a b c : List Char) : p.Sticky (p.emit op a b c) :=
  ⟨[.quad op a b c], rfl, by simp, rfl, by simp [Line.isMismatch], fun h => ⟨rfl, h⟩,
    by simp [Line.isMismatch]⟩

theorem sticky_count (p0 q : Parser) (h0 : p0.out = []) (hs : p0.Sticky q) :
    (q.out.filter Line.isMismatch).length ≤ 1 ∧ q.out.filter Line.isStmtDiag = [] ∧
      Line.success ∉ q.out := by
  obtain ⟨ls, ho, hsucc, hd, hm, _, _⟩ := hs
  rw [h0, List.nil_append] at ho
  rw [ho]
  exact ⟨hm, hd, hsucc⟩

theorem sticky_count_print (p0 q : Parser) (x : Line) (h0 : p0.out = [])
    (hx : x.isMismatch = false) (hs : p0.Sticky q) :
    ((q.print x).out.filter Line.isMismatch).length ≤ 1 ∧
      ((q.print x).out.filter Line.isStmtDiag).length ≤ 1 := by
  obtain ⟨hm, hd, _⟩ := sticky_count p0 q h0 hs
  simp only [Parser.print, List.filter_append, List.length_append, hd]
  constructor
  · simp [List.filter, hx]
    exact hm
  · simp only [List.nil_append, List.length_nil, Nat.zero_add]
    exact List.length_filter_le _ [x]

/-- The expression parser started by `parseAssignment` is related to the initial state by
`Parser.Sticky`. -/
theorem sticky_upto_expr (input : List Char) (res : List Char) (p3 : Parser) (n : Nat)
    (hE : parseE n (((Parser.init input).match_ .ID).match_ .ASSIGN) = some (res, p3)) :
    (Parser.init input).Sticky p3 :=
  sticky_trans _ _ _ (sticky_trans _ _ _ (sticky_match _ _) (sticky_match _ _))
    ((parse_sticky n).1 _ _ hE)

theorem length_diags (ls : List Line) : (diags ls).length =
    (ls.filter Line.isMismatch).length + (ls.filter Line.isStmtDiag).length := by
  induction ls with
  | nil => rfl
  | cons a t ih =>
    cases a <;> simp [diags, List.filter, Line.isDiag, Line.isMismatch, Line.isStmtDiag] at ih ⊢
      <;> omega

/-- The bound on diagnostics of every run of `parseAssignment`. -/
theorem parseAssignment_diag_counts (input : List Char) :
    ∃ p, parseAssignment input = some p ∧ (p.out.filter Line.isMismatch).length ≤ 1 ∧
      (p.out.filter Line.isStmtDiag).length ≤ 1 := by
  rcases parseAssignment_cases input with ⟨_, h⟩ | ⟨_, _, h⟩ | ⟨_, _, res, p3, hE, h⟩
  · exact ⟨_, h, sticky_count_print _ _ _ (init_out input) rfl (sticky_refl _)⟩
  · exact ⟨_, h, sticky_count_print _ _ _ (init_out input) rfl (sticky_match _ _)⟩
  · have hs := sticky_upto_expr input res p3 _ hE
    rcases h with ⟨_, h⟩ | ⟨_, h⟩
    · exact ⟨_, h, sticky_count_print _ _ _ (init_out input) rfl
        (sticky_trans _ _ _ hs (sticky_emit _ _ _ _ _))⟩
    · have hs5 := sticky_trans _ _ _ (sticky_trans _ _ _ hs
        (sticky_emit p3 ['='] res ['_'] (Parser.init input).look.value)) (sticky_match _ .SEMI)
      refine ⟨_, h, ?_⟩
      split
      · exact sticky_count_print _ _ _ (init_out input) rfl hs5
      · obtain ⟨a, b, _⟩ := sticky_count _ _ (init_out input) hs5
        exact ⟨a, by rw [b]; exact Nat.zero_le _⟩

/-- C10, the claim fails: on `a = (b` one run prints two diagnostic lines, the one of `match`
for the missing `)` and then the missing-semicolon line. -/
theorem parseAssignment_two_diagnostics :
    (parseAssignment "a = (b".toList).map (fun p => diags p.out) =
      some [.mismatch .RPAREN ['#'], .missingSemi] := by
  decide

/-- C10, amended: one run of `parseAssignment` prints at most one diagnostic of `match` (the
error flag silences every later mismatch) and at most one of the three diagnostics of
`parseAssignment` itself, so at most two diagnostic lines in all. -/
theorem parseAssignment_diagnostics_bounded (input : List Char) :
    ∃ p, parseAssignment input = some p ∧ (p.out.filter Line.isMismatch).length ≤ 1 ∧
      (p.out.filter Line.isStmtDiag).length ≤ 1 ∧ (diags p.out).length ≤ 2 := by
  obtain ⟨p, hp, h1, h2⟩ := parseAssignment_diag_counts input
  refine ⟨p, hp, h1, h2, ?_⟩
  rw [length_diags]
  omega

end SynAn

namespace SynAn

open CType

theorem punct_symbol (c : Char) (h : punct c ≠ .ERR) : [c] = symbol (punct c) := by
  unfold punct at h ⊢
  split
  · rename_i h1; rw [h1]; rfl
  · split
    · rename_i h1; rw [h1]; rfl
    · split
      · rename_i h1; rw [h1]; rfl
      · split
        · rename_i h1; rw [h1]; rfl
        · split
          · rename_i h1; rw [h1]; rfl
          · split
            · rename_i h1; rw [h1]; rfl
            · split
              · rename_i h1; rw [h1]; rfl
              · split
                · rename_i h1; rw [h1]; rfl
                · rename_i h1 h2 h3 h4 h5 h6 h7 h8
                  simp [h1, h2, h3, h4, h5, h6, h7, h8] at h

/-- The text of a one-character token returned by `nextToken` is its symbol. -/
theorem nextToken_symbol (src : Lexer) (h1 : (nextToken src).1.type ≠ .ID)
    (h2 : (nextToken src).1.type ≠ .NUM) (h3 : (nextToken src).1.type ≠ .ERR)
    (h4 : (nextToken src).1.type ≠ .END) :
    (nextToken src).1.value = symbol (nextToken src).1.type := by
  unfold nextToken at h1 h2 h3 h4 ⊢
  split
  · rename_i heq; rw [heq] at h4; simp at h4
  · rename_i cur rest heq
    rw [heq] at h1 h2 h3
    simp only at h1 h2 h3
    split
    · rename_i ha; rw [if_pos ha] at h1; simp at h1
    · rename_i ha
      rw [if_neg ha] at h1 h2 h3
      split
      · rename_i hd; rw [if_pos hd] at h2; simp at h2
      · rename_i hd
        rw [if_neg hd] at h3
        exact punct_symbol cur h3

theorem look_symbol (p : Parser) (hl : p.LookOk) (ty : TokenType) (h : p.look.type = ty)
    (h1 : ty ≠ .ID) (h2 : ty ≠ .NUM) (h3 : ty ≠ .ERR) (h4 : ty ≠ .END) :
    p.look = ⟨ty, symbol ty⟩ := by
  obtain ⟨s, hs⟩ := hl
  rw [hs] at h ⊢
  have := nextToken_symbol s (by rw [h]; exact h1) (by rw [h]; exact h2) (by rw [h]; exact h3)
    (by rw [h]; exact h4)
  rw [h] at this
  cases hh : (nextToken s).1 with
  | mk ty2 v =>
    rw [hh] at h this
    simp only at h this
    rw [h, this]

theorem lookOk_match (p : Parser) (ty : TokenType) (h : p.LookOk) : (p.match_ ty).LookOk := by
  unfold Parser.match_
  split
  · exact ⟨p.lexer, rfl⟩
  · split
    · exact h
    · exact h

/-- The lookahead stays a token of the lexer through every parsing function. -/
theorem parse_lookOk (n : Nat) :
    (∀ p r, parseE n p = some r → p.LookOk → r.2.LookOk) ∧
    (∀ l p r, parseE_loop n l p = some r → p.LookOk → r.2.LookOk) ∧
    (∀ p r, parseT n p = some r → p.LookOk → r.2.LookOk) ∧
    (∀ l p r, parseT_loop n l p = some r → p.LookOk → r.2.LookOk) ∧
    (∀ p r, parseF n p = some r → p.LookOk → r.2.LookOk) := by
  apply parse_induct (fun p p' => p.LookOk → p'.LookOk)
  · exact fun _ h => h
  · exact fun _ _ _ h1 h2 h => h2 (h1 h)
  · exact fun _ h => h
  · exact fun p ty h => lookOk_match p ty h
  · exact fun _ _ _ _ h => h
  · exact fun _ h => h

theorem lookOk_init (input : List Char) : (Parser.init input).LookOk := ⟨input, rfl⟩

theorem sticky_err {p p' : Parser} (h : p.Sticky p') (he : p'.hasError = false) :
    p.hasError = false := by
  obtain ⟨_, _, _, _, _, e, _⟩ := h
  cases hp : p.hasError with
  | false => rfl
  | true => rw [(e hp).2] at he; cases he

theorem stream_of_look (p : Parser) (h : p.look.type ≠ .END) :
    p.stream = p.look :: tokens p.lexer := by
  unfold Parser.stream
  rw [if_neg h]

/-- A `match` that leaves the error flag down has matched: the lookahead was of the expected
kind and has been removed from the stream. -/
theorem match_ok (p : Parser) (ty : TokenType) (hty : ty ≠ .END)
    (h : (p.match_ ty).hasError = false) :
    p.look.type = ty ∧ p.stream = p.look :: (p.match_ ty).stream ∧ p.hasError = false := by
  by_cases hl : p.look.type = ty
  · have hs := stream_of_look p (by rw [hl]; exact hty)
    obtain ⟨a, _, c⟩ := match_of_stream hs
    rw [hl] at a c
    refine ⟨hl, by rw [a]; exact hs, ?_⟩
    rw [← c.hasError]; exact h
  · unfold Parser.match_ at h
    rw [if_neg hl] at h
    split at h
    · simp at h
    · rename_i he
      simp only [Bool.not_eq_true, not_not] at he
      exact absurd h he

theorem match_same (p : Parser) (ty : TokenType) (hty : ty ≠ .END) (hl : p.look.type = ty) :
    p.stream = p.look :: (p.match_ ty).stream ∧ (p.match_ ty).hasError = p.hasError := by
  have hs := stream_of_look p (by rw [hl]; exact hty)
  obtain ⟨a, _, c⟩ := match_of_stream hs
  rw [hl] at a c
  exact ⟨by rw [a]; exact hs, c.hasError⟩

end SynAn

namespace SynAn

open CType

theorem look_addOp (p : Parser) (hl : p.LookOk)
    (h : p.look.type = .PLUS ∨ p.look.type = .MINUS) : ∃ op : AddOp, p.look = op.token := by
  rcases h with h | h
  · exact ⟨.plus, look_symbol p hl _ h (by decide) (by decide) (by decide) (by decide)⟩
  · exact ⟨.minus, look_symbol p hl _ h (by decide) (by decide) (by decide) (by decide)⟩

theorem look_mulOp (p : Parser) (hl : p.LookOk)
    (h : p.look.type = .MUL ∨ p.look.type = .DIV) : ∃ op : MulOp, p.look = op.token := by
  rcases h with h | h
  · exact ⟨.times, look_symbol p hl _ h (by decide) (by decide) (by decide) (by decide)⟩
  · exact ⟨.over, look_symbol p hl _ h (by decide) (by decide) (by decide) (by decide)⟩

/-- Soundness of the parser: when a parsing function returns with the error flag down, the
tokens it consumed are those of a parse tree of its nonterminal. -/
theorem parse_sound (n : Nat) :
    (∀ p r, p.LookOk → parseE n p = some r → r.2.hasError = false →
      ∃ e : Expr, p.stream = e.tokens ++ r.2.stream) ∧
    (∀ l p r, p.LookOk → parseE_loop n l p = some r → r.2.hasError = false →
      ∀ e0 : Expr, ∃ e : Expr, e0.tokens ++ p.stream = e.tokens ++ r.2.stream) ∧
    (∀ p r, p.LookOk → parseT n p = some r → r.2.hasError = false →
      ∃ t : Term, p.stream = t.tokens ++ r.2.stream) ∧
    (∀ l p r, p.LookOk → parseT_loop n l p = some r → r.2.hasError = false →
      ∀ t0 : Term, ∃ t : Term, t0.tokens ++ p.stream = t.tokens ++ r.2.stream) ∧
    (∀ p r, p.LookOk → parseF n p = some r → r.2.hasError = false →
      ∃ f : Factor, p.stream = f.tokens ++ r.2.stream) := by
  induction n with
  | zero => simp [parseE, parseE_loop, parseT, parseT_loop, parseF]
  | succ n ih =>
    obtain ⟨ihE, ihEl, ihT, ihTl, ihF⟩ := ih
    refine ⟨?_, ?_, ?_, ?_, ?_⟩
    · intro p r hl h herr
      rw [parseE] at h
      cases hT : parseT n (p.print .traceE) with
      | none => simp [hT] at h
      | some v =>
        rw [hT] at h
        simp only at h
        have herr1 := sticky_err ((parse_sticky n).2.1 _ _ _ h) herr
        have hl1 := (parse_lookOk n).2.2.1 _ _ hT hl
        have hl0 : (p.print .traceE).LookOk := hl
        obtain ⟨t, ht⟩ := ihT _ _ hl0 hT herr1
        obtain ⟨e, he⟩ := ihEl _ _ _ hl1 h herr (.term t)
        refine ⟨e, ?_⟩
        rw [← he, Expr.tokens, ← ht]
        rfl
    · intro l p r hl h herr e0
      rw [parseE_loop] at h
      split at h
      · rename_i hc
        cases hT : parseT n (p.match_ p.look.type) with
        | none => simp [hT] at h
        | some v =>
          rw [hT] at h
          simp only at h
          have herr3 := sticky_err ((parse_sticky n).2.1 _ _ _ h) herr
          have herr2 : v.2.hasError = false := herr3
          have herrm := sticky_err ((parse_sticky n).2.2.1 _ _ hT) herr2
          have hne : p.look.type ≠ .END := by rcases hc with h | h <;> rw [h] <;> decide
          obtain ⟨_, hst, _⟩ := match_ok p _ hne herrm
          obtain ⟨op, hop⟩ := look_addOp p hl hc
          have hlm := lookOk_match p p.look.type hl
          have hl2 := (parse_lookOk n).2.2.1 _ _ hT hlm
          obtain ⟨t, ht⟩ := ihT _ _ hlm hT herr2
          have hl3 : (v.2.newTemp.2.emit p.look.value l v.1 v.2.newTemp.1).LookOk := hl2
          obtain ⟨e, he⟩ := ihEl _ _ _ hl3 h herr (.bin e0 op t)
          refine ⟨e, ?_⟩
          rw [← he, Expr.tokens, hst, ht, hop]
          simp only [List.append_assoc, List.cons_append]
          rfl
      · rw [← Option.some.inj h]
        exact ⟨e0, rfl⟩
    · intro p r hl h herr
      rw [parseT] at h
      cases hF : parseF n p with
      | none => simp [hF] at h
      | some v =>
        rw [hF] at h
        simp only at h
        have herr1 := sticky_err ((parse_sticky n).2.2.2.1 _ _ _ h) herr
        have hl1 := (parse_lookOk n).2.2.2.2 _ _ hF hl
        obtain ⟨f, hf⟩ := ihF _ _ hl hF herr1
        obtain ⟨t, ht⟩ := ihTl _ _ _ hl1 h herr (.factor f)
        refine ⟨t, ?_⟩
        rw [← ht, Term.tokens, ← hf]
    · intro l p r hl h herr t0
      rw [parseT_loop] at h
      split at h
      · rename_i hc
        cases hF : parseF n (p.match_ p.look.type) with
        | none => simp [hF] at h
        | some v =>
          rw [hF] at h
          simp only at h
          have herr3 := sticky_err ((parse_sticky n).2.2.2.1 _ _ _ h) herr
          have herr2 : v.2.hasError = false := herr3
          have herrm := sticky_err ((parse_sticky n).2.2.2.2 _ _ hF) herr2
          have hne : p.look.type ≠ .END := by rcases hc with h | h <;> rw [h] <;> decide
          obtain ⟨_, hst, _⟩ := match_ok p _ hne herrm
          obtain ⟨op, hop⟩ := look_mulOp p hl hc
          have hlm := lookOk_match p p.look.type hl
          have hl2 := (parse_lookOk n).2.2.2.2 _ _ hF hlm
          obtain ⟨f, hf⟩ := ihF _ _ hlm hF herr2
          have hl3 : (v.2.newTemp.2.emit p.look.value l v.1 v.2.newTemp.1).LookOk := hl2
          obtain ⟨t, ht⟩ := ihTl _ _ _ hl3 h herr (.bin t0 op f)
          refine ⟨t, ?_⟩
          rw [← ht, Term.tokens, hst, hf, hop]
          simp only [List.append_assoc, List.cons_append]
          rfl
      · rw [← Option.some.inj h]
        exact ⟨t0, rfl⟩
    · intro p r hl h herr
      rw [parseF] at h
      split at h
      · rename_i hc
        cases hE : parseE n (p.match_ .LPAREN) with
        | none => simp [hE] at h
        | some v =>
          rw [hE] at h
          simp only at h
          rw [← Option.some.inj h] at herr ⊢
          simp only at herr ⊢
          obtain ⟨hty1, hst1, herr1⟩ := match_ok v.2 .RPAREN (by decide) herr
          have herrm := sticky_err ((parse_sticky n).1 _ _ hE) herr1
          obtain ⟨_, hst, _⟩ := match_ok p .LPAREN (by decide) herrm
          have hlm := lookOk_match p .LPAREN hl
          have hl1 := (parse_lookOk n).1 _ _ hE hlm
          obtain ⟨e, he⟩ := ihE _ _ hlm hE herr1
          have hlp := look_symbol p hl _ hc (by decide) (by decide) (by decide) (by decide)
          have hrp := look_symbol v.2 hl1 _ hty1 (by decide) (by decide) (by decide)
            (by decide)
          refine ⟨.paren e, ?_⟩
          rw [Factor.tokens, hst, he, hst1, hlp, hrp]
          simp only [List.append_assoc, List.cons_append, List.nil_append]
          rfl
      · split at h
        · rename_i hc
          rw [← Option.some.inj h] at herr ⊢
          simp only at herr ⊢
          have hne : p.look.type ≠ .END := by rcases hc with h | h <;> rw [h] <;> decide
          obtain ⟨_, hst, _⟩ := match_ok p _ hne herr
          rcases hc with hc | hc
          · refine ⟨.id p.look.value, ?_⟩
            rw [Factor.tokens, hst, ← hc]
            rfl
          · refine ⟨.num p.look.value, ?_⟩
            rw [Factor.tokens, hst, ← hc]
            rfl
        · rw [← Option.some.inj h] at herr
          simp at herr

end SynAn

namespace SynAn

open CType

theorem stmtTokens_getLast (target : List Char) (e : Expr) :
    (stmtTokens target e).reverse.head? = some ⟨.SEMI, [';']⟩ := by
  simp [stmtTokens]

theorem not_mem_print {q : Parser} {x : Line} (h : Line.success ∉ q.out) (hx : x ≠ .success) :
    Line.success ∉ (q.print x).out := by
  simp only [Parser.print, List.mem_append, List.mem_singleton, not_or]
  exact ⟨h, fun h2 => hx h2.symm⟩

/-- A run that prints the success line has read a statement: the tokens up to and including
the `;` it matched derive from `Statement`. -/
theorem parseAssignment_success_sound (input : List Char) (p : Parser)
    (hp : parseAssignment input = some p) (hs : Line.success ∈ p.out) :
    ∃ target e rest, tokens input = stmtTokens target e ++ rest := by
  rcases parseAssignment_cases input with ⟨_, h⟩ | ⟨_, _, h⟩ | ⟨h0, h1, res, p3, hE, h⟩
  · rw [h] at hp
    rw [← Option.some.inj hp] at hs
    exact absurd hs (not_mem_print (by rw [init_out]; simp) (by decide))
  · rw [h] at hp
    rw [← Option.some.inj hp] at hs
    exact absurd hs (not_mem_print
      (sticky_count _ _ (init_out input) (sticky_match _ _)).2.2 (by decide))
  · have hst := sticky_upto_expr input res p3 _ hE
    have hst4 := sticky_trans _ _ _ hst
      (sticky_emit p3 ['='] res ['_'] (Parser.init input).look.value)
    rcases h with ⟨_, h⟩ | ⟨h3, h⟩
    · rw [h] at hp
      rw [← Option.some.inj hp] at hs
      exact absurd hs (not_mem_print (sticky_count _ _ (init_out input) hst4).2.2 (by decide))
    · have hst5 := sticky_trans _ _ _ hst4 (sticky_match _ .SEMI)
      rw [h] at hp
      rw [← Option.some.inj hp] at hs
      split at hs
      · rename_i herr
        simp only [Bool.not_eq_true] at herr
        have hl0 := lookOk_init input
        have hl1 := lookOk_match _ .ID hl0
        have hl2 := lookOk_match _ .ASSIGN hl1
        have hl3 := (parse_lookOk _).1 _ _ hE hl2
        obtain ⟨_, hs4, herr4⟩ := match_ok _ .SEMI (by decide) herr
        have herr3 : p3.hasError = false := herr4
        obtain ⟨e, he⟩ := (parse_sound _).1 _ _ hl2 hE herr3
        obtain ⟨hs1, _⟩ := match_same _ .ASSIGN (by decide) h1
        obtain ⟨hs0, _⟩ := match_same _ .ID (by decide) h0
        have hk1 := look_symbol _ hl1 _ h1 (by decide) (by decide) (by decide) (by decide)
        have hk3 := look_symbol _ hl3 _ h3 (by decide) (by decide) (by decide) (by decide)
        have hs4b : p3.stream = p3.look ::
            ((p3.emit ['='] res ['_'] (Parser.init input).look.value).match_ .SEMI).stream :=
          hs4
        simp only at he hk3
        refine ⟨(Parser.init input).look.value, e,
          ((p3.emit ['='] res ['_'] (Parser.init input).look.value).match_ .SEMI).stream, ?_⟩
        rw [← stream_init, hs0, hs1, he, hs4b, hk1, hk3, stmtTokens]
        simp only [List.append_assoc, List.cons_append, List.nil_append]
        rw [← h0]
        rfl
      · exact absurd hs (sticky_count _ _ (init_out input) hst5).2.2

/-- C6, the claim fails: `a = b; c` makes `parseAssignment` print the success line, but its
token sequence `a = b ; c` does not derive from `Statement`, which ends in `;`. -/
theorem parseAssignment_accepts_trailing :
    printsSuccess "a = b; c".toList = true ∧
    ¬ ∃ target e, tokens "a = b; c".toList = stmtTokens target e := by
  refine ⟨by decide, ?_⟩
  rintro ⟨target, e, h⟩
  have h2 := stmtTokens_getLast target e
  rw [← h] at h2
  revert h2
  decide

/-- C6, amended: if `parseAssignment` prints the success line then the token sequence of the
input begins with a sequence derivable from `Statement -> Identifier '=' Expr ';'`; what
follows the `;` is not examined. -/
theorem parseAssignment_success_derivable (input : List Char)
    (h : printsSuccess input = true) :
    ∃ target e rest, tokens input = stmtTokens target e ++ rest := by
  unfold printsSuccess at h
  cases hp : parseAssignment input with
  | none => rw [hp] at h; cases h
  | some p =>
    rw [hp] at h
    exact parseAssignment_success_sound input p hp (of_decide_eq_true h)

/-- C6 amended, witness: `a = b; c`. -/
theorem parseAssignment_success_derivable_witness :
    printsSuccess "a = b; c".toList = true ∧
    ∃ target e rest, tokens "a = b; c".toList = stmtTokens target e ++ rest :=
  ⟨by decide, parseAssignment_success_derivable "a = b; c".toList (by decide)⟩

end SynAn

namespace SynAn

open CType

theorem init_look_type (input : List Char) :
    (Parser.init input).look.type = headType (tokens input) := by
  rw [look_type_eq_headType, stream_init]

theorem second_look_type (input : List Char) (h : (Parser.init input).look.type = .ID) :
    ((Parser.init input).match_ .ID).look.type = headType (tokens input).tail := by
  obtain ⟨hs, _⟩ := match_same _ .ID (by decide) h
  rw [look_type_eq_headType, ← stream_init, hs]
  rfl

theorem match_id_out (input : List Char) (h : (Parser.init input).look.type = .ID) :
    ((Parser.init input).match_ .ID).out = [] ∧
      ((Parser.init input).match_ .ID).hasError = false := by
  unfold Parser.match_
  rw [if_pos h]
  exact ⟨rfl, rfl⟩

/-- On `5` the statement does not start with an identifier; the diagnostic is printed, and
`hasError` is still false when `parseAssignment` returns. -/
theorem parseAssignment_diag_without_flag :
    (parseAssignment "5".toList).map (fun p => (p.out, p.hasError)) =
      some ([.notIdentifier], false) := by
  decide

/-- The error paths of the parser: (1) a line that does not start with an identifier, (2) a
line whose identifier is not followed by `=`, and (3) an expression not followed by `;` each
make `parseAssignment` print the corresponding diagnostic line, as its last line, and return without touching
`hasError` (so in (1) and (2) the flag is false and nothing else is printed); (4) when `parseF`
meets a token that is neither `(`, an identifier nor a number it sets `hasError` and returns
the placeholder `?`, consuming nothing; (5) a run that does not print the success line prints
a diagnostic line or returns with `hasError` set. -/
theorem parseAssignment_error_conditions (input : List Char) :
    (headType (tokens input) ≠ .ID →
      ∃ p, parseAssignment input = some p ∧ p.out = [.notIdentifier] ∧ p.hasError = false) ∧
    (headType (tokens input) = .ID → headType (tokens input).tail ≠ .ASSIGN →
      ∃ p, parseAssignment input = some p ∧ p.out = [.missingAssign] ∧ p.hasError = false) ∧
    (∀ res p3, headType (tokens input) = .ID → headType (tokens input).tail = .ASSIGN →
      parseE (3 * input.length + 3) (((Parser.init input).match_ .ID).match_ .ASSIGN) =
        some (res, p3) →
      p3.look.type ≠ .SEMI →
      ∃ p, parseAssignment input = some p ∧
        p.out = p3.out ++ [.quad ['='] res ['_'] (Parser.init input).look.value, .missingSemi] ∧
        p.hasError = p3.hasError) ∧
    (∀ n p, p.look.type ≠ .LPAREN → p.look.type ≠ .ID → p.look.type ≠ .NUM →
      parseF (n + 1) p = some (['?'], { p with hasError := true })) ∧
    (printsSuccess input = false →
      ∃ p, parseAssignment input = some p ∧ (diags p.out ≠ [] ∨ p.hasError = true)) := by
  refine ⟨?_, ?_, ?_, ?_, ?_⟩
  · intro h
    rw [← init_look_type] at h
    refine ⟨(Parser.init input).print .notIdentifier, ?_, rfl, rfl⟩
    unfold parseAssignment parseAssignmentFrom
    rw [if_neg h]
  · intro h0 h1
    rw [← init_look_type] at h0
    rw [← second_look_type input h0] at h1
    obtain ⟨ho, he⟩ := match_id_out input h0
    refine ⟨((Parser.init input).match_ .ID).print .missingAssign, ?_, ?_, he⟩
    · unfold parseAssignment parseAssignmentFrom
      rw [if_pos h0]
      simp only
      rw [if_neg h1]
    · simp [Parser.print, ho]
  · intro res p3 h0 h1 hE h3
    rw [← init_look_type] at h0
    rw [← second_look_type input h0] at h1
    refine ⟨(p3.emit ['='] res ['_'] (Parser.init input).look.value).print .missingSemi,
      ?_, ?_, rfl⟩
    · unfold parseAssignment parseAssignmentFrom
      rw [if_pos h0]
      simp only
      rw [if_pos h1, hE]
      simp only
      rw [if_neg (by exact h3)]
    · simp [Parser.print, Parser.emit]
  · intro n p h1 h2 h3
    rw [parseF, if_neg h1, if_neg (by simp [h2, h3])]
  · intro hns
    rcases parseAssignment_cases input with ⟨_, h⟩ | ⟨_, _, h⟩ | ⟨_, _, res, p3, _, h⟩
    · exact ⟨_, h, Or.inl (by simp [Parser.print, diags, Line.isDiag])⟩
    · exact ⟨_, h, Or.inl (by simp [Parser.print, diags, Line.isDiag])⟩
    · rcases h with ⟨_, h⟩ | ⟨_, h⟩
      · exact ⟨_, h, Or.inl (by simp [Parser.print, diags, Line.isDiag])⟩
      · refine ⟨_, h, ?_⟩
        split
        · rename_i herr
          unfold printsSuccess at hns
          rw [h, if_pos herr] at hns
          simp [Parser.print] at hns
        · rename_i herr
          right
          simpa using herr

/-- The error paths at concrete lines: `5` for (1), `x 5;` for (2), `a = b` for (3), the parser
at the `;` of `a = ;` for (4), and `a = ;` for (5). -/
theorem parseAssignment_error_conditions_witness :
    (headType (tokens "5".toList) ≠ .ID ∧
      ∃ p, parseAssignment "5".toList = some p ∧ p.out = [.notIdentifier] ∧
        p.hasError = false) ∧
    (headType (tokens "x 5;".toList) = .ID ∧ headType (tokens "x 5;".toList).tail ≠ .ASSIGN ∧
      ∃ p, parseAssignment "x 5;".toList = some p ∧ p.out = [.missingAssign] ∧
        p.hasError = false) ∧
    (∃ p, parseAssignment "a = b".toList = some p ∧
      p.out = [.traceE, .quad ['='] ['b'] ['_'] ['a'], .missingSemi] ∧ p.hasError = false) ∧
    parseF 1 (((Parser.init "a = ;".toList).match_ .ID).match_ .ASSIGN) =
      some (['?'], { ((Parser.init "a = ;".toList).match_ .ID).match_ .ASSIGN with
        hasError := true }) ∧
    (printsSuccess "a = ;".toList = false ∧
      ∃ p, parseAssignment "a = ;".toList = some p ∧
        (diags p.out ≠ [] ∨ p.hasError = true)) := by
  refine ⟨⟨by decide, (parseAssignment_error_conditions "5".toList).1 (by decide)⟩,
    ⟨by decide, by decide,
      (parseAssignment_error_conditions "x 5;".toList).2.1 (by decide) (by decide)⟩,
    ?_,
    (parseAssignment_error_conditions []).2.2.2.1 0 _ (by decide) (by decide) (by decide),
    ⟨by decide, (parseAssignment_error_conditions "a = ;".toList).2.2.2.2 (by decide)⟩⟩
  obtain ⟨p, h1, h2, h3⟩ := (parseAssignment_error_conditions "a = b".toList).2.2.1 ['b']
    ⟨[], ⟨.END, ['#']⟩, 0, false, [.traceE]⟩ (by decide) (by decide) (by decide) (by decide)
  exact ⟨p, h1, h2, h3⟩

end SynAn

namespace LexAn

open CType

theorem skip_whitespace_loop_suffix (rest : List Char) : ∀ line column : Int,
    (skip_whitespace_loop rest line column).rest <:+ rest := by
  induction rest with
  | nil => intro line column; exact List.suffix_refl _
  | cons c cs ih =>
    intro line column
    rw [skip_whitespace_loop]
    split
    · split
      · exact (ih _ _).trans (List.suffix_cons c cs)
      · exact (ih _ _).trans (List.suffix_cons c cs)
    · exact List.suffix_refl _

/-- After `skip_whitespace` the current character is the terminator or not a space. -/
theorem skip_whitespace_loop_cur (rest : List Char) : ∀ line column : Int,
    (skip_whitespace_loop rest line column).cur = NUL ∨
      isspace (skip_whitespace_loop rest line column).cur = false := by
  induction rest with
  | nil => intro line column; left; rfl
  | cons c cs ih =>
    intro line column
    rw [skip_whitespace_loop]
    split
    · split
      · exact ih _ _
      · exact ih _ _
    · rename_i h
      simp only [Cursor.cur, List.headD_cons]
      by_cases hc : c = NUL
      · exact Or.inl hc
      · right
        simp only [not_and] at h
        simpa using h hc

theorem line_comment_loop_suffix (rest : List Char) : ∀ line column : Int,
    (line_comment_loop rest line column).rest <:+ rest := by
  induction rest with
  | nil => intro line column; exact List.suffix_refl _
  | cons c cs ih =>
    intro line column
    rw [line_comment_loop]
    split
    · exact (ih _ _).trans (List.suffix_cons c cs)
    · exact List.suffix_refl _

theorem block_comment_loop_suffix (rest : List Char) : ∀ line column : Int,
    (block_comment_loop rest line column).rest <:+ rest := by
  induction rest with
  | nil => intro line column; exact List.suffix_refl _
  | cons c cs ih =>
    intro line column
    rw [block_comment_loop]
    split
    · split
      · exact (ih _ _).trans (List.suffix_cons c cs)
      · exact (ih _ _).trans (List.suffix_cons c cs)
    · exact List.suffix_refl _

theorem cur_next_cons {s : Cursor} {a b : Char} (ha : s.cur = a) (hb : s.next = b)
    (ha0 : a ≠ NUL) (hb0 : b ≠ NUL) : ∃ tl, s.rest = a :: b :: tl := by
  unfold Cursor.cur at ha
  unfold Cursor.next at hb
  cases h : s.rest with
  | nil => rw [h] at ha; exact absurd ha.symm ha0
  | cons x xs =>
    rw [h] at ha hb
    simp only [List.headD_cons, List.tail_cons] at ha hb
    cases xs with
    | nil => exact absurd hb.symm hb0
    | cons y ys =>
      simp only [List.headD_cons] at hb
      exact ⟨ys, by rw [ha, hb]⟩

/-- On `//` or `/*` the function `skip_comment` consumes at least the two characters. -/
theorem skip_comment_progress (s : Cursor) (h : s.cur = '/' ∧ (s.next = '/' ∨ s.next = '*')) :
    (skip_comment s).rest <:+ s.rest ∧ (skip_comment s).rest.length < s.rest.length := by
  obtain ⟨h1, h2⟩ := h
  unfold skip_comment
  rcases h2 with h2 | h2
  · obtain ⟨tl, htl⟩ := cur_next_cons h1 h2 (by decide) (by decide)
    rw [if_pos ⟨h1, h2⟩, htl]
    have hs : (line_comment_loop ('/' :: '/' :: tl) s.line s.column).rest <:+ '/' :: tl := by
      rw [line_comment_loop, if_pos (by decide)]
      exact line_comment_loop_suffix _ _ _
    refine ⟨hs.trans (List.suffix_cons _ _), ?_⟩
    have := hs.length_le
    simp only [List.length_cons] at this ⊢
    omega
  · obtain ⟨tl, htl⟩ := cur_next_cons h1 h2 (by decide) (by decide)
    have hne : ¬ (s.cur = '/' ∧ s.next = '/') := by
      rw [h2]; intro h; exact absurd h.2 (by decide)
    rw [if_neg hne, if_pos ⟨h1, h2⟩, htl]
    simp only [List.drop_succ_cons, List.drop_zero]
    have hs := block_comment_loop_suffix tl s.line (s.column + 2)
    have h2s : tl <:+ '/' :: '*' :: tl :=
      (List.suffix_cons _ _).trans (List.suffix_cons _ _)
    split
    · have hd := (List.drop_suffix 2 (block_comment_loop tl s.line (s.column + 2)).rest)
      refine ⟨(hd.trans hs).trans h2s, ?_⟩
      have := (hd.trans hs).length_le
      simp only [List.length_cons] at this ⊢
      omega
    · refine ⟨hs.trans h2s, ?_⟩
      have := hs.length_le
      simp only [List.length_cons]
      omega

end LexAn

namespace LexAn

open CType

theorem identifier_loop_spec (rest : List Char) :
    rest = (identifier_loop rest).1 ++ (identifier_loop rest).2 := by
  induction rest with
  | nil => rfl
  | cons c cs ih =>
    rw [identifier_loop]
    split
    · simp only [List.cons_append]
      rw [← ih]
    · rfl

theorem number_loop_spec (rest : List Char) : ∀ dots : Nat,
    rest = (number_loop rest dots).1 ++ (number_loop rest dots).2 := by
  induction rest with
  | nil => intro dots; rfl
  | cons c cs ih =>
    intro dots
    rw [number_loop]
    split
    · split
      · split
        · rfl
        · simp only [List.cons_append]
          rw [← ih]
      · simp only [List.cons_append]
        rw [← ih]
    · rfl

theorem string_loop_spec (rest : List Char) :
    rest = (string_loop rest).1 ++ (string_loop rest).2 := by
  induction rest with
  | nil => rfl
  | cons c cs ih =>
    rw [string_loop]
    split
    · simp only [List.cons_append]
      rw [← ih]
    · rfl

theorem headD_cons_tail {rest : List Char} {c : Char} (h : rest.headD NUL = c) (hc : c ≠ NUL) :
    rest = c :: rest.drop 1 := by
  cases rest with
  | nil => exact absurd h.symm hc
  | cons x xs =>
    simp only [List.headD_cons] at h
    rw [h]; rfl

theorem scan_string_spec (rest : List Char) (h : rest.headD NUL = DQUOTE) :
    rest = (scan_string rest).value ++ (scan_string rest).rest ∧
      (scan_string rest).value ≠ [] := by
  have hr := headD_cons_tail h (by decide)
  have hl := string_loop_spec (rest.drop 1)
  unfold scan_string
  simp only
  split
  · rename_i hq
    have hq2 := headD_cons_tail hq (by decide)
    refine ⟨?_, by simp⟩
    simp only [List.cons_append, List.append_assoc, List.singleton_append, List.nil_append]
    rw [← hq2, ← hl]
    exact hr
  · refine ⟨?_, by simp⟩
    simp only [List.cons_append]
    rw [← hl]
    exact hr

theorem scan_char_close_spec (character rest : List Char) (hc : character ≠ []) :
    character ++ rest = (scan_char_close character rest).value ++
        (scan_char_close character rest).rest ∧
      (scan_char_close character rest).value ≠ [] := by
  unfold scan_char_close
  split
  · rename_i hq
    have hq2 := headD_cons_tail hq (by decide)
    refine ⟨?_, by simp⟩
    simp only [List.append_assoc, List.singleton_append]
    rw [← hq2]
  · exact ⟨rfl, hc⟩

theorem scan_char_spec (rest : List Char) (h : rest.headD NUL = SQUOTE) :
    rest = (scan_char rest).value ++ (scan_char rest).rest ∧ (scan_char rest).value ≠ [] := by
  have hr := headD_cons_tail h (by decide)
  unfold scan_char
  split
  · rename_i heq
    rw [heq] at hr
    exact ⟨hr, by simp⟩
  · rename_i c cs heq
    rw [heq] at hr
    split
    · exact ⟨hr, by simp⟩
    · split
      · split
        · rename_i hb hn
          have hn2 := headD_cons_tail (c := cs.headD NUL) rfl hn
          have := scan_char_close_spec [SQUOTE, BSLASH, cs.headD NUL] (cs.drop 1) (by simp)
          refine ⟨?_, this.2⟩
          rw [← this.1, hr, hb]
          simp only [List.cons_append, List.nil_append]
          rw [← hn2]
        · rename_i hb hn
          refine ⟨?_, by simp⟩
          rw [hr, hb]
          rfl
      · have := scan_char_close_spec [SQUOTE, c] cs (by simp)
        refine ⟨?_, this.2⟩
        rw [← this.1, hr]
        rfl

theorem operator_loop_spec (rest : List Char) : ∀ symbol : List Char,
    ∃ taken, (operator_loop rest symbol).value = symbol ++ taken ∧
      rest = taken ++ (operator_loop rest symbol).rest := by
  induction rest with
  | nil => intro symbol; exact ⟨[], by simp [operator_loop], by simp [operator_loop]⟩
  | cons c cs ih =>
    intro symbol
    rw [operator_loop]
    split
    · split
      · obtain ⟨taken, h1, h2⟩ := ih (symbol ++ [c])
        refine ⟨c :: taken, ?_, ?_⟩
        · rw [h1]; simp
        · rw [List.cons_append, ← h2]
      · split
        · exact ⟨[c], rfl, rfl⟩
        · split
          · exact ⟨[c], rfl, rfl⟩
          · exact ⟨[c], rfl, rfl⟩
    · exact ⟨[], by simp, rfl⟩

/-- Started on a character that passes the test of its loop, the operator branch copies at
least that character. -/
theorem operator_loop_first (c : Char) (cs : List Char)
    (h : c ≠ NUL ∧ ¬ isspace c = true ∧ ¬ isalnum c = true ∧ c ≠ '_' ∧ c ≠ DQUOTE ∧ c ≠ SQUOTE) :
    ∃ taken, (operator_loop (c :: cs) []).value = c :: taken ∧
      cs = taken ++ (operator_loop (c :: cs) []).rest := by
  rw [operator_loop, if_pos h]
  simp only [List.nil_append]
  split
  · obtain ⟨taken, h1, h2⟩ := operator_loop_spec cs [c]
    exact ⟨taken, by rw [h1]; rfl, h2⟩
  · split
    · exact ⟨[], rfl, rfl⟩
    · split
      · exact ⟨[], rfl, rfl⟩
      · exact ⟨[], rfl, rfl⟩

theorem isalnum_of_isalpha {c : Char} (h : isalpha c = true) : isalnum c = true := by
  simp [isalnum, h]

/-- Every branch of `get_next_token` copies into the token exactly the characters it consumes,
and consumes at least one, when it starts on a character that is neither the terminator nor
a space. -/
theorem scan_spec (rest : List Char) (h0 : rest.headD NUL ≠ NUL)
    (hs : isspace (rest.headD NUL) = false) :
    rest = (scan rest).value ++ (scan rest).rest ∧ (scan rest).value ≠ [] := by
  have hr := headD_cons_tail (c := rest.headD NUL) rfl h0
  unfold scan
  split
  · rename_i h
    refine ⟨identifier_loop_spec rest, ?_⟩
    simp only
    rw [hr, identifier_loop, if_pos (by
      rcases h with h | h
      · exact Or.inl (isalnum_of_isalpha h)
      · exact Or.inr h)]
    simp
  · split
    · rename_i h1 h
      refine ⟨number_loop_spec rest 0, ?_⟩
      simp only
      rw [hr, number_loop, if_pos (by
        rcases h with h | h
        · exact Or.inl h
        · exact Or.inr h.1)]
      split
      · simp
      · simp
    · split
      · rename_i h
        exact scan_string_spec rest h
      · split
        · rename_i h
          exact scan_char_spec rest h
        · rename_i h1 h2 h3 h4
          simp only [not_or, not_and] at h1 h2
          have hcond : rest.headD NUL ≠ NUL ∧ ¬ isspace (rest.headD NUL) = true ∧
              ¬ isalnum (rest.headD NUL) = true ∧ rest.headD NUL ≠ '_' ∧
              rest.headD NUL ≠ DQUOTE ∧ rest.headD NUL ≠ SQUOTE := by
            refine ⟨h0, by rw [hs]; exact Bool.false_ne_true, ?_, h1.2, h3, h4⟩
            simp only [isalnum, Bool.or_eq_true, not_or]
            exact ⟨h1.1, h2.1⟩
          rw [hr]
          obtain ⟨taken, a, b⟩ := operator_loop_first (rest.headD NUL) (rest.drop 1) hcond
          refine ⟨?_, by rw [a]; simp⟩
          rw [a, List.cons_append, ← b]

end LexAn

namespace LexAn

open CType

theorem skip_whitespace_suffix (s : Cursor) : (skip_whitespace s).rest <:+ s.rest :=
  skip_whitespace_loop_suffix _ _ _

theorem skip_whitespace_cur (s : Cursor) :
    (skip_whitespace s).cur = NUL ∨ isspace (skip_whitespace s).cur = false :=
  skip_whitespace_loop_cur _ _ _

/-- At the end of the buffer `skip_whitespace` does nothing. -/
theorem skip_whitespace_at_end (s : Cursor) (h : s.cur = NUL) : skip_whitespace s = s := by
  unfold skip_whitespace
  cases hr : s.rest with
  | nil =>
    rw [skip_whitespace_loop]
    cases s
    simp only at hr
    rw [hr]
  | cons c cs =>
    have hc : c = NUL := by
      unfold Cursor.cur at h
      rw [hr] at h
      exact h
    rw [skip_whitespace_loop, if_neg (by simp [hc])]
    cases s
    simp only at hr
    rw [hr]

/-- One call of `get_next_token` with enough fuel returns, never moves the cursor backwards,
and moves it forwards unless it already stands at the end of the buffer. -/
theorem get_next_token_aux_spec (fuel : Nat) : ∀ s : Cursor, s.rest.length < fuel →
    ∃ tok s', get_next_token_aux fuel s = some (tok, s') ∧ s'.rest <:+ s.rest ∧
      (s.cur ≠ NUL → s'.rest.length < s.rest.length) := by
  induction fuel with
  | zero => intro s h; omega
  | succ fuel ih =>
    intro s hlen
    have hsuf := skip_whitespace_suffix s
    have hle := hsuf.length_le
    rw [get_next_token_aux]
    split
    · rename_i h1
      refine ⟨_, _, rfl, hsuf, ?_⟩
      intro hcur
      by_contra hlt
      have heq := hsuf.eq_of_length (by omega)
      apply hcur
      unfold Cursor.cur at h1 ⊢
      rw [← heq]
      exact h1
    · rename_i h1
      split
      · rename_i h2
        obtain ⟨a, b⟩ := skip_comment_progress (skip_whitespace s) h2
        obtain ⟨tok, s', h3, h4, _⟩ := ih (skip_comment (skip_whitespace s)) (by omega)
        refine ⟨tok, s', h3, (h4.trans a).trans hsuf, ?_⟩
        intro _
        have := h4.length_le
        omega
      · have hsp : isspace (skip_whitespace s).cur = false := by
          rcases skip_whitespace_cur s with h | h
          · exact absurd h h1
          · exact h
        obtain ⟨a, b⟩ := scan_spec (skip_whitespace s).rest h1 hsp
        have hsuf2 : (scan (skip_whitespace s).rest).rest <:+ (skip_whitespace s).rest :=
          ⟨_, a.symm⟩
        refine ⟨_, _, rfl, hsuf2.trans hsuf, ?_⟩
        intro _
        have hl := congrArg List.length a
        rw [List.length_append] at hl
        have hpos := List.length_pos.mpr b
        simp only
        omega

theorem get_next_token_spec (s : Cursor) :
    ∃ tok s', get_next_token s = some (tok, s') ∧ s'.rest <:+ s.rest ∧
      (s.cur ≠ NUL → s'.rest.length < s.rest.length) :=
  get_next_token_aux_spec _ s (Nat.lt_succ_self _)

/-- At the end of the buffer `get_next_token` returns the `END_OF_FILE` token with the text
`EOF` and leaves the cursor where it is. -/
theorem get_next_token_at_end (s : Cursor) (h : s.cur = NUL) :
    get_next_token s = some (⟨.END_OF_FILE, "EOF".toList, s.line, s.column⟩, s) := by
  unfold get_next_token
  rw [get_next_token_aux, skip_whitespace_at_end s h, if_pos h]

/-- The loop of `tokenize` ends when its fuel exceeds the number of unread characters. -/
theorem tokenize_loop_total (fuel : Nat) : ∀ st : State, st.cursor.rest.length < fuel →
    ∃ st', tokenize_loop fuel st = some st' := by
  induction fuel with
  | zero => intro st h; omega
  | succ fuel ih =>
    intro st hlen
    rw [tokenize_loop]
    by_cases hend : st.cursor.cur = NUL
    · rw [get_next_token_at_end _ hend]
      simp
    · obtain ⟨tok, s', h1, _, h3⟩ := get_next_token_spec st.cursor
      rw [h1]
      simp only
      split
      · apply ih
        have := h3 hend
        split
        · simp only [add_token]; omega
        · simp only; omega
      · exact ⟨_, rfl⟩

/-- C3: from every cursor that is not at the end of the buffer, one call of `get_next_token`
returns and strictly advances the cursor (the unread part becomes a strictly shorter suffix),
also through the recursive call made after a comment; `get_next_token` returns from every
cursor, and `tokenize` terminates on every buffer. -/
theorem get_next_token_progress :
    (∀ s : Cursor, s.cur ≠ NUL → ∃ tok s', get_next_token s = some (tok, s') ∧
      s'.rest <:+ s.rest ∧ s'.rest.length < s.rest.length) ∧
    (∀ s : Cursor, ∃ r, get_next_token s = some r) ∧
    (∀ source : List Char, ∃ ts, tokenize source = some ts) := by
  refine ⟨?_, ?_, ?_⟩
  · intro s h
    obtain ⟨tok, s', h1, h2, h3⟩ := get_next_token_spec s
    exact ⟨tok, s', h1, h2, h3 h⟩
  · intro s
    obtain ⟨tok, s', h1, _⟩ := get_next_token_spec s
    exact ⟨_, h1⟩
  · intro source
    obtain ⟨st', h⟩ := tokenize_loop_total (source.length + 1) (init_lexer source)
      (Nat.lt_succ_self _)
    exact ⟨st'.tokens, by rw [tokenize, h]; rfl⟩

/-- C3, witness: from the start of `/* c */ x` the call skips the comment and returns `x`,
leaving nothing unread. -/
theorem get_next_token_progress_witness :
    (⟨"/* c */ x".toList, 1, 1⟩ : Cursor).cur ≠ NUL ∧
    ∃ tok s', get_next_token ⟨"/* c */ x".toList, 1, 1⟩ = some (tok, s') ∧
      s'.rest <:+ "/* c */ x".toList ∧ s'.rest.length < 9 :=
  ⟨by decide, get_next_token_progress.1 ⟨"/* c */ x".toList, 1, 1⟩ (by decide)⟩

end LexAn

namespace LexAn

open CType

/-- C2, the code at the failing input: the buffer `<<=` with nothing after it.  The loop
extends `symbol` to `<<=`, then builds `next_symbol` from the terminator, which is `<<=`
again and so "still an operator"; it continues, the loop condition fails on the terminator,
and the code after the loop returns the kind `UNKNOWN`.  With a character after it, as in
`<<= `, the same text is returned as `OPERATOR`. -/
theorem operator_at_end_of_buffer_unknown :
    get_next_token ⟨"<<=".toList, 1, 1⟩ =
      some (⟨.UNKNOWN, "<<=".toList, 1, 1⟩, ⟨[], 1, 4⟩) ∧
    get_next_token ⟨"<<= ".toList, 1, 1⟩ =
      some (⟨.OPERATOR, "<<=".toList, 1, 1⟩, ⟨[' '], 1, 4⟩) := by
  decide

/-- C7, the code at the failing input: on `EOF x` the loop of `tokenize` stores the
identifier `EOF` and then stops, because it compares the text of the token with `"EOF"`; the
identifier `x` is never read.  The stored values concatenate to `EOF`, the source without its
whitespace is `EOFx`. -/
theorem tokenize_stops_at_identifier_EOF :
    (tokenize "EOF x".toList).map (fun ts => (ts.map Token.value).flatten) = some "EOF".toList ∧
    "EOF x".toList.filter (fun c => !isspace c) = "EOFx".toList := by
  decide

/-- C8, the code at the failing input: in `"a⏎b" x` the string branch consumes the newline
with `column++` and no `line++`, so the identifier `x`, which stands at offset 6, on line 2,
column 4, is stored with line 1 and column 7. -/
theorem newline_in_string_breaks_position :
    tokenize sampleNewlineInString =
      some [⟨.STRING, [DQUOTE, 'a', NL, 'b', DQUOTE], 1, 1⟩, ⟨.IDENTIFIER, ['x'], 1, 7⟩] ∧
    sampleNewlineInString.drop 6 = ['x'] ∧
    lineOf sampleNewlineInString 6 = 2 ∧ columnOf sampleNewlineInString 6 = 4 := by
  decide

end LexAn

namespace SynAn

/-- C9, the code departs from the claim: on `a = ;` error condition (4) occurs.  After `a` and
`=` the lookahead is `;`, which is neither `(`, an identifier nor a number; `parseF` returns
the placeholder `?` and sets `hasError`, but prints nothing, whereas `match` on the same
lookahead prints its diagnostic line when it sets the flag.  The whole output of the run is the
trace line and the quadruple `(=, ?, _, a)`: the success line is not printed and no diagnostic
line is printed either. -/
theorem parseAssignment_silent_on_missing_operand :
    (((Parser.init "a = ;".toList).match_ .ID).match_ .ASSIGN).look = ⟨.SEMI, [';']⟩ ∧
    (parseF 1 (((Parser.init "a = ;".toList).match_ .ID).match_ .ASSIGN)).map
      (fun r => (r.1, r.2.hasError, r.2.out)) = some (['?'], true, []) ∧
    ((((Parser.init "a = ;".toList).match_ .ID).match_ .ASSIGN).match_ .RPAREN).hasError = true ∧
    ((((Parser.init "a = ;".toList).match_ .ID).match_ .ASSIGN).match_ .RPAREN).out =
      [.mismatch .RPAREN [';']] ∧
    (parseAssignment "a = ;".toList).map (fun p => (p.out, p.hasError)) =
      some ([.traceE, .quad ['='] ['?'] ['_'] ['a']], true) ∧
    (parseAssignment "a = ;".toList).map (fun p => diags p.out) = some [] ∧
    printsSuccess "a = ;".toList = false := by
  decide

end SynAn

namespace LexAn

open CType

theorem is_operator_iff (str : List Char) : is_operator str = true ↔ str ∈ operators := by
  unfold is_operator
  rw [List.any_eq_true]
  constructor
  · rintro ⟨k, hk, he⟩
    rw [beq_iff_eq] at he
    rw [he]; exact hk
  · intro h
    exact ⟨str, h, by simp⟩

/-- The operator table is closed under non-empty prefixes. -/
theorem operators_inits : ∀ o ∈ operators, ∀ p ∈ o.inits, p ≠ [] → is_operator p = true := by
  decide

/-- Every character of an operator passes the test of the operator loop, and is none of the
characters that start another branch. -/
theorem operators_chars : ∀ o ∈ operators, ∀ c ∈ o,
    c ≠ NUL ∧ isspace c = false ∧ isalnum c = false ∧ c ≠ '_' ∧ c ≠ DQUOTE ∧ c ≠ SQUOTE ∧
      c ≠ '.' := by
  decide

theorem operators_ne_nil : ∀ o ∈ operators, o ≠ [] := by
  decide

theorem next_symbol_cons (symbol : List Char) (d : Char) (tl : List Char) (hd : d ≠ NUL) :
    next_symbol symbol (d :: tl) = symbol ++ [d] := by
  unfold next_symbol
  rw [List.headD_cons, if_neg hd]

/-- The loop of the operator branch, entered inside an operator `m` that is followed by a
character other than the terminator with which it does not form a longer operator, returns
`m` as an `OPERATOR`. -/
theorem operator_loop_munch (m : List Char) (hm : m ∈ operators) (d : Char) (tl : List Char)
    (hd : d ≠ NUL) (hno : is_operator (m ++ [d]) = false) :
    ∀ (suf pre : List Char), pre ++ suf = m → suf ≠ [] →
      operator_loop (suf ++ d :: tl) pre = ⟨.OPERATOR, m, d :: tl⟩ := by
  intro suf
  induction suf with
  | nil => intro pre _ h; exact absurd rfl h
  | cons c suf ih =>
    intro pre hps _
    have hc := operators_chars m hm c (by rw [← hps]; simp)
    have hcond : c ≠ NUL ∧ ¬ isspace c = true ∧ ¬ isalnum c = true ∧ c ≠ '_' ∧ c ≠ DQUOTE ∧
        c ≠ SQUOTE := by
      obtain ⟨a, b, c1, d1, e, f, _⟩ := hc
      exact ⟨a, by rw [b]; exact Bool.false_ne_true, by rw [c1]; exact Bool.false_ne_true,
        d1, e, f⟩
    rw [List.cons_append, operator_loop, if_pos hcond]
    cases suf with
    | nil =>
      have hpm : pre ++ [c] = m := hps
      rw [List.nil_append, next_symbol_cons _ d tl hd, hpm, hno]
      simp only [Bool.false_eq_true, if_false]
      rw [if_pos ((is_operator_iff m).mpr hm)]
    | cons c2 suf2 =>
      have hc2 := (operators_chars m hm c2 (by rw [← hps]; simp)).1
      have hpre : pre ++ [c] ++ [c2] ∈ m.inits := by
        rw [List.mem_inits]
        exact ⟨suf2, by rw [← hps]; simp⟩
      have hop := operators_inits m hm _ hpre (by simp)
      rw [List.cons_append, next_symbol_cons _ c2 _ hc2, if_pos hop]
      have := ih (pre ++ [c]) (by rw [← hps]; simp) (by simp)
      rw [List.cons_append] at this
      exact this

/-- Maximal munch where it works: when the unread text starts with an operator `m`, no longer
operator is a prefix of it, and `m` is followed by a character other than the terminator, the
branches of `get_next_token` return `m` with kind `OPERATOR`. -/
theorem scan_operator_munch (m : List Char) (hm : m ∈ operators) (d : Char) (tl : List Char)
    (hd : d ≠ NUL) (hmax : ∀ o ∈ operators, o <+: m ++ d :: tl → o.length ≤ m.length) :
    scan (m ++ d :: tl) = ⟨.OPERATOR, m, d :: tl⟩ := by
  have hno : is_operator (m ++ [d]) = false := by
    cases h : is_operator (m ++ [d]) with
    | false => rfl
    | true =>
      have := hmax _ ((is_operator_iff _).mp h) ⟨tl, by simp⟩
      simp at this
  have hne := operators_ne_nil m hm
  obtain ⟨c, cs, hcs⟩ := List.exists_cons_of_ne_nil hne
  obtain ⟨h1, h2, h3, h4, h5, h6, h7⟩ := operators_chars m hm c (by rw [hcs]; simp)
  have halpha : isalpha c = false := by
    simp only [isalnum, Bool.or_eq_false_iff] at h3
    exact h3.1
  have hdigit : isdigit c = false := by
    simp only [isalnum, Bool.or_eq_false_iff] at h3
    exact h3.2
  have hhead : (m ++ d :: tl).headD NUL = c := by rw [hcs]; rfl
  unfold scan
  rw [hhead, if_neg (by simp [halpha, h4]), if_neg (by simp [hdigit, h7]), if_neg h5,
    if_neg h6]
  exact operator_loop_munch m hm d tl hd hno m [] rfl hne

end LexAn

namespace SynAn

open CType

/-- C15: on every input line whose first token is an identifier and whose second token is not
`=` (or is missing), `parseAssignment` prints the missing-assignment-operator diagnostic and
nothing else: exactly one diagnostic, no quadruple, no success line. -/
theorem parseAssignment_missing_assign (input : List Char)
    (h0 : headType (tokens input) = .ID) (h1 : headType (tokens input).tail ≠ .ASSIGN) :
    ∃ p, parseAssignment input = some p ∧ p.out = [.missingAssign] ∧
      diags p.out = [.missingAssign] ∧ quads p.out = [] ∧ Line.success ∉ p.out := by
  rw [← init_look_type] at h0
  rw [← second_look_type input h0] at h1
  obtain ⟨ho, _⟩ := match_id_out input h0
  have hout : (((Parser.init input).match_ .ID).print .missingAssign).out = [.missingAssign] := by
    simp [Parser.print, ho]
  refine ⟨((Parser.init input).match_ .ID).print .missingAssign, ?_, hout, ?_, ?_, ?_⟩
  · unfold parseAssignment parseAssignmentFrom
    rw [if_pos h0]
    simp only
    rw [if_neg h1]
  · rw [hout]; rfl
  · rw [hout]; rfl
  · rw [hout]; simp

/-- C15, witness: `x 5;`. -/
theorem parseAssignment_missing_assign_witness :
    headType (tokens "x 5;".toList) = .ID ∧ headType (tokens "x 5;".toList).tail ≠ .ASSIGN ∧
    ∃ p, parseAssignment "x 5;".toList = some p ∧ p.out = [.missingAssign] ∧
      diags p.out = [.missingAssign] ∧ quads p.out = [] ∧ Line.success ∉ p.out :=
  ⟨by decide, by decide, parseAssignment_missing_assign "x 5;".toList (by decide) (by decide)⟩

theorem nextToken_of_cons (src : Lexer) (c : Char) (cs : List Char)
    (h : src.dropWhile isspace = c :: cs) :
    nextToken src =
      if isalpha c = true then
        (⟨.ID, (c :: cs).takeWhile isalnum⟩, (c :: cs).dropWhile isalnum)
      else if isdigit c = true then
        (⟨.NUM, (c :: cs).takeWhile isdigit⟩, (c :: cs).dropWhile isdigit)
      else (⟨punct c, [c]⟩, cs) := by
  unfold nextToken
  rw [h]

theorem nextToken_punct (src : Lexer) (c : Char) (cs : List Char)
    (h : src.dropWhile isspace = c :: cs) (ha : isalpha c = false) (hd : isdigit c = false) :
    nextToken src = (⟨punct c, [c]⟩, cs) := by
  rw [nextToken_of_cons src c cs h, ha, hd]
  rfl

/-- C16: `Lexer::nextToken` first skips whitespace; then it returns `(END, "#")` if no
character remains, with the cursor at the end; `(ID, maximal run of alphanumerics)` on a
letter; `(NUM, maximal run of digits)` on a digit; the kind `ASSIGN`, `PLUS`, `MINUS`, `MUL`,
`DIV`, `LPAREN`, `RPAREN`, `SEMI` with the one character for `= + - * / ( ) ;`; and
`(ERR, that character)` on any other character.  In every case but `END` the text returned is
not empty and the cursor advances, from the first character that is not a space, by exactly
that text. -/
theorem nextToken_spec (src : Lexer) :
    (src.dropWhile isspace = [] → nextToken src = (⟨.END, ['#']⟩, [])) ∧
    (∀ c cs, src.dropWhile isspace = c :: cs →
      (isalpha c = true → nextToken src =
        (⟨.ID, (c :: cs).takeWhile isalnum⟩, (c :: cs).dropWhile isalnum)) ∧
      (isdigit c = true → nextToken src =
        (⟨.NUM, (c :: cs).takeWhile isdigit⟩, (c :: cs).dropWhile isdigit)) ∧
      (c = '=' → nextToken src = (⟨.ASSIGN, ['=']⟩, cs)) ∧
      (c = '+' → nextToken src = (⟨.PLUS, ['+']⟩, cs)) ∧
      (c = '-' → nextToken src = (⟨.MINUS, ['-']⟩, cs)) ∧
      (c = '*' → nextToken src = (⟨.MUL, ['*']⟩, cs)) ∧
      (c = '/' → nextToken src = (⟨.DIV, ['/']⟩, cs)) ∧
      (c = '(' → nextToken src = (⟨.LPAREN, ['(']⟩, cs)) ∧
      (c = ')' → nextToken src = (⟨.RPAREN, [')']⟩, cs)) ∧
      (c = ';' → nextToken src = (⟨.SEMI, [';']⟩, cs)) ∧
      (isalpha c = false → isdigit c = false →
        c ∉ ['=', '+', '-', '*', '/', '(', ')', ';'] →
        nextToken src = (⟨.ERR, [c]⟩, cs)) ∧
      (nextToken src).1.value ≠ [] ∧
      c :: cs = (nextToken src).1.value ++ (nextToken src).2) := by
  refine ⟨?_, ?_⟩
  · intro h
    unfold nextToken
    rw [h]
  · intro c cs h
    have hp : ∀ x : Char, isalpha x = false → isdigit x = false → c = x →
        nextToken src = (⟨punct x, [x]⟩, cs) := by
      intro x ha hd hx
      rw [← hx] at ha hd ⊢
      exact nextToken_punct src c cs h ha hd
    refine ⟨?_, ?_, ?_, ?_, ?_, ?_, ?_, ?_, ?_, ?_, ?_, ?_, ?_⟩
    · intro ha
      rw [nextToken_of_cons src c cs h, if_pos ha]
    · intro hd
      have ha : isalpha c = false := by
        cases h1 : isalpha c with
        | false => rfl
        | true => rw [isdigit_of_isalpha h1] at hd; cases hd
      rw [nextToken_of_cons src c cs h, ha, if_pos hd]
      rfl
    · exact hp '=' (by decide) (by decide)
    · exact hp '+' (by decide) (by decide)
    · exact hp '-' (by decide) (by decide)
    · exact hp '*' (by decide) (by decide)
    · exact hp '/' (by decide) (by decide)
    · exact hp '(' (by decide) (by decide)
    · exact hp ')' (by decide) (by decide)
    · exact hp ';' (by decide) (by decide)
    · intro ha hd hn
      rw [nextToken_punct src c cs h ha hd]
      have : punct c = .ERR := by
        simp only [List.mem_cons, List.mem_singleton, List.not_mem_nil, or_false, not_or] at hn
        obtain ⟨n1, n2, n3, n4, n5, n6, n7, n8⟩ := hn
        simp [punct, n1, n2, n3, n4, n5, n6, n7, n8]
      rw [this]
    · rw [nextToken_of_cons src c cs h]
      split
      · rename_i ha
        have hc : isalnum c = true := by simp [isalnum, ha]
        simp [List.takeWhile_cons_of_pos hc]
      · split
        · rename_i hd
          simp [List.takeWhile_cons_of_pos hd]
        · simp
    · rw [nextToken_of_cons src c cs h]
      split
      · exact (List.takeWhile_append_dropWhile isalnum (c :: cs)).symm
      · split
        · exact (List.takeWhile_append_dropWhile isdigit (c :: cs)).symm
        · rfl

/-- C16, witness: from `  x1 = 7;` the two spaces are skipped and `(ID, x1)` is returned with
ten minus four characters left; from the empty rest, `(END, #)`. -/
theorem nextToken_spec_witness :
    ("  x1 = 7;".toList.dropWhile isspace = 'x' :: "1 = 7;".toList ∧ isalpha 'x' = true ∧
      nextToken "  x1 = 7;".toList = (⟨.ID, "x1".toList⟩, " = 7;".toList)) ∧
    ("  ".toList.dropWhile isspace = [] ∧ nextToken "  ".toList = (⟨.END, ['#']⟩, [])) := by
  refine ⟨⟨by decide, by decide, ?_⟩, by decide, (nextToken_spec "  ".toList).1 (by decide)⟩
  exact ((nextToken_spec "  x1 = 7;".toList).2 'x' "1 = 7;".toList (by decide)).1 (by decide)

end SynAn

namespace LexAn

open CType

/-- The result of `get_next_token` is built by `token_at` at the cursor `skip_blanks`. -/
theorem get_next_token_aux_eq (fuel : Nat) : ∀ s : Cursor, s.rest.length < fuel →
    ∃ line column, get_next_token_aux fuel s =
      some (token_at (skip_blanks_aux fuel s) line column) := by
  induction fuel with
  | zero => intro s h; omega
  | succ fuel ih =>
    intro s hlen
    have hle := (skip_whitespace_suffix s).length_le
    rw [get_next_token_aux, skip_blanks_aux]
    split
    · rename_i h1
      exact ⟨s.line, s.column, by rw [token_at, if_pos h1]⟩
    · rename_i h1
      split
      · rename_i h2
        have := (skip_comment_progress (skip_whitespace s) h2).2
        exact ih _ (by omega)
      · exact ⟨s.line, s.column, by rw [token_at, if_neg h1]⟩

theorem get_next_token_eq (s : Cursor) :
    ∃ line column, get_next_token s = some (token_at (skip_blanks s) line column) :=
  get_next_token_aux_eq _ s (Nat.lt_succ_self _)

theorem number_loop_run (rest : List Char) : ∀ dots : Nat, dots ≤ 1 →
    (number_loop rest dots).1 <+: rest.takeWhile isNumberChar ∧
    dots + (number_loop rest dots).1.count '.' ≤ 1 ∧
    ∀ q, q <+: rest.takeWhile isNumberChar → dots + q.count '.' ≤ 1 →
      q.length ≤ (number_loop rest dots).1.length := by
  induction rest with
  | nil =>
    intro dots hd
    refine ⟨by simp [number_loop], by simp [number_loop]; exact hd, ?_⟩
    intro q hq _
    simp only [List.takeWhile_nil, List.prefix_nil] at hq
    rw [hq]; exact Nat.zero_le _
  | cons c cs ih =>
    intro dots hd
    rw [number_loop]
    by_cases hc : isdigit c = true ∨ c = '.'
    · have hnc : isNumberChar c = true := by
        rcases hc with h | h
        · simp [isNumberChar, h]
        · simp [isNumberChar, h]
      rw [if_pos hc, List.takeWhile_cons_of_pos hnc]
      by_cases hdot : c = '.'
      · rw [if_pos hdot]
        by_cases h2 : dots + 1 > 1
        · rw [if_pos h2]
          refine ⟨List.nil_prefix, by simp; exact hd, ?_⟩
          intro q hq hcount
          cases q with
          | nil => exact Nat.zero_le _
          | cons x xs =>
            have hx : x = c := (List.cons_prefix_cons.mp hq).1
            rw [hx, hdot] at hcount
            simp at hcount
            omega
        · rw [if_neg h2]
          have hd0 : dots = 0 := by omega
          obtain ⟨a, b, m⟩ := ih (dots + 1) (by omega)
          refine ⟨List.cons_prefix_cons.mpr ⟨rfl, a⟩, ?_, ?_⟩
          · simp only
            rw [hdot, List.count_cons_self]
            omega
          · intro q hq hcount
            cases q with
            | nil => exact Nat.zero_le _
            | cons x xs =>
              obtain ⟨hx, hxs⟩ := List.cons_prefix_cons.mp hq
              rw [hx, hdot, List.count_cons_self] at hcount
              have := m xs hxs (by omega)
              simp only [List.length_cons]
              omega
      · rw [if_neg hdot]
        obtain ⟨a, b, m⟩ := ih dots hd
        have hne : (c == '.') = false := by
          rw [beq_eq_false_iff_ne]; exact hdot
        refine ⟨List.cons_prefix_cons.mpr ⟨rfl, a⟩, ?_, ?_⟩
        · simp only
          rw [List.count_cons, hne]
          simpa using b
        · intro q hq hcount
          cases q with
          | nil => exact Nat.zero_le _
          | cons x xs =>
            obtain ⟨hx, hxs⟩ := List.cons_prefix_cons.mp hq
            rw [hx, List.count_cons, hne] at hcount
            have := m xs hxs (by simpa using hcount)
            simp only [List.length_cons]
            omega
    · have hnc : isNumberChar c = false := by
        simp only [not_or] at hc
        simp [isNumberChar, hc.1, hc.2]
      rw [if_neg hc, List.takeWhile_cons_of_neg (by rw [hnc]; exact Bool.false_ne_true)]
      refine ⟨List.nil_prefix, by simpa using hd, ?_⟩
      intro q hq _
      rw [List.prefix_nil] at hq
      subst hq
      simp

/-- What the number loop copies always passes `is_valid_number`. -/
theorem number_loop_valid (rest : List Char) : ∀ dots : Nat,
    is_valid_number_from (number_loop rest dots).1 dots = true := by
  induction rest with
  | nil => intro dots; rfl
  | cons c cs ih =>
    intro dots
    rw [number_loop]
    split
    · rename_i hc
      split
      · rename_i hdot
        split
        · rfl
        · rename_i h2
          simp only
          rw [is_valid_number_from, if_pos hdot, if_neg h2]
          exact ih _
      · rename_i hdot
        have hdig : isdigit c = true := by
          rcases hc with h | h
          · exact h
          · exact absurd h hdot
        simp only
        rw [is_valid_number_from, if_neg hdot, if_neg (by simp [hdig])]
        exact ih _
    · rfl

theorem isalpha_of_isdigit {c : Char} (h : isdigit c = true) : isalpha c = false := by
  cases h1 : isalpha c with
  | false => rfl
  | true => rw [SynAn.isdigit_of_isalpha h1] at h; cases h

/-- On a digit, or a dot followed by a digit, the branches of `get_next_token` take the number
branch. -/
theorem scan_number (rest : List Char)
    (h : isdigit (rest.headD NUL) = true ∨
      (rest.headD NUL = '.' ∧ isdigit (rest.tail.headD NUL) = true)) :
    scan rest = ⟨.NUMBER, (number_loop rest 0).1, (number_loop rest 0).2⟩ := by
  have h1 : ¬ (isalpha (rest.headD NUL) = true ∨ rest.headD NUL = '_') := by
    rcases h with h | h
    · intro h2
      rcases h2 with h2 | h2
      · rw [isalpha_of_isdigit h] at h2; cases h2
      · rw [h2] at h; revert h; decide
    · rw [h.1]; decide
  unfold scan
  rw [if_neg h1, if_pos h]
  have := number_loop_valid rest 0
  unfold is_valid_number
  rw [this]
  rfl

theorem cursor_cur_ne_NUL_of_digit {b : Cursor}
    (h : isdigit b.cur = true ∨ (b.cur = '.' ∧ isdigit b.next = true)) : b.cur ≠ NUL := by
  rcases h with h | h
  · intro h2; rw [h2] at h; revert h; decide
  · rw [h.1]; decide

/-- The loop with its array stays inside `number[100]` exactly when what is written before the
loop and the text copied by it make fewer than 100 characters, and then copies what
`number_loop` copies. -/
theorem number_loop_array_eq (rest : List Char) : ∀ dots i : Nat,
    number_loop_array rest dots i =
      if i + (number_loop rest dots).1.length < 100 then some (number_loop rest dots)
      else none := by
  induction rest with
  | nil => intro dots i; simp [number_loop_array, number_loop]
  | cons c cs ih =>
    intro dots i
    rw [number_loop_array, number_loop]
    by_cases hc : isdigit c = true ∨ c = '.'
    · rw [if_pos hc, if_pos hc]
      by_cases hdot : c = '.'
      · rw [if_pos hdot, if_pos hdot]
        by_cases h2 : dots + 1 > 1
        · rw [if_pos h2, if_pos h2]
          simp
        · rw [if_neg h2, if_neg h2, ih]
          simp only [List.length_cons]
          split_ifs <;> first | rfl | (exfalso; omega)
      · rw [if_neg hdot, if_neg hdot, ih]
        simp only [List.length_cons]
        split_ifs <;> first | rfl | (exfalso; omega)
    · rw [if_neg hc, if_neg hc]
      simp

/-- The number branch with its array builds the token of `scan` when the text has at most 99
characters. -/
theorem scan_number_array_eq (rest : List Char)
    (h : isdigit (rest.headD NUL) = true ∨
      (rest.headD NUL = '.' ∧ isdigit (rest.tail.headD NUL) = true))
    (hlen : (number_loop rest 0).1.length ≤ 99) :
    scan_number_array rest = some (scan rest) := by
  unfold scan_number_array
  rw [number_loop_array_eq, if_pos (by omega), scan_number rest h]
  have := number_loop_valid rest 0
  unfold is_valid_number
  simp only [Option.map_some', this]
  rfl

set_option maxRecDepth 100000 in
/-- C11, the claim fails: on a buffer of 100 digits `1` the first character is a digit and the
prefix the claim names is the whole buffer, 100 characters, with no `.`; the number branch
writes `number[0]` to `number[99]` in its loop and then the terminator at `number[100]`, outside
`char number[100]`, so the call has no defined result.  A buffer of 99 digits fits. -/
theorem get_next_token_number_overruns_array :
    isdigit (skip_blanks ⟨List.replicate 100 '1', 1, 1⟩).cur = true ∧
    (skip_blanks ⟨List.replicate 100 '1', 1, 1⟩).rest = List.replicate 100 '1' ∧
    (List.replicate 100 '1').takeWhile isNumberChar = List.replicate 100 '1' ∧
    (List.replicate 100 '1').count '.' = 0 ∧
    (List.replicate 100 '1').length = 100 ∧
    scan_number_array (List.replicate 100 '1') = none ∧
    scan_number_array (List.replicate 99 '1') =
      some ⟨.NUMBER, List.replicate 99 '1', []⟩ := by
  decide

/-- C11, amended: when the next character after whitespace and comments is a digit, or a `.`
immediately followed by a digit, and the longest prefix holding at most one `.` of the maximal
run of digits and `.` that starts there has at most 99 characters, `get_next_token` returns a
token of kind `NUMBER` whose text is that prefix; the cursor is left right after that text, so
a second dot is left for the next call, and the text never holds two dots.  The number branch
with its array `number[100]` stays inside the array and builds this very token. -/
theorem get_next_token_number (s : Cursor)
    (h : isdigit (skip_blanks s).cur = true ∨
      ((skip_blanks s).cur = '.' ∧ isdigit (skip_blanks s).next = true))
    (hlen : ∀ q, q <+: (skip_blanks s).rest.takeWhile isNumberChar → q.count '.' ≤ 1 →
      q.length ≤ 99) :
    ∃ tok s', get_next_token s = some (tok, s') ∧ tok.type = .NUMBER ∧
      (skip_blanks s).rest = tok.value ++ s'.rest ∧
      tok.value <+: (skip_blanks s).rest.takeWhile isNumberChar ∧
      tok.value.count '.' ≤ 1 ∧
      (∀ q, q <+: (skip_blanks s).rest.takeWhile isNumberChar → q.count '.' ≤ 1 →
        q.length ≤ tok.value.length) ∧
      scan_number_array (skip_blanks s).rest = some ⟨tok.type, tok.value, s'.rest⟩ := by
  obtain ⟨line, column, hg⟩ := get_next_token_eq s
  have hne := cursor_cur_ne_NUL_of_digit h
  rw [token_at, if_neg hne, scan_number _ h] at hg
  obtain ⟨a, b, m⟩ := number_loop_run (skip_blanks s).rest 0 (by decide)
  have b1 : (number_loop (skip_blanks s).rest 0).1.count '.' ≤ 1 := by simpa using b
  refine ⟨_, _, hg, rfl, number_loop_spec _ 0, a, b1, ?_, ?_⟩
  · intro q hq hcount
    exact m q hq (by omega)
  · exact (scan_number_array_eq _ h (hlen _ a b1)).trans (by rw [scan_number _ h])

/-- C11 amended, witness: `1.2.3` gives `NUMBER 1.2` and then `NUMBER .3`. -/
theorem get_next_token_number_witness :
    (isdigit (skip_blanks ⟨"1.2.3".toList, 1, 1⟩).cur = true ∧
      (∀ q, q <+: (skip_blanks ⟨"1.2.3".toList, 1, 1⟩).rest.takeWhile isNumberChar →
        q.count '.' ≤ 1 → q.length ≤ 99) ∧
      ∃ tok s', get_next_token ⟨"1.2.3".toList, 1, 1⟩ = some (tok, s') ∧ tok.type = .NUMBER ∧
        (skip_blanks ⟨"1.2.3".toList, 1, 1⟩).rest = tok.value ++ s'.rest ∧
        tok.value <+: (skip_blanks ⟨"1.2.3".toList, 1, 1⟩).rest.takeWhile isNumberChar ∧
        tok.value.count '.' ≤ 1 ∧
        (∀ q, q <+: (skip_blanks ⟨"1.2.3".toList, 1, 1⟩).rest.takeWhile isNumberChar →
          q.count '.' ≤ 1 → q.length ≤ tok.value.length) ∧
        scan_number_array (skip_blanks ⟨"1.2.3".toList, 1, 1⟩).rest =
          some ⟨tok.type, tok.value, s'.rest⟩) ∧
    get_next_token ⟨"1.2.3".toList, 1, 1⟩ =
      some (⟨.NUMBER, "1.2".toList, 1, 1⟩, ⟨".3".toList, 1, 4⟩) ∧
    get_next_token ⟨".3".toList, 1, 4⟩ = some (⟨.NUMBER, ".3".toList, 1, 4⟩, ⟨[], 1, 6⟩) ∧
    scan_number_array "1.2.3".toList = some ⟨.NUMBER, "1.2".toList, ".3".toList⟩ :=
  have hlen : ∀ q, q <+: (skip_blanks ⟨"1.2.3".toList, 1, 1⟩).rest.takeWhile isNumberChar →
      q.count '.' ≤ 1 → q.length ≤ 99 :=
    fun _ hq _ => le_trans hq.length_le (by decide)
  ⟨⟨by decide, hlen,
      get_next_token_number ⟨"1.2.3".toList, 1, 1⟩ (Or.inl (by decide)) hlen⟩,
    by decide, by decide, by decide⟩

end LexAn

namespace LexAn

open CType

theorem is_keyword_iff (str : List Char) : is_keyword str = true ↔ str ∈ keywords := by
  unfold is_keyword
  rw [List.any_eq_true]
  constructor
  · rintro ⟨k, hk, he⟩
    rw [beq_iff_eq] at he
    rw [he]; exact hk
  · intro h
    exact ⟨str, h, by simp⟩

theorem identifier_loop_eq (rest : List Char) :
    identifier_loop rest = (rest.takeWhile isIdentChar, rest.dropWhile isIdentChar) := by
  induction rest with
  | nil => rfl
  | cons c cs ih =>
    rw [identifier_loop]
    by_cases hc : isalnum c = true ∨ c = '_'
    · have hi : isIdentChar c = true := by
        rcases hc with h | h
        · simp only [isalnum] at h
          simp [isIdentChar, h]
        · simp [isIdentChar, h]
      rw [if_pos hc, ih, List.takeWhile_cons_of_pos hi, List.dropWhile_cons_of_pos hi]
    · have hi : ¬ isIdentChar c = true := by
        intro h
        apply hc
        simp only [isIdentChar, Bool.or_eq_true, beq_iff_eq] at h
        rcases h with h | h
        · left; simpa [isalnum] using h
        · right; exact h
      rw [if_neg hc, List.takeWhile_cons_of_neg hi, List.dropWhile_cons_of_neg hi]

/-- C12: when the next character after whitespace and comments is a letter or an underscore,
`get_next_token` returns a token whose text is the maximal run of letters, digits and
underscores that starts there, leaves the cursor right after it, and gives it the kind
`KEYWORD` exactly when the text is one of the 32 entries of `keywords`, and `IDENTIFIER`
otherwise. -/
theorem get_next_token_identifier (s : Cursor)
    (h : isalpha (skip_blanks s).cur = true ∨ (skip_blanks s).cur = '_') :
    ∃ tok s', get_next_token s = some (tok, s') ∧
      tok.value = (skip_blanks s).rest.takeWhile isIdentChar ∧
      s'.rest = (skip_blanks s).rest.dropWhile isIdentChar ∧
      (tok.type = .KEYWORD ↔ tok.value ∈ keywords) ∧
      (tok.type = .IDENTIFIER ↔ tok.value ∉ keywords) ∧
      keywords.length = 32 := by
  obtain ⟨line, column, hg⟩ := get_next_token_eq s
  have hne : (skip_blanks s).cur ≠ NUL := by
    rcases h with h | h
    · intro h2; rw [h2] at h; revert h; decide
    · rw [h]; decide
  have hscan : scan (skip_blanks s).rest =
      ⟨if is_keyword (identifier_loop (skip_blanks s).rest).1 = true then .KEYWORD
        else .IDENTIFIER,
        (identifier_loop (skip_blanks s).rest).1, (identifier_loop (skip_blanks s).rest).2⟩ := by
    unfold scan
    exact if_pos h
  rw [token_at, if_neg hne, hscan, identifier_loop_eq] at hg
  refine ⟨_, _, hg, rfl, rfl, ?_, ?_, by decide⟩
  · simp only
    rw [← is_keyword_iff]
    split
    · rename_i hk; simp [hk]
    · rename_i hk; simp [hk]
  · simp only
    rw [← is_keyword_iff]
    split
    · rename_i hk; simp [hk]
    · rename_i hk; simp [hk]

/-- C12, witness: `int x = 10;` starts with the keyword `int`, and tokenizes to
`(KEYWORD, int) (IDENTIFIER, x) (OPERATOR, =) (NUMBER, 10) (DELIMITER, ;)`. -/
theorem get_next_token_identifier_witness :
    (isalpha (skip_blanks ⟨"int x = 10;".toList, 1, 1⟩).cur = true ∧
      ∃ tok s', get_next_token ⟨"int x = 10;".toList, 1, 1⟩ = some (tok, s') ∧
        tok.value = (skip_blanks ⟨"int x = 10;".toList, 1, 1⟩).rest.takeWhile isIdentChar ∧
        s'.rest = (skip_blanks ⟨"int x = 10;".toList, 1, 1⟩).rest.dropWhile isIdentChar ∧
        (tok.type = .KEYWORD ↔ tok.value ∈ keywords) ∧
        (tok.type = .IDENTIFIER ↔ tok.value ∉ keywords) ∧
        keywords.length = 32) ∧
    (tokenize "int x = 10;".toList).map (fun ts => ts.map (fun t => (t.type, t.value))) =
      some [(.KEYWORD, "int".toList), (.IDENTIFIER, "x".toList), (.OPERATOR, "=".toList),
        (.NUMBER, "10".toList), (.DELIMITER, ";".toList)] :=
  ⟨⟨by decide, get_next_token_identifier ⟨"int x = 10;".toList, 1, 1⟩ (Or.inl (by decide))⟩,
    by decide⟩

theorem string_loop_all (body : List Char) (hq : DQUOTE ∉ body) (h0 : NUL ∉ body) :
    string_loop body = (body, []) := by
  induction body with
  | nil => rfl
  | cons c cs ih =>
    simp only [List.mem_cons, not_or] at hq h0
    rw [string_loop, if_pos ⟨fun h => h0.1 h.symm, fun h => hq.1 h.symm⟩,
      ih hq.2 h0.2]

theorem skip_whitespace_not_space (s : Cursor) (h : isspace s.cur = false) :
    skip_whitespace s = s := by
  unfold skip_whitespace
  cases hr : s.rest with
  | nil =>
    rw [skip_whitespace_loop]
    cases s
    simp only at hr
    rw [hr]
  | cons c cs =>
    have hc : isspace c = false := by
      unfold Cursor.cur at h
      rw [hr] at h
      exact h
    rw [skip_whitespace_loop, if_neg (by simp [hc])]
    cases s
    simp only at hr
    rw [hr]

/-- The first call on a buffer that is a double quote and a body without a double quote. -/
theorem get_next_token_unterminated (body : List Char) (hq : DQUOTE ∉ body)
    (h0 : NUL ∉ body) (line column : Int) :
    get_next_token ⟨DQUOTE :: body, line, column⟩ =
      some (⟨.UNKNOWN, DQUOTE :: body, line, column⟩,
        ⟨[], line, column + (DQUOTE :: body).length⟩) := by
  have hscan : scan (DQUOTE :: body) = ⟨.UNKNOWN, DQUOTE :: body, []⟩ := by
    unfold scan
    rw [List.headD_cons, if_neg (by decide), if_neg (by
      intro h
      rcases h with h | h
      · revert h; decide
      · exact absurd h.1 (by decide)), if_pos rfl]
    unfold scan_string
    simp only [List.drop_succ_cons, List.drop_zero]
    rw [string_loop_all body hq h0]
    simp only [List.headD_nil]
    rw [if_neg (by decide)]
  unfold get_next_token
  rw [get_next_token_aux, skip_whitespace_not_space _ (by simp only [Cursor.cur, List.headD_cons]; decide)]
  rw [if_neg (by simp only [Cursor.cur, List.headD_cons]; decide),
    if_neg (fun h => absurd h.1 (by simp only [Cursor.cur, List.headD_cons]; decide))]
  simp only [hscan]

/-- C14: on a buffer that is a double quote followed by a body without a double quote, of at
most 99 characters in all, `tokenize` stores exactly one token, of kind `UNKNOWN`, whose text
is the whole buffer; the call of `get_next_token` after the one that returned it returns
`END_OF_FILE`. -/
theorem tokenize_unterminated_string (body : List Char) (hq : DQUOTE ∉ body)
    (h0 : NUL ∉ body) (hlen : body.length + 1 ≤ 99) :
    tokenize (DQUOTE :: body) = some [⟨.UNKNOWN, DQUOTE :: body, 1, 1⟩] ∧
    ∃ s', get_next_token ⟨DQUOTE :: body, 1, 1⟩ =
        some (⟨.UNKNOWN, DQUOTE :: body, 1, 1⟩, s') ∧
      ∃ tok2 s2, get_next_token s' = some (tok2, s2) ∧ tok2.type = .END_OF_FILE := by
  have h1 := get_next_token_unterminated body hq h0 1 1
  have h2 := get_next_token_at_end ⟨[], 1, 1 + ((DQUOTE :: body).length : Int)⟩ rfl
  refine ⟨?_, _, h1, _, _, h2, rfl⟩
  have htake : (DQUOTE :: body).take 99 = DQUOTE :: body :=
    List.take_of_length_le (by simp only [List.length_cons]; omega)
  have hne : DQUOTE :: body ≠ "EOF".toList := by
    intro h
    have := (List.cons.inj h).1
    revert this; decide
  unfold tokenize init_lexer
  simp only [List.length_cons]
  rw [tokenize_loop, h1]
  simp only [add_token, htake, if_pos hne, ne_eq, not_false_eq_true, reduceCtorEq, if_true]
  rw [tokenize_loop, h2]
  simp

/-- C14, witness: `"abc`. -/
theorem tokenize_unterminated_string_witness :
    DQUOTE ∉ "abc".toList ∧ NUL ∉ "abc".toList ∧ "abc".toList.length + 1 ≤ 99 ∧
    tokenize (DQUOTE :: "abc".toList) = some [⟨.UNKNOWN, DQUOTE :: "abc".toList, 1, 1⟩] ∧
    ∃ s', get_next_token ⟨DQUOTE :: "abc".toList, 1, 1⟩ =
        some (⟨.UNKNOWN, DQUOTE :: "abc".toList, 1, 1⟩, s') ∧
      ∃ tok2 s2, get_next_token s' = some (tok2, s2) ∧ tok2.type = .END_OF_FILE :=
  ⟨by decide, by decide, by decide,
    tokenize_unterminated_string "abc".toList (by decide) (by decide) (by decide)⟩

/-- C20, the code at the failing input: on `EOF x` the successive calls of `get_next_token`
return the identifier `EOF`, the identifier `x` and then `END_OF_FILE`, but `tokenize` stores
the identifier `EOF` only: its loop ends on the text `EOF`, not on the kind `END_OF_FILE`. -/
theorem tokenize_misses_token_after_EOF :
    successive_tokens 6 ⟨"EOF x".toList, 1, 1⟩ =
      [(.IDENTIFIER, "EOF".toList), (.IDENTIFIER, "x".toList)] ∧
    (tokenize "EOF x".toList).map (fun ts => ts.map (fun t => (t.type, t.value))) =
      some [(.IDENTIFIER, "EOF".toList)] := by
  decide

end LexAn

namespace LexAn

open CType

end LexAn

namespace LexAn

open CType

end LexAn

namespace SynAn

open CType

/-- Rule induction for the parser: five predicates, one per parsing function, relating the
parser at the call to the operand and parser at the return, hold of every result as soon as
they are closed under the steps of the five function bodies. -/
theorem parse_rec (PE PT PF : Parser → List Char × Parser → Prop)
    (PEl PTl : List Char → Parser → List Char × Parser → Prop)
    (hE : ∀ p v r, PT (p.print .traceE) v → PEl v.1 v.2 r → PE p r)
    (hEs : ∀ l p v r, (p.look.type = .PLUS ∨ p.look.type = .MINUS) →
      PT (p.match_ p.look.type) v →
      PEl v.2.newTemp.1 (v.2.newTemp.2.emit p.look.value l v.1 v.2.newTemp.1) r → PEl l p r)
    (hEx : ∀ l p, ¬ (p.look.type = .PLUS ∨ p.look.type = .MINUS) → PEl l p (l, p))
    (hT : ∀ p v r, PF p v → PTl v.1 v.2 r → PT p r)
    (hTs : ∀ l p v r, (p.look.type = .MUL ∨ p.look.type = .DIV) →
      PF (p.match_ p.look.type) v →
      PTl v.2.newTemp.1 (v.2.newTemp.2.emit p.look.value l v.1 v.2.newTemp.1) r → PTl l p r)
    (hTx : ∀ l p, ¬ (p.look.type = .MUL ∨ p.look.type = .DIV) → PTl l p (l, p))
    (hFp : ∀ p v, p.look.type = .LPAREN → PE (p.match_ .LPAREN) v →
      PF p (v.1, v.2.match_ .RPAREN))
    (hFl : ∀ p, p.look.type ≠ .LPAREN → (p.look.type = .ID ∨ p.look.type = .NUM) →
      PF p (p.look.value, p.match_ p.look.type))
    (hFe : ∀ p, p.look.type ≠ .LPAREN → ¬ (p.look.type = .ID ∨ p.look.type = .NUM) →
      PF p (['?'], { p with hasError := true }))
    (n : Nat) :
    (∀ p r, parseE n p = some r → PE p r) ∧
    (∀ l p r, parseE_loop n l p = some r → PEl l p r) ∧
    (∀ p r, parseT n p = some r → PT p r) ∧
    (∀ l p r, parseT_loop n l p = some r → PTl l p r) ∧
    (∀ p r, parseF n p = some r → PF p r) := by
  induction n with
  | zero => simp [parseE, parseE_loop, parseT, parseT_loop, parseF]
  | succ n ih =>
    obtain ⟨ihE, ihEl, ihT, ihTl, ihF⟩ := ih
    refine ⟨?_, ?_, ?_, ?_, ?_⟩
    · intro p r h
      rw [parseE] at h
      cases hT1 : parseT n (p.print .traceE) with
      | none => simp [hT1] at h
      | some v =>
        rw [hT1] at h
        exact hE p v r (ihT _ _ hT1) (ihEl _ _ _ h)
    · intro l p r h
      rw [parseE_loop] at h
      split at h
      · rename_i hc
        cases hT1 : parseT n (p.match_ p.look.type) with
        | none => simp [hT1] at h
        | some v =>
          rw [hT1] at h
          exact hEs l p v r hc (ihT _ _ hT1) (ihEl _ _ _ h)
      · rename_i hc
        rw [← Option.some.inj h]
        exact hEx l p hc
    · intro p r h
      rw [parseT] at h
      cases hF1 : parseF n p with
      | none => simp [hF1] at h
      | some v =>
        rw [hF1] at h
        exact hT p v r (ihF _ _ hF1) (ihTl _ _ _ h)
    · intro l p r h
      rw [parseT_loop] at h
      split at h
      · rename_i hc
        cases hF1 : parseF n (p.match_ p.look.type) with
        | none => simp [hF1] at h
        | some v =>
          rw [hF1] at h
          exact hTs l p v r hc (ihF _ _ hF1) (ihTl _ _ _ h)
      · rename_i hc
        rw [← Option.some.inj h]
        exact hTx l p hc
    · intro p r h
      rw [parseF] at h
      split at h
      · rename_i hc
        cases hE1 : parseE n (p.match_ .LPAREN) with
        | none => simp [hE1] at h
        | some v =>
          rw [hE1] at h
          rw [← Option.some.inj h]
          exact hFp p v hc (ihE _ _ hE1)
      · rename_i hc
        split at h
        · rename_i hc2
          rw [← Option.some.inj h]
          exact hFl p hc hc2
        · rename_i hc2
          rw [← Option.some.inj h]
          exact hFe p hc hc2

end SynAn

namespace SynAn

open CType

theorem match_fail_stream (p : Parser) (ty : TokenType) (h : p.look.type ≠ ty) :
    (p.match_ ty).stream = p.stream ∧ (p.match_ ty).entries = p.entries := by
  unfold Parser.match_
  rw [if_neg h]
  split
  · refine ⟨rfl, ?_⟩
    simp [Parser.entries, Parser.print]
  · exact ⟨rfl, rfl⟩

theorem match_entries (p : Parser) (ty : TokenType) : (p.match_ ty).entries = p.entries := by
  by_cases h : p.look.type = ty
  · unfold Parser.match_
    rw [if_pos h]
    rfl
  · exact (match_fail_stream p ty h).2

/-- A successful `match` consumes exactly one token. -/
theorem match_consumes (p : Parser) (ty : TokenType) (h : p.look.type = ty) (hty : ty ≠ .END) :
    (p.match_ ty).stream.length + 1 = p.stream.length := by
  rw [(match_same p ty hty h).1]
  rfl

theorem match_measure (p : Parser) (ty : TokenType) (hty : ty ≠ .END) :
    (p.match_ ty).stream.length ≤ p.stream.length ∧
      lparens (p.match_ ty).stream ≤ lparens p.stream := by
  by_cases h : p.look.type = ty
  · have hs := (match_same p ty hty h).1
    constructor
    · have := match_consumes p ty h hty
      omega
    · rw [hs, lparens, lparens, List.countP_cons]
      omega
  · rw [(match_fail_stream p ty h).1]
    exact ⟨le_refl _, le_refl _⟩

theorem match_lparen (p : Parser) (h : p.look.type = .LPAREN) :
    lparens (p.match_ .LPAREN).stream + 1 = lparens p.stream := by
  have hs := (match_same p .LPAREN (by decide) h).1
  rw [hs, lparens, lparens, List.countP_cons, h]
  rfl

theorem match_not_lparen (p : Parser) (h : p.look.type ≠ .LPAREN) (hne : p.look.type ≠ .END) :
    lparens (p.match_ p.look.type).stream = lparens p.stream := by
  have hs := (match_same p p.look.type hne rfl).1
  have hb : (p.look.type == TokenType.LPAREN) = false := by
    rw [beq_eq_false_iff_ne]; exact h
  rw [hs, lparens, lparens, List.countP_cons, hb]
  rfl

theorem entries_emit (p : Parser) (a b c d : List Char) :
    (p.newTemp.2.emit a b c d).entries = p.entries := by
  simp [Parser.entries, Parser.emit, Parser.print, Parser.newTemp]

theorem entries_traceE (p : Parser) : (p.print .traceE).entries = p.entries + 1 := by
  simp [Parser.entries, Parser.print]

/-- The parsing functions never give tokens back, and the entries into `parseE` are paid for
by `(` tokens: each parsing function leaves the sum of the entries so far and the `(` tokens
still unread no larger than it found it, except that a call of `parseE` counts itself. -/
theorem parse_depth (n : Nat) :
    (∀ p r, parseE n p = some r → r.2.stream.length ≤ p.stream.length ∧
      r.2.entries + lparens r.2.stream ≤ p.entries + lparens p.stream + 1) ∧
    (∀ l p r, parseE_loop n l p = some r → r.2.stream.length ≤ p.stream.length ∧
      r.2.entries + lparens r.2.stream ≤ p.entries + lparens p.stream) ∧
    (∀ p r, parseT n p = some r → r.2.stream.length ≤ p.stream.length ∧
      r.2.entries + lparens r.2.stream ≤ p.entries + lparens p.stream) ∧
    (∀ l p r, parseT_loop n l p = some r → r.2.stream.length ≤ p.stream.length ∧
      r.2.entries + lparens r.2.stream ≤ p.entries + lparens p.stream) ∧
    (∀ p r, parseF n p = some r → r.2.stream.length ≤ p.stream.length ∧
      r.2.entries + lparens r.2.stream ≤ p.entries + lparens p.stream) := by
  apply parse_rec
    (fun p r => r.2.stream.length ≤ p.stream.length ∧
      r.2.entries + lparens r.2.stream ≤ p.entries + lparens p.stream + 1)
    (fun p r => r.2.stream.length ≤ p.stream.length ∧
      r.2.entries + lparens r.2.stream ≤ p.entries + lparens p.stream)
    (fun p r => r.2.stream.length ≤ p.stream.length ∧
      r.2.entries + lparens r.2.stream ≤ p.entries + lparens p.stream)
    (fun _ p r => r.2.stream.length ≤ p.stream.length ∧
      r.2.entries + lparens r.2.stream ≤ p.entries + lparens p.stream)
    (fun _ p r => r.2.stream.length ≤ p.stream.length ∧
      r.2.entries + lparens r.2.stream ≤ p.entries + lparens p.stream)
  · intro p v r ⟨a1, a2⟩ ⟨b1, b2⟩
    rw [entries_traceE, stream_print] at a2
    rw [stream_print] at a1
    exact ⟨by omega, by omega⟩
  · intro l p v r hc ⟨a1, a2⟩ ⟨b1, b2⟩
    have hne : p.look.type ≠ .END := by rcases hc with h | h <;> rw [h] <;> decide
    obtain ⟨m1, m2⟩ := match_measure p p.look.type hne
    rw [match_entries] at a2
    rw [entries_emit, stream_emit, stream_newTemp] at b2
    rw [stream_emit, stream_newTemp] at b1
    exact ⟨by omega, by omega⟩
  · intro l p _
    exact ⟨le_refl _, le_refl _⟩
  · intro p v r ⟨a1, a2⟩ ⟨b1, b2⟩
    exact ⟨by omega, by omega⟩
  · intro l p v r hc ⟨a1, a2⟩ ⟨b1, b2⟩
    have hne : p.look.type ≠ .END := by rcases hc with h | h <;> rw [h] <;> decide
    obtain ⟨m1, m2⟩ := match_measure p p.look.type hne
    rw [match_entries] at a2
    rw [entries_emit, stream_emit, stream_newTemp] at b2
    rw [stream_emit, stream_newTemp] at b1
    exact ⟨by omega, by omega⟩
  · intro l p _
    exact ⟨le_refl _, le_refl _⟩
  · intro p v hc ⟨a1, a2⟩
    obtain ⟨m1, _⟩ := match_measure p .LPAREN (by decide)
    have m2 := match_lparen p hc
    obtain ⟨k1, k2⟩ := match_measure v.2 .RPAREN (by decide)
    rw [match_entries] at a2
    simp only
    rw [match_entries]
    exact ⟨by omega, by omega⟩
  · intro p hc hc2
    have hne : p.look.type ≠ .END := by rcases hc2 with h | h <;> rw [h] <;> decide
    obtain ⟨m1, m2⟩ := match_measure p p.look.type hne
    simp only
    rw [match_entries]
    exact ⟨m1, by omega⟩
  · intro p _ _
    exact ⟨le_refl _, le_refl _⟩

theorem entries_print (p : Parser) (x : Line) (hx : x ≠ .traceE) :
    (p.print x).entries = p.entries := by
  simp only [Parser.entries, Parser.print, List.count_append]
  rw [List.count_singleton]
  simp [hx]

theorem entries_init (input : List Char) : (Parser.init input).entries = 0 := rfl

/-- The number of entries into `parseE` in a run of `parseAssignment`. -/
theorem parseAssignment_entries (input : List Char) :
    ∃ p, parseAssignment input = some p ∧ p.entries ≤ lparens (tokens input) + 1 := by
  rcases parseAssignment_cases input with ⟨_, h⟩ | ⟨_, _, h⟩ | ⟨h0, h1, res, p3, hE, h⟩
  · refine ⟨_, h, ?_⟩
    rw [entries_print _ _ (by decide), entries_init]
    exact Nat.zero_le _
  · refine ⟨_, h, ?_⟩
    rw [entries_print _ _ (by decide), match_entries, entries_init]
    exact Nat.zero_le _
  · obtain ⟨_, hd⟩ := (parse_depth _).1 _ _ hE
    simp only at hd
    rw [match_entries, match_entries, entries_init] at hd
    have m1 := (match_measure (Parser.init input) .ID (by decide)).2
    have m2 := (match_measure ((Parser.init input).match_ .ID) .ASSIGN (by decide)).2
    rw [stream_init] at m1
    have hp3 : p3.entries ≤ lparens (tokens input) + 1 := by omega
    have he4 : (p3.emit ['='] res ['_'] (Parser.init input).look.value).entries =
        p3.entries := entries_print _ _ (by simp)
    rcases h with ⟨_, h⟩ | ⟨_, h⟩
    · refine ⟨_, h, ?_⟩
      rw [entries_print _ _ (by decide), he4]
      exact hp3
    · refine ⟨_, h, ?_⟩
      split
      · rw [entries_print _ _ (by decide), match_entries, he4]
        exact hp3
      · rw [match_entries, he4]
        exact hp3

/-- C19: `parseAssignment` returns on every input line, ill-formed or not.  The `match` of
every iteration of the loops of `parseE` and `parseT`, and of every entry of `parseF` into
`parseE`, is made on the kind of the lookahead and consumes exactly one token; no parsing
function ever gives a token back; and `parseE` is entered at most once more than there are
`(` tokens in the line, which bounds the depth of the recursion
`parseE → parseT → parseF → parseE`. -/
theorem parseAssignment_terminates :
    (∀ input, ∃ p, parseAssignment input = some p ∧ p.entries ≤ lparens (tokens input) + 1) ∧
    (∀ p : Parser, p.look.type ∈ [TokenType.PLUS, .MINUS, .MUL, .DIV, .LPAREN] →
      (p.match_ p.look.type).stream.length + 1 = p.stream.length) ∧
    (∀ n p r, (parseE n p = some r → r.2.stream.length ≤ p.stream.length) ∧
      (parseT n p = some r → r.2.stream.length ≤ p.stream.length) ∧
      (parseF n p = some r → r.2.stream.length ≤ p.stream.length)) := by
  refine ⟨parseAssignment_entries, ?_, ?_⟩
  · intro p h
    apply match_consumes p _ rfl
    intro he
    rw [he] at h
    revert h
    decide
  · intro n p r
    exact ⟨fun h => ((parse_depth n).1 p r h).1, fun h => ((parse_depth n).2.2.1 p r h).1,
      fun h => ((parse_depth n).2.2.2.2 p r h).1⟩

/-- C19, witness: on the ill-formed line `a = ((b` the run returns after three entries into
`parseE`, one more than the two `(`; and the `match` of the first `(` consumes it. -/
theorem parseAssignment_terminates_witness :
    (∃ p, parseAssignment "a = ((b".toList = some p ∧
      p.entries ≤ lparens (tokens "a = ((b".toList) + 1) ∧
    (parseAssignment "a = ((b".toList).map Parser.entries = some 3 ∧
    lparens (tokens "a = ((b".toList) = 2 ∧
    ((((Parser.init "a = ((b".toList).match_ .ID).match_ .ASSIGN).look.type ∈
        [TokenType.PLUS, .MINUS, .MUL, .DIV, .LPAREN] ∧
      ((((Parser.init "a = ((b".toList).match_ .ID).match_ .ASSIGN).match_
        (((Parser.init "a = ((b".toList).match_ .ID).match_ .ASSIGN).look.type).stream.length
        + 1 = (((Parser.init "a = ((b".toList).match_ .ID).match_ .ASSIGN).stream.length) :=
  ⟨parseAssignment_terminates.1 "a = ((b".toList, by decide, by decide, by decide,
    parseAssignment_terminates.2.1 _ (by decide)⟩

end SynAn

namespace SynAn

open CType

theorem temps_succ (n : Nat) : temps (n + 1) = temps n ++ [tempName (n + 1)] := by
  simp [temps, List.range_succ]

theorem temps_mono {n m : Nat} (h : n ≤ m) {a : List Char} (ha : a ∈ temps n) :
    a ∈ temps m := by
  simp only [temps, List.mem_map, List.mem_range] at ha ⊢
  obtain ⟨i, hi, he⟩ := ha
  exact ⟨i, by omega, he⟩

theorem temps_nodup (n : Nat) : (temps n).Nodup := by
  unfold temps
  apply List.Nodup.map _ (List.nodup_range n)
  intro a b h
  have := tempName_injective h
  omega

theorem temps_isTempLike (n : Nat) : ∀ a ∈ temps n, isTempLike a = true := by
  intro a ha
  simp only [temps, List.mem_map, List.mem_range] at ha
  obtain ⟨i, _, he⟩ := ha
  rw [← he]
  exact isTempLike_tempName _

theorem argOk_mono {n m : Nat} (h : n ≤ m) {a : List Char} (ha : argOk (temps n) a = true) :
    argOk (temps m) a = true := by
  simp only [argOk, Bool.or_eq_true, Bool.not_eq_true', decide_eq_true_eq] at ha ⊢
  rcases ha with ha | ha
  · exact Or.inl ha
  · exact Or.inr (temps_mono h ha)

theorem argOk_of_not_tempLike (d : List (List Char)) {a : List Char}
    (h : isTempLike a = false) : argOk d a = true := by
  simp [argOk, h]

theorem defBeforeUse_append (xs : List Quad) (q : Quad) : ∀ d : List (List Char),
    defBeforeUse d (xs ++ [q]) =
      (defBeforeUse d xs && argOk (d ++ xs.map (fun q => q.2.2.2)) q.2.1 &&
        argOk (d ++ xs.map (fun q => q.2.2.2)) q.2.2.1) := by
  induction xs with
  | nil => intro d; simp [defBeforeUse]
  | cons x xs ih =>
    intro d
    rw [List.cons_append, defBeforeUse, defBeforeUse, ih]
    simp only [List.map_cons, List.append_assoc, List.singleton_append, Bool.and_assoc]

theorem quads_print (p : Parser) (x : Line) (hx : ∀ a b c d, x ≠ .quad a b c d) :
    quads (p.print x).out = quads p.out := by
  simp only [Parser.print, quads_append]
  cases x with
  | quad a b c d => exact absurd rfl (hx a b c d)
  | _ => simp [quads]

theorem quads_match (p : Parser) (ty : TokenType) :
    quads (p.match_ ty).out = quads p.out ∧ (p.match_ ty).tempCount = p.tempCount := by
  unfold Parser.match_
  split
  · exact ⟨rfl, rfl⟩
  · split
    · exact ⟨quads_print p _ (by simp), rfl⟩
    · exact ⟨rfl, rfl⟩

theorem quads_emit (p : Parser) (a b c d : List Char) :
    quads (p.emit a b c d).out = quads p.out ++ [(a, b, c, d)] := by
  simp [Parser.emit, Parser.print, quads_append, quads]

theorem tempsOk_match (p : Parser) (ty : TokenType) (h : p.TempsOk) : (p.match_ ty).TempsOk := by
  obtain ⟨a, b, c⟩ := h
  obtain ⟨hq, ht⟩ := quads_match p ty
  exact ⟨lookOk_match p ty a, by rw [hq]; exact b, by rw [hq, ht]; exact c⟩

theorem tempsOk_emit (p : Parser) (op l r : List Char) (h : p.TempsOk)
    (hop : op ∈ binaryOps) : (p.newTemp.2.emit op l r p.newTemp.1).TempsOk := by
  obtain ⟨a, b, c⟩ := h
  have hq : quads (p.newTemp.2.emit op l r p.newTemp.1).out =
      quads p.out ++ [(op, l, r, tempName (p.tempCount + 1))] := quads_emit _ _ _ _ _
  refine ⟨a, ?_, ?_⟩
  · rw [hq]
    intro q hq2
    rcases List.mem_append.mp hq2 with h1 | h1
    · exact b q h1
    · rw [List.mem_singleton] at h1
      rw [h1]; exact hop
  · rw [hq, List.map_append, c]
    exact (temps_succ p.tempCount).symm

theorem noTempLikeIds_match (p : Parser) (ty : TokenType) (hty : ty ≠ .END)
    (h : noTempLikeIds p.stream) : noTempLikeIds (p.match_ ty).stream := by
  by_cases hl : p.look.type = ty
  · have hs := (match_same p ty hty hl).1
    intro tok ht
    exact h tok (by rw [hs]; exact List.mem_cons_of_mem _ ht)
  · rw [(match_fail_stream p ty hl).1]
    exact h

theorem isTempLike_of_isNumber {a : List Char} (h : isNumber a = true) :
    isTempLike a = false := by
  cases a with
  | nil => rfl
  | cons c cs =>
    simp only [isNumber, List.isEmpty_cons, Bool.not_false, List.all_cons, Bool.true_and,
      Bool.and_eq_true] at h
    have hc : (c == 't') = false := by
      rw [beq_eq_false_iff_ne]
      intro he
      rw [he] at h
      exact absurd h.1 (by decide)
    simp [isTempLike, hc]

theorem look_value_number (p : Parser) (hl : p.LookOk) (h : p.look.type = .NUM) :
    isTempLike p.look.value = false := by
  obtain ⟨s, hs⟩ := hl
  rw [hs] at h ⊢
  exact isTempLike_of_isNumber ((nextToken_leaf s).2 h)

/-- The steps of a loop body: `match` of the operator, the right operand, then `newTemp` and
`emit`. -/
theorem tempsStep_loop (l : List Char) (p : Parser) (v r : List Char × Parser)
    (hop : p.TempsOk → p.look.value ∈ binaryOps) (hne : p.look.type ≠ .END)
    (h1 : Parser.TempsStep True (p.match_ p.look.type) v)
    (h2 : Parser.TempsStep (argOk (temps (v.2.tempCount + 1)) v.2.newTemp.1 = true)
      (v.2.newTemp.2.emit p.look.value l v.1 v.2.newTemp.1) r) :
    Parser.TempsStep (argOk (temps p.tempCount) l = true) p r := by
  intro hp
  have hpm := tempsOk_match p p.look.type hp
  obtain ⟨hq, htc⟩ := quads_match p p.look.type
  obtain ⟨a1, a2, a3⟩ := h1 hpm
  have hp3 := tempsOk_emit v.2 p.look.value l v.1 a1 (hop hp)
  obtain ⟨b1, b2, b3⟩ := h2 hp3
  have hc3 : (v.2.newTemp.2.emit p.look.value l v.1 v.2.newTemp.1).tempCount =
      v.2.tempCount + 1 := rfl
  rw [hc3] at b2
  rw [htc] at a2
  refine ⟨b1, by omega, ?_⟩
  intro hid hdu hl
  obtain ⟨c1, c2, c3⟩ := a3 (noTempLikeIds_match p _ hne hid) (by rw [hq]; exact hdu) trivial
  have hnew : argOk (temps (v.2.tempCount + 1)) v.2.newTemp.1 = true := by
    simp only [argOk, Bool.or_eq_true, decide_eq_true_eq]
    right
    rw [temps_succ]
    simp [Parser.newTemp, tempName]
  apply b3 c1 _ hnew
  have hq3 : quads (v.2.newTemp.2.emit p.look.value l v.1 v.2.newTemp.1).out =
      quads v.2.out ++ [(p.look.value, l, v.1, v.2.newTemp.1)] := quads_emit _ _ _ _ _
  rw [hq3, defBeforeUse_append, c2, a1.2.2]
  simp only [List.nil_append, Bool.true_and, Bool.and_eq_true]
  exact ⟨argOk_mono a2 hl, c3⟩

/-- The invariant on temporaries through the five parsing functions. -/
theorem parse_temps (n : Nat) :
    (∀ p r, parseE n p = some r → Parser.TempsStep True p r) ∧
    (∀ l p r, parseE_loop n l p = some r →
      Parser.TempsStep (argOk (temps p.tempCount) l = true) p r) ∧
    (∀ p r, parseT n p = some r → Parser.TempsStep True p r) ∧
    (∀ l p r, parseT_loop n l p = some r →
      Parser.TempsStep (argOk (temps p.tempCount) l = true) p r) ∧
    (∀ p r, parseF n p = some r → Parser.TempsStep True p r) := by
  apply parse_rec (fun p r => Parser.TempsStep True p r)
    (fun p r => Parser.TempsStep True p r) (fun p r => Parser.TempsStep True p r)
    (fun l p r => Parser.TempsStep (argOk (temps p.tempCount) l = true) p r)
    (fun l p r => Parser.TempsStep (argOk (temps p.tempCount) l = true) p r)
  · intro p v r h1 h2 hp
    have hp0 : (p.print .traceE).TempsOk := by
      obtain ⟨a, b, c⟩ := hp
      have hq := quads_print p .traceE (by simp)
      exact ⟨a, by rw [hq]; exact b, by rw [hq]; exact c⟩
    obtain ⟨a1, a2, a3⟩ := h1 hp0
    obtain ⟨b1, b2, b3⟩ := h2 a1
    have hc0 : (p.print .traceE).tempCount = p.tempCount := rfl
    rw [hc0] at a2
    refine ⟨b1, by omega, ?_⟩
    intro hid hdu _
    obtain ⟨c1, c2, c3⟩ := a3 hid (by rw [quads_print p .traceE (by simp)]; exact hdu) trivial
    exact b3 c1 c2 c3
  · intro l p v r hc h1 h2
    apply tempsStep_loop l p v r _ _ h1 h2
    · intro hp
      obtain ⟨op, hop⟩ := look_addOp p hp.1 hc
      rw [hop]
      cases op <;> decide
    · rcases hc with h | h <;> rw [h] <;> decide
  · intro l p _ hp
    exact ⟨hp, le_refl _, fun hid hdu hl => ⟨hid, hdu, hl⟩⟩
  · intro p v r h1 h2 hp
    obtain ⟨a1, a2, a3⟩ := h1 hp
    obtain ⟨b1, b2, b3⟩ := h2 a1
    refine ⟨b1, by omega, ?_⟩
    intro hid hdu _
    obtain ⟨c1, c2, c3⟩ := a3 hid hdu trivial
    exact b3 c1 c2 c3
  · intro l p v r hc h1 h2
    apply tempsStep_loop l p v r _ _ h1 h2
    · intro hp
      obtain ⟨op, hop⟩ := look_mulOp p hp.1 hc
      rw [hop]
      cases op <;> decide
    · rcases hc with h | h <;> rw [h] <;> decide
  · intro l p _ hp
    exact ⟨hp, le_refl _, fun hid hdu hl => ⟨hid, hdu, hl⟩⟩
  · intro p v hc h1 hp
    have hpm := tempsOk_match p .LPAREN hp
    obtain ⟨hq, htc⟩ := quads_match p .LPAREN
    obtain ⟨a1, a2, a3⟩ := h1 hpm
    obtain ⟨hq2, htc2⟩ := quads_match v.2 .RPAREN
    rw [htc] at a2
    refine ⟨tempsOk_match v.2 .RPAREN a1, by simp only; omega, ?_⟩
    intro hid hdu _
    obtain ⟨c1, c2, c3⟩ := a3 (noTempLikeIds_match p _ (by decide) hid)
      (by rw [hq]; exact hdu) trivial
    simp only
    rw [hq2, htc2]
    exact ⟨noTempLikeIds_match v.2 _ (by decide) c1, c2, c3⟩
  · intro p hc hc2 hp
    have hne : p.look.type ≠ .END := by rcases hc2 with h | h <;> rw [h] <;> decide
    obtain ⟨hq, htc⟩ := quads_match p p.look.type
    refine ⟨tempsOk_match p _ hp, by simp only; omega, ?_⟩
    intro hid hdu _
    simp only
    rw [hq]
    refine ⟨noTempLikeIds_match p _ hne hid, hdu, ?_⟩
    apply argOk_of_not_tempLike
    rcases hc2 with h | h
    · apply hid p.look _ h
      rw [stream_of_look p hne]
      exact List.mem_cons_self _ _
    · exact look_value_number p hp.1 h
  · intro p _ _ hp
    refine ⟨hp, le_refl _, ?_⟩
    intro hid hdu _
    exact ⟨hid, hdu, argOk_of_not_tempLike _ (show isTempLike ['?'] = false by decide)⟩

end SynAn

namespace SynAn

open CType

theorem tempsOk_init (input : List Char) : (Parser.init input).TempsOk :=
  ⟨lookOk_init input, by simp [init_out, quads],
    by simp [init_out, init_tempCount, quads, temps]⟩

theorem tempResults_nil_of_quads {p : Parser} (hq : quads p.out = []) (hc : p.tempCount = 0) :
    tempResults (quads p.out) = temps p.tempCount ∧ defBeforeUse [] (quads p.out) = true := by
  rw [hq, hc]
  exact ⟨rfl, rfl⟩

/-- The quadruples of a run whose expression parser stopped in `p3` with operand `res`: the
results of the binary quadruples are `t1 … tn`, and arguments are defined before use. -/
theorem temps_final (p p3 : Parser) (res target : List Char) (h3 : p3.TempsOk)
    (hq : quads p.out = quads p3.out ++ [(['='], res, ['_'], target)])
    (hc : p.tempCount = p3.tempCount) :
    tempResults (quads p.out) = temps p.tempCount ∧
      (defBeforeUse [] (quads p3.out) = true → argOk (temps p3.tempCount) res = true →
        defBeforeUse [] (quads p.out) = true) := by
  obtain ⟨_, hb, hr⟩ := h3
  constructor
  · rw [hq, hc, tempResults, List.filter_append, List.map_append]
    have hf : (quads p3.out).filter (fun q => decide (q.1 ∈ binaryOps)) = quads p3.out := by
      rw [List.filter_eq_self]
      intro q hq2
      simpa using hb q hq2
    rw [hf, hr]
    simp [binaryOps]
  · intro hd ha
    rw [hq, defBeforeUse_append, hd, hr]
    simp only [List.nil_append, Bool.true_and, Bool.and_eq_true]
    exact ⟨ha, argOk_of_not_tempLike _ (by decide)⟩

/-- The temporaries of every run of `parseAssignment`. -/
theorem parseAssignment_temps (input : List Char) :
    ∃ p, parseAssignment input = some p ∧ tempResults (quads p.out) = temps p.tempCount ∧
      (noTempLikeIds (tokens input) → defBeforeUse [] (quads p.out) = true) := by
  have hq0 : quads (Parser.init input).out = [] := by simp [init_out, quads]
  have hq1 := quads_match (Parser.init input) .ID
  have hq2 := quads_match ((Parser.init input).match_ .ID) .ASSIGN
  rcases parseAssignment_cases input with ⟨_, h⟩ | ⟨_, _, h⟩ | ⟨h0, h1, res, p3, hE, h⟩
  · have hq : quads ((Parser.init input).print .notIdentifier).out = [] := by
      rw [quads_print _ _ (by simp), hq0]
    obtain ⟨a, c⟩ := tempResults_nil_of_quads hq rfl
    exact ⟨_, h, a, fun _ => c⟩
  · have hq : quads (((Parser.init input).match_ .ID).print .missingAssign).out = [] := by
      rw [quads_print _ _ (by simp), hq1.1, hq0]
    have hc : (((Parser.init input).match_ .ID).print .missingAssign).tempCount = 0 := hq1.2
    obtain ⟨a, c⟩ := tempResults_nil_of_quads hq hc
    exact ⟨_, h, a, fun _ => c⟩
  · have hp2 := tempsOk_match _ .ASSIGN (tempsOk_match _ .ID (tempsOk_init input))
    obtain ⟨h3, _, hdu⟩ := (parse_temps _).1 _ _ hE hp2
    simp only at h3 hdu
    have hq4 := quads_emit p3 ['='] res ['_'] (Parser.init input).look.value
    have key : ∀ p : Parser,
        quads p.out = quads p3.out ++ [(['='], res, ['_'], (Parser.init input).look.value)] →
        p.tempCount = p3.tempCount →
        tempResults (quads p.out) = temps p.tempCount ∧
          (noTempLikeIds (tokens input) → defBeforeUse [] (quads p.out) = true) := by
      intro p hq hc
      obtain ⟨a, b⟩ := temps_final p p3 res _ h3 hq hc
      refine ⟨a, ?_⟩
      intro hid
      rw [← stream_init] at hid
      have hid2 := noTempLikeIds_match _ .ASSIGN (by decide)
        (noTempLikeIds_match _ .ID (by decide) hid)
      obtain ⟨_, c2, c3⟩ := hdu hid2 (by rw [hq2.1, hq1.1, hq0]; rfl) trivial
      exact b c2 c3
    have hq5 := quads_match (p3.emit ['='] res ['_'] (Parser.init input).look.value) .SEMI
    rcases h with ⟨_, h⟩ | ⟨_, h⟩
    · obtain ⟨a, b⟩ := key
        ((p3.emit ['='] res ['_'] (Parser.init input).look.value).print .missingSemi)
        (by rw [quads_print _ _ (by simp), hq4]) rfl
      exact ⟨_, h, a, b⟩
    · refine ⟨_, h, ?_⟩
      split
      · exact key
          (((p3.emit ['='] res ['_'] (Parser.init input).look.value).match_ .SEMI).print
            .success)
          (by rw [quads_print _ _ (by simp), hq5.1, hq4]) hq5.2
      · exact key ((p3.emit ['='] res ['_'] (Parser.init input).look.value).match_ .SEMI)
          (by rw [hq5.1, hq4]) hq5.2

/-- C17: on every input line, well-formed or not, the result fields of the quadruples emitted
with a binary operator are exactly `t1, t2, …, tn` in emission order, `n` being the final
value of the counter, and no name occurs twice among them; and when no identifier of the line
has the form `t<decimal digits>`, every quadruple argument of that form is the result of a
strictly earlier quadruple. -/
theorem quadruple_temporaries (input : List Char) :
    ∃ p, parseAssignment input = some p ∧ tempResults (quads p.out) = temps p.tempCount ∧
      (tempResults (quads p.out)).Nodup ∧
      (noTempLikeIds (tokens input) → defBeforeUse [] (quads p.out) = true) := by
  obtain ⟨p, hp, a, b⟩ := parseAssignment_temps input
  exact ⟨p, hp, a, by rw [a]; exact temps_nodup _, b⟩

/-- C17, witness: `ans = (a + b) * 10;` issues `t1`, `t2`, and uses `t1`, `t2` after their
definition. -/
theorem quadruple_temporaries_witness :
    noTempLikeIds (tokens "ans = (a + b) * 10;".toList) ∧
    (∃ p, parseAssignment "ans = (a + b) * 10;".toList = some p ∧
      tempResults (quads p.out) = temps p.tempCount ∧ (tempResults (quads p.out)).Nodup ∧
      (noTempLikeIds (tokens "ans = (a + b) * 10;".toList) →
        defBeforeUse [] (quads p.out) = true)) ∧
    (parseAssignment "ans = (a + b) * 10;".toList).map (fun p => tempResults (quads p.out)) =
      some ["t1".toList, "t2".toList] :=
  ⟨by unfold noTempLikeIds; decide, quadruple_temporaries "ans = (a + b) * 10;".toList,
    by decide⟩

/-- C18, the claim fails: on `x = t1 + a;` the name `newTemp` returns is `t1`, the name of an
identifier of the statement; the quadruple `(+, t1, a, t1)` overwrites the source variable. -/
theorem newTemp_collides_with_identifier :
    (parseAssignment "x = t1 + a;".toList).map (fun p => quads p.out) =
      some [("+".toList, "t1".toList, "a".toList, "t1".toList),
        ("=".toList, "t1".toList, "_".toList, "x".toList)] ∧
    (⟨.ID, "t1".toList⟩ : Token) ∈ tokens "x = t1 + a;".toList := by
  decide

/-- C18, amended: in every run the names returned by `newTemp` are pairwise different, and
they differ from every token text of the input line, identifier or not, that is not itself of
the form `t<decimal digits>`. -/
theorem newTemp_names_fresh (input : List Char) :
    ∃ p, parseAssignment input = some p ∧ (tempResults (quads p.out)).Nodup ∧
      ∀ tok ∈ tokens input, isTempLike tok.value = false →
        tok.value ∉ tempResults (quads p.out) := by
  obtain ⟨p, hp, a, _⟩ := parseAssignment_temps input
  refine ⟨p, hp, by rw [a]; exact temps_nodup _, ?_⟩
  intro tok _ hnt hmem
  rw [a] at hmem
  rw [temps_isTempLike _ _ hmem] at hnt
  cases hnt

/-- C18 amended, witness: in `x = a + b * c;` the temporaries `t1`, `t2` differ from each
other and from `x`, `a`, `b`, `c`. -/
theorem newTemp_names_fresh_witness :
    (parseAssignment "x = a + b * c;".toList).map (fun p => tempResults (quads p.out)) =
      some ["t1".toList, "t2".toList] ∧
    ∃ p, parseAssignment "x = a + b * c;".toList = some p ∧
      (tempResults (quads p.out)).Nodup ∧
      ∀ tok ∈ tokens "x = a + b * c;".toList, isTempLike tok.value = false →
        tok.value ∉ tempResults (quads p.out) :=
  ⟨by decide, newTemp_names_fresh "x = a + b * c;".toList⟩

end SynAn
